import Mathlib

/-!
# Consensus DAG manager: block admission and milestone promotion

A shallow embedding of `src/consensus/dag_manager.cpp` (class `DAGManager`) together with
the parts of `BlockStore` (`src/storage/storage.h`) and of the `Chain` / milestone-chain
container that the manager calls.

* Functions whose body is in `dag_manager.cpp` are translated statement by statement and keep
  their C++ names (`AddNewBlock`, `CheckPuntuality`, `AddBlockToPending`, `ProcessMilestone`,
  `DeleteFork`, `GetMsVertex`, `FlushTrigger`, `FlushToSTORE`, `CheckMsPOW`, `ConstructLocator`,
  `TraverseMilestoneBackward`, `TraverseMilestoneForward`, `RespondRequestInv`, `RequestData`,
  `GetHeight`, `GetLevelSet`, `GetMainChainRawLevelSet`, ...).
* Collaborators whose body lives in other translation units (`Block::Verify`,
  `Chain::Verify`, `Chain::IsMilestone`, the `Chain` copy-fork constructor,
  `arith_uint256::GetCompact`, `Chain::GetLeastHeightCached`, the level-set and height reads
  of the Store, the consensus parameters, `Inv::kMaxInventorySize`, `maxGetDataSize`) are
  fields of the record `Collab`.
* Dereferencing a null pointer or an end iterator is undefined behaviour in C++; the embedding
  makes it explicit as the outcome `Run.ub`.
* Heights, chainwork, targets and sizes are natural numbers: the code compares them, and the
  subtractions `bestHeight - ms->height` and `milestones.size() - threshold` are guarded by
  the comparison before them.  The cursor height of `TraverseMilestoneForward` is computed
  modulo `2 ^ 64`, the counters of `TraverseMilestoneBackward` and of the copy loop of
  `GetMainChainRawLevelSet` are `int`s, and the clock difference of `EnableOBC` is a signed
  integer.
* Work handed to another worker pool (the storage task of a flush, the re-submission of released
  orphans, relay and peer messages) is recorded in the call log `DAGManager.log`; the body of
  the storage task is `storageTask`, and the messages sent to a peer are kept in `Peer.sent`.
* The milestone-chain container (`best`, `emplace`, `update_best`, `erase`) and the methods of
  `Chain` are in other translation units; they are modelled from the specification, each under
  a comment that says so.
-/

namespace Epic

/-- Hash values (`uint256`); the manager only compares them. -/
abbrev uint256 := Nat

/-- One transaction output. -/
structure TxOutput where
  value : Nat
  deriving DecidableEq

/-- A transaction, reduced to its outputs (`Transaction::GetOutputs`). -/
structure Transaction where
  outputs : List TxOutput
  deriving DecidableEq

/-- Candidate unspent output `UTXO(output, txIndex, outIndex)`. -/
structure UTXO where
  output : TxOutput
  txIndex : Nat
  outIndex : Nat
  deriving DecidableEq

/-- A block: its hash, its three parent references, header fields and transactions. -/
structure Block where
  hash : uint256
  milestoneHash : uint256
  prevHash : uint256
  tipHash : uint256
  time : Nat
  diffTarget : Nat
  proofHash : Nat
  transactions : List Transaction
  deriving DecidableEq

/-- Milestone snapshot (`Milestone`, held through `MilestonePtr`).  `ptr` is the identity of the
shared object (what `MilestonePtr` comparison looks at); `cblock` and `height` are those of the
milestone vertex returned by `GetMilestone()`.  The mutable flag `stored` of the shared object
lives in `DAGManager.storedMs`, keyed by `ptr`. -/
structure Milestone where
  ptr : Nat
  cblock : Block
  height : Nat
  chainwork : Nat
  blockTarget : Nat
  milestoneTarget : Nat
  numOfValidTxns : Nat
  levelSet : List Block
  deriving DecidableEq

/-- A vertex of the DAG (`Vertex`, held through `VertexPtr`); `snapshot` is null for a vertex
that is not a milestone. -/
structure Vertex where
  cblock : Block
  height : Nat
  isMilestone : Bool
  snapshot : Option Milestone
  deriving DecidableEq

/-- A candidate branch (`Chain`): the `ismainchain_` flag, the milestone deque (oldest first),
the pending blocks, the pending UTXO candidates and the vertex cache. -/
structure Chain where
  ismainchain : Bool
  milestones : List Milestone
  pendingBlocks : List Block
  pendingUTXOs : List UTXO
  vertexCache : List Vertex
  deriving DecidableEq

/-- What one call of `Chain::Verify` leaves behind on success: the new milestone vertex and the
chain's pending blocks, pending UTXOs and vertex cache after the level set has been sealed. -/
structure VerifyOutput where
  vertex : Vertex
  pendingBlocks : List Block
  pendingUTXOs : List UTXO
  vertexCache : List Vertex
  deriving DecidableEq

/-- The block store (`BlockStore`): durable vertices, persisted head height, the block cache and
the orphan block container with the mask of every orphan. -/
structure BlockStore where
  db : List Vertex
  headHeight : Nat
  blockCache : List Block
  obc : List (Block × Nat)
  obcEnabled : Bool
  deriving DecidableEq

/-- Calls that leave the manager: relay, peer sync, listener notification, re-submission of
released orphans, storage-pool tasks; and the two internal calls whose occurrence the
properties below speak about. -/
inductive Event where
  | relayBlock (b : Block)
  | startSync (peer : Nat)
  | addBlockToPending (b : Block)
  | processMilestone (b : Block)
  | onChainUpdated (b : Block) (isMain : Bool)
  | resubmit (b : Block)
  | storageTask (ms : Milestone)
  deriving DecidableEq

/-- Counters of `StatData` updated by `UpdateStatOnLvsStored`. -/
structure StatData where
  nTxCnt : Nat
  nBlkCnt : Nat
  tStart : Nat
  deriving DecidableEq

/-- State of the `DAGManager` and of the store it drives.  `msVertices` is the concurrent map
`msVertices_` (a `VertexPtr` value may be null), `storedMs` holds the `ptr` of every milestone
object whose `stored` flag is set, `log` records the outgoing calls in order. -/
structure DAGManager where
  milestoneChains : List Chain
  msVertices : List (uint256 × Option Vertex)
  downloading : List uint256
  store : BlockStore
  storedMs : List Nat
  stat : StatData
  log : List Event
  deriving DecidableEq

/-- Collaborators and constants that the manager uses and whose code is elsewhere. -/
structure Collab where
  genesis : Block
  genesisVertex : Vertex
  punctualityThred : Nat
  deleteForkThreshold : Nat
  obcEnableThreshold : Nat
  blockVerify : Block → Bool
  isFirstRegistration : Block → Bool
  getCompact : Nat → Nat
  verifyLevelSet : Chain → Block → Option VerifyOutput
  forkChain : Chain → Block → Chain
  chainIsMilestone : Chain → BlockStore → uint256 → Bool
  kMaxInventorySize : Nat
  maxGetDataSize : Nat
  leastHeightCached : Chain → Nat
  storeGetHeight : BlockStore → uint256 → Nat
  storeRawLevelSetAt : BlockStore → Nat → List Block
  storeLevelSetVtcsAt : BlockStore → Nat → List Block

/-- Outcome of running manager code: a result, or undefined behaviour reached in the given
manager state. -/
inductive Run (α : Type) where
  | ok (a : α)
  | ub (s : DAGManager)
  deriving DecidableEq

/-- Sequencing of outcomes; undefined behaviour is final. -/
def Run.bind {α β : Type} (r : Run α) (f : α → Run β) : Run β :=
  match r with
  | Run.ok a => f a
  | Run.ub s => Run.ub s

instance : Monad Run where
  pure := Run.ok
  bind := Run.bind

/-- Dereference of a pointer that may be null, in manager state `s`. -/
def deref {α : Type} (s : DAGManager) : Option α → Run α
  | some a => Run.ok a
  | none => Run.ub s

/-! ## Block store -/

/-- Hash lookup in the durable part: `BlockStore::DBExists`. -/
def BlockStore.DBExists (st : BlockStore) (h : uint256) : Bool :=
  st.db.any (fun v => v.cblock.hash == h)

/-- Existence in cache or DB, `BlockStore::DAGExists`
("Returns true if the hash exists in cache or DB"). -/
def BlockStore.DAGExists (st : BlockStore) (h : uint256) : Bool :=
  st.blockCache.any (fun b => b.hash == h) || st.DBExists h

/-- Membership of a hash in the orphan block container. -/
def BlockStore.OBCContains (st : BlockStore) (h : uint256) : Bool :=
  st.obc.any (fun e => e.1.hash == h)

/-- Existence anywhere, `BlockStore::Exists`
("Returns true if the hash exists in one of OBC or DAG"). -/
def BlockStore.Exists (st : BlockStore) (h : uint256) : Bool :=
  st.OBCContains h || st.DAGExists h

/-- Modelled from the spec: `BlockStore::IsWeaklySolid`, declared in `storage.h` with the
comment "if ancestors are all in either DAG or OBC"; its body is not in the sources. -/
def BlockStore.IsWeaklySolid (st : BlockStore) (b : Block) : Bool :=
  st.Exists b.milestoneHash && st.Exists b.prevHash && st.Exists b.tipHash

/-- Modelled from the spec: `BlockStore::AnyLinkIsOrphan`, declared in `storage.h` with the
comment "if any ancestor is in OBC"; its body is not in the sources. -/
def BlockStore.AnyLinkIsOrphan (st : BlockStore) (b : Block) : Bool :=
  st.OBCContains b.milestoneHash || st.OBCContains b.prevHash || st.OBCContains b.tipHash

/-- Modelled from the spec: `BlockStore::AddBlockToOBC(blk, mask)`; the container records the
block with its mask, and while the OBC is disabled the block is dropped instead. -/
def BlockStore.AddBlockToOBC (st : BlockStore) (b : Block) (mask : Nat) : BlockStore :=
  if st.obcEnabled then { st with obc := st.obc ++ [(b, mask)] } else st

/-- Insertion into the block cache: `BlockStore::Cache`. -/
def BlockStore.Cache (st : BlockStore) (b : Block) : BlockStore :=
  { st with blockCache := st.blockCache ++ [b] }

/-- Lookup of a durable vertex: `BlockStore::GetVertex`. -/
def BlockStore.GetVertex (st : BlockStore) (h : uint256) : Option Vertex :=
  st.db.find? (fun v => v.cblock.hash == h)

/-- Lookup of the durable milestone of a height: `BlockStore::GetMilestoneAt`. -/
def BlockStore.GetMilestoneAt (st : BlockStore) (height : Nat) : Option Vertex :=
  st.db.find? (fun v => v.isMilestone && v.height == height)

/-- Mask of an orphan after parent `h` has arrived: the bit of every link equal to `h` is
cleared (bit 0 milestone link, bit 1 tip link, bit 2 prev link). -/
def clearArrived (h : uint256) (e : Block × Nat) : Block × Nat :=
  let m0 := if e.1.milestoneHash = h then e.2 &&& 6 else e.2
  let m1 := if e.1.tipHash = h then m0 &&& 5 else m0
  let m2 := if e.1.prevHash = h then m1 &&& 3 else m1
  (e.1, m2)

/-- Modelled from the spec: `BlockStore::ReleaseBlocks(hash)` (OBC `Release`); the bit of the
arrived parent is cleared on every waiting child, and the children whose mask reaches zero
leave the container, in insertion order, to be submitted to the verifier again. -/
def BlockStore.ReleaseBlocks (st : BlockStore) (h : uint256) : BlockStore × List Block :=
  let upd := st.obc.map (clearArrived h)
  ({ st with obc := upd.filter (fun e => e.2 != 0) },
   (upd.filter (fun e => e.2 == 0)).map (fun e => e.1))

/-- Switching the OBC on: `BlockStore::EnableOBC`. -/
def BlockStore.EnableOBC (st : BlockStore) : BlockStore :=
  { st with obcEnabled := true }

/-! ## Chain and the milestone-chain container -/

/-- Hash of the milestone block of a snapshot: `Milestone::GetMilestoneHash`. -/
def Milestone.GetMilestoneHash (m : Milestone) : uint256 := m.cblock.hash

/-- The milestone vertex of a snapshot: `Milestone::GetMilestone`. -/
def Milestone.GetMilestone (m : Milestone) : Vertex :=
  { cblock := m.cblock, height := m.height, isMilestone := true, snapshot := some m }

/-- Head of the chain, the back of the milestone deque: `Chain::GetChainHead`. -/
def Chain.GetChainHead (c : Chain) : Option Milestone := c.milestones.getLast?

/-- Lookup of a milestone vertex in the chain's vertex cache: `Chain::GetMsVertexCache`. -/
def Chain.GetMsVertexCache (c : Chain) (h : uint256) : Option Vertex :=
  c.vertexCache.find? (fun v => v.cblock.hash == h && v.isMilestone)

/-- Modelled from the spec: `Chain::AddPendingBlock`; "store in pending set keyed by hash.
Idempotent." -/
def Chain.AddPendingBlock (c : Chain) (b : Block) : Chain :=
  if c.pendingBlocks.any (fun p => p.hash == b.hash) then c
  else { c with pendingBlocks := c.pendingBlocks ++ [b] }

/-- Modelled from the spec: `Chain::AddPendingUTXOs`; "record candidate outputs". -/
def Chain.AddPendingUTXOs (c : Chain) (utxos : List UTXO) : Chain :=
  { c with pendingUTXOs := c.pendingUTXOs ++ utxos }

/-- Modelled from the spec: `Chain::Verify`; on success the level set leaves the pending set and
the new milestone vertex is returned, "a failed Verify leaves the Chain unchanged and returns
an error sentinel" (the null vertex).  What the verification computes is `verifyLevelSet`. -/
def Chain.Verify (env : Collab) (c : Chain) (b : Block) : Option Vertex × Chain :=
  match env.verifyLevelSet c b with
  | some out =>
    (some out.vertex,
     { c with pendingBlocks := out.pendingBlocks, pendingUTXOs := out.pendingUTXOs,
              vertexCache := out.vertexCache })
  | none => (none, c)

/-- Modelled from the spec: `Chain::AddNewMilestone(vertex)`; the snapshot of the vertex
becomes the new back of the milestone deque. -/
def Chain.AddNewMilestone (c : Chain) (m : Milestone) : Chain :=
  { c with milestones := c.milestones ++ [m] }

/-- Modelled from the spec: the copy-fork constructor `Chain(const Chain&, block)`; a new chain
that is not the main chain, forked from the given one at the milestone the block refers to. -/
def Chain.fork (env : Collab) (c : Chain) (b : Block) : Chain :=
  { env.forkChain c b with ismainchain := false }

/-- Chainwork at the head of a chain (zero for an empty deque). -/
def Chain.headWork (c : Chain) : Nat :=
  match c.GetChainHead with
  | some m => m.chainwork
  | none => 0

/-- Position of the tracked best chain in the container. -/
def bestIdx : List Chain → Option Nat
  | [] => none
  | c :: cs => if c.ismainchain then some 0 else (bestIdx cs).map (fun i => i + 1)

/-- The tracked best chain of the container: `best()`. -/
def bestOf (cs : List Chain) : Option Chain :=
  cs.find? (fun c => c.ismainchain)

/-- Moving the best mark to position `i`. -/
def markBest : List Chain → Nat → List Chain
  | [], _ => []
  | c :: cs, 0 => { c with ismainchain := true } :: cs.map (fun d => { d with ismainchain := false })
  | c :: cs, i + 1 => { c with ismainchain := false } :: markBest cs i

/-- Modelled from the spec: `update_best(it)` of the milestone-chain container, whose code is not
under src/; "update the tracked best pointer to the chain with strictly greater chainwork;
return true iff best changed to the argument" (section 4.4).  A chain whose head has the same
chainwork as the tracked one leaves the tracked chain in place; the sentence of section 3 on
ties ("ties broken by earliest insertion") is not part of this model. -/
def update_best (cs : List Chain) (i : Nat) : List Chain × Bool :=
  match cs.get? i, bestOf cs with
  | some c, some b =>
    if !c.ismainchain && b.headWork < c.headWork then (markBest cs i, true) else (cs, false)
  | some _, none => (markBest cs i, true)
  | none, _ => (cs, false)

/-- Modelled from the spec: `emplace(newChain)` of the milestone-chain container; insertion at
the back "with automatic best tracking". -/
def emplace (cs : List Chain) (c : Chain) : List Chain × Bool :=
  update_best (cs ++ [c]) cs.length

/-! ## The manager -/

/-- Value stored under a key of `msVertices_`: `get_value`. -/
def msLookup (mv : List (uint256 × Option Vertex)) (h : uint256) : Option (Option Vertex) :=
  (mv.find? (fun e => e.1 == h)).map (fun e => e.2)

/-- Insertion that keeps an existing entry of the same key: `msVertices_.emplace`. -/
def msEmplace (mv : List (uint256 × Option Vertex)) (h : uint256) (v : Option Vertex) :
    List (uint256 × Option Vertex) :=
  if mv.any (fun e => e.1 == h) then mv else mv ++ [(h, v)]

/-- Removal of a key: `msVertices_.erase`. -/
def msErase (mv : List (uint256 × Option Vertex)) (h : uint256) :
    List (uint256 × Option Vertex) :=
  mv.filter (fun e => e.1 != h)

/-- The best chain of the manager, `DAGManager::GetBestChain`, dereferenced. -/
def GetBestChain (s : DAGManager) : Run Chain :=
  deref s (bestOf s.milestoneChains)

/-- Milestone vertex of a hash, `DAGManager::GetMsVertex`: the entry of `msVertices_` if the key
is present, else the durable vertex if it carries a snapshot, else null.  (The source also reads
the best chain's vertex cache and discards the result.) -/
def GetMsVertex (s : DAGManager) (msHash : uint256) : Option Vertex :=
  match msLookup s.msVertices msHash with
  | some vtx => vtx
  | none =>
    match s.store.GetVertex msHash with
    | some pvtx => if pvtx.snapshot.isSome then some pvtx else none
    | none => none

/-- Vertex of the best head, `DAGManager::GetMilestoneHead`, dereferenced by the caller. -/
def GetMilestoneHead (s : DAGManager) : Run Vertex := do
  let bestchain ← GetBestChain s
  match bestchain.GetChainHead with
  | none => deref s (s.store.GetMilestoneAt s.store.headHeight)
  | some head => pure head.GetMilestone

/-- Height of the best head: `DAGManager::GetBestMilestoneHeight`. -/
def GetBestMilestoneHeight (s : DAGManager) : Run Nat := do
  let bestchain ← GetBestChain s
  match bestchain.GetChainHead with
  | none => pure s.store.headHeight
  | some head => pure head.height

/-- Punctuality of a block that points at milestone vertex `ms`:
`DAGManager::CheckPuntuality`. -/
def CheckPuntuality (env : Collab) (s : DAGManager) (ms : Vertex) : Run Bool := do
  let bestHeight ← GetBestMilestoneHeight s
  if bestHeight > ms.height && (bestHeight - ms.height) >= env.punctualityThred then
    pure false
  else
    pure true

/-- Milestone proof-of-work test `CheckMsPOW`:
`!(UintToArith256(b->GetProofHash()) > m->milestoneTarget)`. -/
def CheckMsPOW (b : Block) (m : Milestone) : Bool :=
  !(b.proofHash > m.milestoneTarget)

/-- The lambda `mask` of `AddNewBlock`:
`(!DAGExists(msHash) << 0) | (!DAGExists(prevHash) << 2) | (!DAGExists(tipHash) << 1)`. -/
def solidityMask (st : BlockStore) (blk : Block) : Nat :=
  ((!st.DAGExists blk.milestoneHash).toNat <<< 0) |||
  ((!st.DAGExists blk.prevHash).toNat <<< 2) |||
  ((!st.DAGExists blk.tipHash).toNat <<< 1)

/-- Inner loop of the UTXO extraction: `for (j = 0; j < outs.size(); ++j)`, entered at `j`. -/
def utxosOfOutputs (i : Nat) : List TxOutput → Nat → List UTXO
  | [], _ => []
  | o :: outs, j => { output := o, txIndex := i, outIndex := j } :: utxosOfOutputs i outs (j + 1)

/-- Outer loop of the UTXO extraction: `for (i = 0; i < txns.size(); ++i)`, entered at `i`. -/
def utxosOfTxns : List Transaction → Nat → List UTXO
  | [], _ => []
  | t :: txns, i => utxosOfOutputs i t.outputs 0 ++ utxosOfTxns txns (i + 1)

/-- The vector `utxos` built at the start of `AddBlockToPending`. -/
def extractUTXOs (block : Block) : List UTXO :=
  utxosOfTxns block.transactions 0

/-- The UTXO list in the words of the specification: one entry per output of each transaction,
`(output, i, j)`, listed by transaction index and then output index. -/
def utxosSpec (block : Block) : List UTXO :=
  (block.transactions.enum).flatMap
    (fun it => (it.2.outputs.enum).map
      (fun jo => { output := jo.2, txIndex := it.1, outIndex := jo.1 }))

/-- Order of the UTXO candidates: by transaction index, then by output index. -/
def utxoBefore (a b : UTXO) : Prop :=
  a.txIndex < b.txIndex ∨ (a.txIndex = b.txIndex ∧ a.outIndex < b.outIndex)

/-- Body of the loop "Add to pending on every chain" of `AddBlockToPending`. -/
def addPendingOn (env : Collab) (block : Block) (utxos : List UTXO) (chain : Chain) : Chain :=
  let c1 := chain.AddPendingBlock block
  if !env.isFirstRegistration block then c1.AddPendingUTXOs utxos else c1

/-- The loop "Add to pending on every chain" of `AddBlockToPending`. -/
def addPendingOnEveryChain (env : Collab) (block : Block) (cs : List Chain) : List Chain :=
  cs.map (addPendingOn env block (extractUTXOs block))

/-- Milestone promotion on one chain, `DAGManager::ProcessMilestone`.  The chain is the object
behind the `ChainPtr`; the caller writes it back.  The result of `Verify` is stored in
`msVertices_` before it is dereferenced for `AddNewMilestone`. -/
def ProcessMilestone (env : Collab) (s : DAGManager) (chain : Chain) (block : Block) :
    Run (DAGManager × Chain) := do
  let s0 := { s with log := s.log ++ [Event.processMilestone block] }
  let (newMs, chain1) := chain.Verify env block
  let s1 := { s0 with msVertices := msEmplace s0.msVertices block.hash newMs }
  let vtx ← deref s1 newMs
  let snap ← deref s1 vtx.snapshot
  let chain2 := chain1.AddNewMilestone snap
  pure ({ s1 with downloading := s1.downloading.filter (fun h => h != block.hash) }, chain2)

/-- OBC re-enabling after a best-chain milestone: `DAGManager::EnableOBC`. -/
def EnableOBC (env : Collab) (s : DAGManager) (now : Int) : Run DAGManager := do
  let head ← GetMilestoneHead s
  let headTime : Int := head.cblock.time
  if now - headTime < env.obcEnableThreshold then
    pure { s with store := s.store.EnableOBC }
  else
    pure s

/-- Inner loop of `DeleteFork`: walk the milestones of the fork from the newest to the oldest,
stop at the first one found in the best chain's milestone vertex cache, erase the others from
`msVertices_`. -/
def eraseForkMs (bestchain : Chain) :
    List Milestone → List (uint256 × Option Vertex) → List (uint256 × Option Vertex)
  | [], mv => mv
  | m :: ms, mv =>
    if (bestchain.GetMsVertexCache m.GetMilestoneHash).isSome then mv
    else eraseForkMs bestchain ms (msErase mv m.GetMilestoneHash)

/-- Outer loop of `DeleteFork` over the chains; the result is the surviving chains and the
milestone map, or nothing when the head of an empty fork is dereferenced. -/
def deleteForkLoop (bestchain : Chain) (targetChainWork : Nat) :
    List Chain → List (uint256 × Option Vertex) →
    Option (List Chain × List (uint256 × Option Vertex))
  | [], mv => some ([], mv)
  | c :: cs, mv =>
    if c.ismainchain then
      (deleteForkLoop bestchain targetChainWork cs mv).map (fun r => (c :: r.1, r.2))
    else
      match c.GetChainHead with
      | none => none
      | some head =>
        if head.chainwork < targetChainWork then
          deleteForkLoop bestchain targetChainWork cs (eraseForkMs bestchain c.milestones.reverse mv)
        else
          (deleteForkLoop bestchain targetChainWork cs mv).map (fun r => (c :: r.1, r.2))

/-- Pruning of forks that fell behind: `DAGManager::DeleteFork`.  The target is read at
`milestones.end() - deleteForkThreshold`. -/
def DeleteFork (env : Collab) (s : DAGManager) : Run DAGManager := do
  let bestchain ← GetBestChain s
  let milestones := bestchain.milestones
  if milestones.length ≤ env.deleteForkThreshold then
    pure s
  else
    let target ← deref s (milestones.get? (milestones.length - env.deleteForkThreshold))
    let r ← deref s (deleteForkLoop bestchain target.chainwork s.milestoneChains s.msVertices)
    pure { s with milestoneChains := r.1, msVertices := r.2 }

/-- Statistics update `DAGManager::UpdateStatOnLvsStored`. -/
def UpdateStatOnLvsStored (s : DAGManager) (pms : Milestone) : Run DAGManager := do
  let st1 := { s.stat with nTxCnt := s.stat.nTxCnt + pms.numOfValidTxns,
                           nBlkCnt := s.stat.nBlkCnt + pms.levelSet.length }
  let s1 := { s with stat := st1 }
  if st1.tStart = 0 then
    let front ← deref s1 pms.levelSet.head?
    pure { s1 with stat := { st1 with tStart := front.time } }
  else
    pure s1

/-- Flush of one milestone, `DAGManager::FlushToSTORE`, up to the hand-over to the storage
pool: statistics, `stored = true`, and the storage task. -/
def FlushToSTORE (s : DAGManager) (ms : Milestone) : Run DAGManager := do
  let s1 ← UpdateStatOnLvsStored s ms
  let _ ← GetBestChain s1
  pure { s1 with storedMs := ms.ptr :: s1.storedMs, log := s1.log ++ [Event.storageTask ms] }

/-- Comparison of the cursor with every fork iterator, in order, as in the inner loop of
`FlushTrigger`: nothing when an end iterator is dereferenced, `false` at the first fork that
holds another milestone object. -/
def forksAgree (cursor : Milestone) : List (List Milestone) → Option Bool
  | [] => some true
  | f :: fs =>
    match f.head? with
    | none => none
    | some x => if cursor.ptr != x.ptr then some false else forksAgree cursor fs

/-- Main loop of `FlushTrigger` over the best-chain milestones that are old enough; a fork
iterator is the remaining part of the fork's deque. -/
def flushLoop : List Milestone → List (List Milestone) → DAGManager → Run DAGManager
  | [], _, s => pure s
  | cursor :: rest, forks, s =>
    if s.storedMs.contains cursor.ptr then
      flushLoop rest (forks.map List.tail) s
    else
      match forksAgree cursor forks with
      | none => Run.ub s
      | some false => pure s
      | some true =>
        match FlushToSTORE s cursor with
        | Run.ok s1 => flushLoop rest (forks.map List.tail) s1
        | Run.ub s1 => Run.ub s1

/-- The chains other than the one at position `i`. -/
def othersThan (cs : List Chain) (i : Nat) : List Chain :=
  cs.eraseIdx i

/-- Flush of the milestones every chain agrees on: `DAGManager::FlushTrigger`. -/
def FlushTrigger (env : Collab) (s : DAGManager) : Run DAGManager := do
  let bestChain ← GetBestChain s
  if bestChain.milestones.length ≤ env.punctualityThred then
    pure s
  else
    let i ← deref s (bestIdx s.milestoneChains)
    let forks := (othersThan s.milestoneChains i).map (fun c => c.milestones)
    flushLoop (bestChain.milestones.take (bestChain.milestones.length - env.punctualityThred))
      forks s

/-- The loop "Check if it's a milestone on any other chain" of `AddBlockToPending`, entered at
position `i` with the chains `cs` still to visit. -/
def promoteOnForks (env : Collab) (s : DAGManager) (block : Block) :
    List Chain → Nat → Run DAGManager
  | [], _ => pure s
  | chain :: cs, i =>
    if chain.ismainchain then promoteOnForks env s block cs (i + 1)
    else
      match chain.GetMsVertexCache block.milestoneHash with
      | none => promoteOnForks env s block cs (i + 1)
      | some msBlock =>
        match msBlock.snapshot with
        | none => Run.ub s
        | some ms =>
          if CheckMsPOW block ms then
            match chain.GetChainHead with
            | none => Run.ub s
            | some head =>
              if msBlock.cblock.hash = head.GetMilestoneHash then
                match ProcessMilestone env s chain block with
                | Run.ub s1 => Run.ub s1
                | Run.ok (s1, chain1) =>
                  let r := update_best (s1.milestoneChains.set i chain1) i
                  pure { s1 with milestoneChains := r.1,
                                 log := s1.log ++ [Event.onChainUpdated block r.2] }
              else
                match ProcessMilestone env s (chain.fork env block) block with
                | Run.ub s1 => Run.ub s1
                | Run.ok (s1, new_fork) =>
                  let r := emplace s1.milestoneChains new_fork
                  pure { s1 with milestoneChains := r.1,
                                 log := s1.log ++ [Event.onChainUpdated block r.2] }
          else promoteOnForks env s block cs (i + 1)

/-- Second half of `AddBlockToPending`: the search of the referenced milestone and the
promotion of the block when it meets the milestone target. -/
def promote (env : Collab) (s : DAGManager) (block : Block) (now : Int) : Run DAGManager := do
  let mainchain ← GetBestChain s
  let msHash := block.milestoneHash
  let msBlock :=
    match mainchain.GetMsVertexCache msHash with
    | some v => some v
    | none => s.store.GetVertex msHash
  match msBlock with
  | some msBlock =>
    let ms ← deref s msBlock.snapshot
    if CheckMsPOW block ms then
      let head ← GetMilestoneHead s
      if msBlock.cblock = head.cblock then
        let i ← deref s (bestIdx s.milestoneChains)
        let (s1, chain1) ← ProcessMilestone env s mainchain block
        let s2 := { s1 with milestoneChains := s1.milestoneChains.set i chain1,
                            log := s1.log ++ [Event.onChainUpdated block true] }
        let s3 ← EnableOBC env s2 now
        let s4 ← DeleteFork env s3
        FlushTrigger env s4
      else
        let (s1, new_fork) ← ProcessMilestone env s (mainchain.fork env block) block
        let r := emplace s1.milestoneChains new_fork
        pure { s1 with milestoneChains := r.1,
                       log := s1.log ++ [Event.onChainUpdated block r.2] }
    else
      pure s
  | none => promoteOnForks env s block s.milestoneChains 0

/-- First half of `AddBlockToPending`: the call is logged and the block and its UTXO candidates
are added to the pending sets of every chain. -/
def afterPendingLoop (env : Collab) (s : DAGManager) (block : Block) : DAGManager :=
  { s with milestoneChains := addPendingOnEveryChain env block s.milestoneChains,
           log := s.log ++ [Event.addBlockToPending block] }

/-- Admission of a block to the pending sets and milestone promotion:
`DAGManager::AddBlockToPending`. -/
def AddBlockToPending (env : Collab) (s : DAGManager) (block : Block) (now : Int) :
    Run DAGManager :=
  promote env (afterPendingLoop env s block) block now

/-- The admission pipeline `DAGManager::AddNewBlock` (the task run on the verify thread);
`peer` is null for a block that did not come from a peer, `now` is the clock read by
`EnableOBC`.  The solidity test `if (IsWeaklySolid) { if (AnyLinkIsOrphan) {..return;} } else
{..return;}` is written as three branches: weakly solid with an orphan link, not weakly solid,
and the fall-through of a solid block to the difficulty and punctuality checks. -/
def AddNewBlock (env : Collab) (s : DAGManager) (blk : Block) (peer : Option Nat) (now : Int) :
    Run DAGManager :=
  if blk = env.genesis then pure s
  else if s.store.Exists blk.hash then pure s
  else if !env.blockVerify blk then pure s
  else
    let msHash := blk.milestoneHash
    if s.store.IsWeaklySolid blk && s.store.AnyLinkIsOrphan blk then
      pure { s with store := s.store.AddBlockToOBC blk (solidityMask s.store blk) }
    else if !s.store.IsWeaklySolid blk then
      let toOBC : DAGManager :=
        { s with store := s.store.AddBlockToOBC blk (solidityMask s.store blk),
                 log := match peer with
                        | some p => s.log ++ [Event.startSync p]
                        | none => s.log }
      match GetMsVertex s msHash with
      | some ms =>
        match CheckPuntuality env s ms with
        | Run.ub s1 => Run.ub s1
        | Run.ok punctual => if !punctual then pure s else pure toOBC
      | none => pure toOBC
    else
      match GetMsVertex s msHash with
      | none => pure s
      | some ms =>
        match ms.snapshot with
        | none => Run.ub s
        | some snap =>
          if blk.diffTarget != env.getCompact snap.blockTarget then pure s
          else
            match CheckPuntuality env s ms with
            | Run.ub s1 => Run.ub s1
            | Run.ok punctual =>
              if !punctual then pure s
              else
                let s1 : DAGManager :=
                  { s with store := s.store.Cache blk,
                           log := match peer with
                                  | some _ => s.log ++ [Event.relayBlock blk]
                                  | none => s.log }
                match AddBlockToPending env s1 blk now with
                | Run.ub s2 => Run.ub s2
                | Run.ok s2 =>
                  let r := s2.store.ReleaseBlocks blk.hash
                  pure { s2 with store := r.1, log := s2.log ++ r.2.map Event.resubmit }

/-- Modelled from the spec: the chain built by `Chain()` and pushed by the constructor of the
manager; it holds the genesis milestone and is the best chain. -/
def genesisChain (env : Collab) : Chain :=
  { ismainchain := true,
    milestones := env.genesisVertex.snapshot.toList,
    pendingBlocks := [], pendingUTXOs := [],
    vertexCache := [env.genesisVertex] }

/-- State built by the constructor `DAGManager::DAGManager()`: one chain, the genesis chain of
`Chain()`, pushed as the best chain, and the genesis vertex in `msVertices_`. -/
def DAGManager.init (env : Collab) (st : BlockStore) : DAGManager :=
  { milestoneChains := [genesisChain env],
    msVertices := [(env.genesis.hash, some env.genesisVertex)],
    downloading := [],
    store := st,
    storedMs := [],
    stat := { nTxCnt := 0, nBlkCnt := 0, tStart := 0 },
    log := [] }

/-- Shape of a promotion that extends the best chain in place (the branch "new milestone on
mainchain" of `AddBlockToPending`): `ProcessMilestone` on the best chain, notification with
`isMain = true`, then `EnableOBC`, `DeleteFork` and `FlushTrigger`. -/
def BestStep (env : Collab) (s : DAGManager) (block : Block) (now : Int) (r : DAGManager) :
    Prop :=
  ∃ b i s1 chain1 s3 s4,
    bestOf s.milestoneChains = some b ∧ bestIdx s.milestoneChains = some i ∧
    ProcessMilestone env s b block = Run.ok (s1, chain1) ∧
    EnableOBC env
      { s1 with milestoneChains := s1.milestoneChains.set i chain1,
                log := s1.log ++ [Event.onChainUpdated block true] } now = Run.ok s3 ∧
    DeleteFork env s3 = Run.ok s4 ∧ FlushTrigger env s4 = Run.ok r

/-- Shape of a promotion that extends a chain other than the best one in place (the branch "new
milestone on fork"): `ProcessMilestone` on the chain at position `i`, then `update_best`. -/
def GrowStep (env : Collab) (s : DAGManager) (block : Block) (r : DAGManager) : Prop :=
  ∃ i c s1 c1,
    s.milestoneChains.get? i = some c ∧ c.ismainchain = false ∧
    ProcessMilestone env s c block = Run.ok (s1, c1) ∧
    r = { s1 with milestoneChains := (update_best (s1.milestoneChains.set i c1) i).1,
                  log := s1.log ++
                    [Event.onChainUpdated block (update_best (s1.milestoneChains.set i c1) i).2] }

/-- Shape of a promotion that creates a chain (the two branches "new fork"):
`ProcessMilestone` on a fork of a chain of the container, then `emplace`. -/
def ForkStep (env : Collab) (s : DAGManager) (block : Block) (r : DAGManager) : Prop :=
  ∃ c s1 f,
    c ∈ s.milestoneChains ∧
    ProcessMilestone env s (c.fork env block) block = Run.ok (s1, f) ∧
    r = { s1 with milestoneChains := (emplace s1.milestoneChains f).1,
                  log := s1.log ++ [Event.onChainUpdated block (emplace s1.milestoneChains f).2] }

/-- States of the manager reachable from its construction over a store `st` by successful runs
of `AddNewBlock`, `AddBlockToPending` and `DeleteFork`. -/
inductive Reachable (env : Collab) (st : BlockStore) : DAGManager → Prop where
  | init : Reachable env st (DAGManager.init env st)
  | addNewBlock (s r : DAGManager) (blk : Block) (peer : Option Nat) (now : Int) :
      Reachable env st s → AddNewBlock env s blk peer now = Run.ok r → Reachable env st r
  | addBlockToPending (s r : DAGManager) (blk : Block) (now : Int) :
      Reachable env st s → AddBlockToPending env s blk now = Run.ok r → Reachable env st r
  | deleteFork (s r : DAGManager) :
      Reachable env st s → DeleteFork env s = Run.ok r → Reachable env st r

/-- State in which an outcome ends: the result, or the state in which undefined behaviour was
reached. -/
def Run.state : Run DAGManager → DAGManager
  | Run.ok s => s
  | Run.ub s => s

/-! ## A small concrete world -/

/-- Block with the given hash, milestone link, prev link, tip link and proof hash. -/
def mkBlock (h ms prev tip proof : Nat) : Block :=
  { hash := h, milestoneHash := ms, prevHash := prev, tipHash := tip, time := 0,
    diffTarget := 1, proofHash := proof, transactions := [] }

/-- Milestone snapshot of block `b` at the given height and chainwork. -/
def mkMilestone (b : Block) (height work : Nat) : Milestone :=
  { ptr := b.hash, cblock := b, height := height, chainwork := work, blockTarget := 1,
    milestoneTarget := 100, numOfValidTxns := 0, levelSet := [b] }

/-- Genesis block of the concrete world. -/
def demoGenesis : Block := mkBlock 0 0 0 0 0

/-- Genesis vertex of the concrete world. -/
def demoGenesisVertex : Vertex := (mkMilestone demoGenesis 0 0).GetMilestone

/-- Level-set verification of the concrete world: it always succeeds, seals every pending block
and adds one unit of chainwork and of height. -/
def demoVerify (c : Chain) (b : Block) : Option VerifyOutput :=
  let height := match c.GetChainHead with
    | some m => m.height + 1
    | none => 1
  let v := (mkMilestone b height (c.headWork + 1)).GetMilestone
  some { vertex := v, pendingBlocks := [], pendingUTXOs := [],
         vertexCache := c.vertexCache ++ [v] }

/-- Milestones of a deque up to and including the one with the given hash. -/
def upTo (h : uint256) : List Milestone → List Milestone
  | [] => []
  | m :: ms => if m.GetMilestoneHash = h then [m] else m :: upTo h ms

/-- Fork of the concrete world: the deque is cut after the referenced milestone and the vertex
cache keeps the vertices of the milestones that stay. -/
def demoFork (c : Chain) (b : Block) : Chain :=
  { c with milestones := upTo b.milestoneHash c.milestones,
           vertexCache := c.vertexCache.filter (fun v =>
             (upTo b.milestoneHash c.milestones).any (fun m => m.cblock.hash == v.cblock.hash)) }

/-- Milestone test of a chain in the concrete world (`Chain::IsMilestone`): the flag of the
vertex in the chain's cache, and for a hash that is not cached, whether it is the hash of a
durable milestone. -/
def demoIsMilestone (c : Chain) (st : BlockStore) (h : uint256) : Bool :=
  match c.vertexCache.find? (fun v => v.cblock.hash == h) with
  | some v => v.isMilestone
  | none => st.db.any (fun v => v.cblock.hash == h && v.isMilestone)

/-- Least cached height of a chain in the concrete world (`Chain::GetLeastHeightCached`): the
height of the front of the deque, the largest `uint64_t` for an empty deque. -/
def demoLeastHeightCached (c : Chain) : Nat :=
  match c.milestones.head? with
  | some m => m.height
  | none => 2 ^ 64 - 1

/-- Height of a durable block in the concrete world (`BlockStore::GetHeight`): that of its
vertex, and `size_t(-1)` for an unknown hash. -/
def demoStoreHeight (st : BlockStore) (h : uint256) : Nat :=
  match st.GetVertex h with
  | some v => v.height
  | none => 2 ^ 64 - 1

/-- Durable level set of a height in the concrete world, the milestone first
(`BlockStore::GetRawLevelSetAt`, `GetLevelSetVtcsAt`). -/
def demoStoreLevelSet (st : BlockStore) (height : Nat) : List Block :=
  ((st.db.filter (fun v => v.height == height && v.isMilestone)) ++
    (st.db.filter (fun v => v.height == height && !v.isMilestone))).map (fun v => v.cblock)

/-- Collaborators of the concrete world. -/
def demoEnv : Collab :=
  { genesis := demoGenesis, genesisVertex := demoGenesisVertex,
    punctualityThred := 3, deleteForkThreshold := 5, obcEnableThreshold := 1000,
    blockVerify := fun _ => true, isFirstRegistration := fun _ => false,
    getCompact := fun t => t, verifyLevelSet := demoVerify, forkChain := demoFork,
    chainIsMilestone := demoIsMilestone, kMaxInventorySize := 2, maxGetDataSize := 2,
    leastHeightCached := demoLeastHeightCached, storeGetHeight := demoStoreHeight,
    storeRawLevelSetAt := demoStoreLevelSet, storeLevelSetVtcsAt := demoStoreLevelSet }

/-- Store of the concrete world: genesis is durable, nothing cached, no orphan. -/
def demoStore : BlockStore :=
  { db := [demoGenesisVertex], headHeight := 0, blockCache := [], obc := [], obcEnabled := true }

/-- Manager of the concrete world right after construction. -/
def demoInit : DAGManager := DAGManager.init demoEnv demoStore

/-- Milestone vertex of height 2 that the late blocks of the concrete world point at. -/
def oldVertex : Vertex := (mkMilestone (mkBlock 20 0 0 0 0) 2 2).GetMilestone

/-- Block in the orphan container of the concrete world (its prev parent 31 is missing). -/
def orphanBlock : Block := mkBlock 30 20 31 20 500

/-- Manager of the concrete world whose best head is at height 5; the milestone of height 2
is durable and known, and one orphan waits in the OBC. -/
def lateManager : DAGManager :=
  { milestoneChains :=
      [{ ismainchain := true,
         milestones := [mkMilestone (mkBlock 50 0 0 0 0) 5 5],
         pendingBlocks := [], pendingUTXOs := [], vertexCache := [] }],
    msVertices := [(20, some oldVertex)],
    downloading := [],
    store := { db := [demoGenesisVertex, oldVertex], headHeight := 2, blockCache := [],
               obc := [(orphanBlock, 4)], obcEnabled := true },
    storedMs := [],
    stat := { nTxCnt := 0, nBlkCnt := 0, tStart := 0 },
    log := [] }

/-- Block that points at the old milestone 20 and whose prev parent is the orphan 30. -/
def lateBlock : Block := mkBlock 40 20 30 20 500

/-- Ordinary block on top of genesis in the concrete world; its proof hash misses the
milestone target. -/
def plainBlock : Block := mkBlock 1 0 0 0 500

/-- Block that points at the old milestone 20 with all parents in the DAG. -/
def lateSolidBlock : Block := mkBlock 41 20 20 0 500

/-- Block on top of genesis whose proof hash 50 meets the milestone target 100. -/
def candidateBlock : Block := mkBlock 2 0 0 0 50

/-- Manager of the concrete world after the candidate block 2 has been promoted on the
genesis chain. -/
def promotedManager : DAGManager :=
  (AddBlockToPending demoEnv demoInit candidateBlock 0).state

/-! ## Fork pruning and flushing, in the words of the specification -/

/-- Chains that `DeleteFork` keeps for a target chainwork: the chain flagged as main chain and
every chain whose head chainwork is not below the target. -/
def keptByDeleteFork (target : Nat) (c : Chain) : Bool :=
  c.ismainchain || !(decide (c.headWork < target))

/-- Hashes that the inner loop of `DeleteFork` erases for one fork: those of the milestones met
on the way from the newest to the oldest before the first one that the best chain's milestone
vertex cache holds. -/
def walkedHashes (bestchain : Chain) (newestFirst : List Milestone) : List uint256 :=
  (newestFirst.takeWhile
    (fun m => !(bestchain.GetMsVertexCache m.GetMilestoneHash).isSome)).map
    (fun m => m.GetMilestoneHash)

/-- Hashes erased from `msVertices_` over all the forks that `DeleteFork` erases. -/
def erasedHashes (bestchain : Chain) (target : Nat) (cs : List Chain) : List uint256 :=
  (cs.filter (fun c => !keptByDeleteFork target c)).flatMap
    (fun c => walkedHashes bestchain c.milestones.reverse)

/-- Collaborators of the concrete world with `deleteForkThreshold = 2`. -/
def pruneEnv : Collab :=
  { demoEnv with deleteForkThreshold := 2 }

/-- Best chain of the pruning scenario: milestones 61..64 with chainwork 1..4 (milestone 60 has
left its deque and its cache). -/
def pruneBest : Chain :=
  { ismainchain := true,
    milestones := [mkMilestone (mkBlock 61 60 0 0 0) 1 1, mkMilestone (mkBlock 62 61 0 0 0) 2 2,
                   mkMilestone (mkBlock 63 62 0 0 0) 3 3, mkMilestone (mkBlock 64 63 0 0 0) 4 4],
    pendingBlocks := [], pendingUTXOs := [],
    vertexCache := [(mkMilestone (mkBlock 61 60 0 0 0) 1 1).GetMilestone,
                    (mkMilestone (mkBlock 62 61 0 0 0) 2 2).GetMilestone,
                    (mkMilestone (mkBlock 63 62 0 0 0) 3 3).GetMilestone,
                    (mkMilestone (mkBlock 64 63 0 0 0) 4 4).GetMilestone] }

/-- Fork of the pruning scenario: it still holds milestone 60, then milestone 61 (shared with
the best chain) and its own milestone 71, with head chainwork 2. -/
def pruneFork : Chain :=
  { ismainchain := false,
    milestones := [mkMilestone (mkBlock 60 0 0 0 0) 0 0, mkMilestone (mkBlock 61 60 0 0 0) 1 1,
                   mkMilestone (mkBlock 71 61 0 0 0) 2 2],
    pendingBlocks := [], pendingUTXOs := [],
    vertexCache := [] }

/-- Manager of the pruning scenario; `msVertices_` knows the milestones 60..64 and 71. -/
def pruneManager : DAGManager :=
  { milestoneChains := [pruneBest, pruneFork],
    msVertices := [(60, some (mkMilestone (mkBlock 60 0 0 0 0) 0 0).GetMilestone),
                   (61, some (mkMilestone (mkBlock 61 60 0 0 0) 1 1).GetMilestone),
                   (62, some (mkMilestone (mkBlock 62 61 0 0 0) 2 2).GetMilestone),
                   (63, some (mkMilestone (mkBlock 63 62 0 0 0) 3 3).GetMilestone),
                   (64, some (mkMilestone (mkBlock 64 63 0 0 0) 4 4).GetMilestone),
                   (71, some (mkMilestone (mkBlock 71 61 0 0 0) 2 2).GetMilestone)],
    downloading := [],
    store := demoStore,
    storedMs := [],
    stat := { nTxCnt := 0, nBlkCnt := 0, tStart := 0 },
    log := [] }

/-- What one run of the flush loop did, in terms of positions of the best chain's deque `B`
and of the deques `F` of the other chains.  The run went over the positions `lo ≤ i < hi`,
from manager `s` to manager `r`, and called `FlushToSTORE` at the positions `idxs`, in this
order. -/
structure FlushRun (B : List Milestone) (F : List (List Milestone)) (lo hi : Nat)
    (s r : DAGManager) (idxs : List Nat) : Prop where
  increasing : idxs.Pairwise (fun i j => i < j)
  inRange : ∀ i ∈ idxs, lo ≤ i ∧ i < hi
  log_eq : r.log = s.log ++ (idxs.filterMap (fun i => B[i]?)).map Event.storageTask
  stored_eq : r.storedMs =
    ((idxs.filterMap (fun i => B[i]?)).map (fun m => m.ptr)).reverse ++ s.storedMs
  flushed : ∀ i ∈ idxs, ∃ m, B[i]? = some m ∧ m.ptr ∉ s.storedMs ∧
    (∀ j ∈ idxs, j < i → ∀ x, B[j]? = some x → x.ptr ≠ m.ptr) ∧
    ∀ f ∈ F, ∃ x, f[i]? = some x ∧ x.ptr = m.ptr
  olderStored : ∀ i ∈ idxs, ∀ j, lo ≤ j → j ≤ i → ∀ x, B[j]? = some x → x.ptr ∈ r.storedMs
  stops : ∀ j x, lo ≤ j → j < hi → B[j]? = some x → x.ptr ∉ s.storedMs →
    (∀ i ∈ idxs, i < j → ∀ m, B[i]? = some m → m.ptr ≠ x.ptr) →
    (∃ f ∈ F, ∃ y, f[j]? = some y ∧ y.ptr ≠ x.ptr) → ∀ i ∈ idxs, i < j
  frame : r.milestoneChains = s.milestoneChains ∧ r.msVertices = s.msVertices ∧
    r.store = s.store

/-- The stored milestones of a deque form a prefix of it: the milestone objects with the
`stored` flag are exactly the objects held at the first `k` positions, for some `k`. -/
def StoredPrefix (stored : List Nat) (B : List Milestone) : Prop :=
  ∃ k, ∀ m ∈ B, (m.ptr ∈ stored ↔ ∃ (j : Nat) (x : Milestone), j < k ∧ B[j]? = some x ∧ x.ptr = m.ptr)

/-- One more than the greatest position of a list of positions (zero for no position). -/
def endOf : List Nat → Nat
  | [] => 0
  | i :: is => max (i + 1) (endOf is)

/-- Best chain of the flush scenario: milestones 80..84, heights and chainwork 0..4. -/
def flushBest : Chain :=
  { ismainchain := true,
    milestones := [mkMilestone (mkBlock 80 0 0 0 0) 0 0, mkMilestone (mkBlock 81 80 0 0 0) 1 1,
                   mkMilestone (mkBlock 82 81 0 0 0) 2 2, mkMilestone (mkBlock 83 82 0 0 0) 3 3,
                   mkMilestone (mkBlock 84 83 0 0 0) 4 4],
    pendingBlocks := [], pendingUTXOs := [], vertexCache := [] }

/-- Fork of the flush scenario: it shares the milestones 80 and 81 with the best chain and has
its own milestone 92. -/
def flushFork : Chain :=
  { ismainchain := false,
    milestones := [mkMilestone (mkBlock 80 0 0 0 0) 0 0, mkMilestone (mkBlock 81 80 0 0 0) 1 1,
                   mkMilestone (mkBlock 92 81 0 0 0) 2 2],
    pendingBlocks := [], pendingUTXOs := [], vertexCache := [] }

/-- Manager of the flush scenario: no milestone is stored yet. -/
def flushManager : DAGManager :=
  { milestoneChains := [flushBest, flushFork],
    msVertices := [],
    downloading := [],
    store := demoStore,
    storedMs := [],
    stat := { nTxCnt := 0, nBlkCnt := 0, tStart := 0 },
    log := [] }

/-- Manager of the flush scenario after `FlushTrigger` (with `punctualityThred = 3`). -/
def flushedManager : DAGManager := (FlushTrigger demoEnv flushManager).state

/-- Oldest milestone of the flush scenario. -/
def flushOldest : Milestone := mkMilestone (mkBlock 80 0 0 0 0) 0 0

/-- Manager of the flush scenario in which the oldest milestone already has `stored = true`. -/
def storedAgainManager : DAGManager := { flushManager with storedMs := [flushOldest.ptr] }

/-! ## The storage task of a flush -/

/-- A call of the storage task on the Store whose declared result is a `bool`
(`storage.h`): `StoreLevelSet`, `UpdatePrevRedemHashes` (the registration change is that of
the given snapshot), `AddUTXO`, `RemoveUTXO`, `SaveHeadHeight`. -/
inductive StoreCall where
  | storeLevelSet (lvs : List (Option Vertex))
  | updatePrevRedemHashes (snapshot : Milestone)
  | addUTXO (key : uint256) (utxo : UTXO)
  | removeUTXO (key : uint256)
  | saveHeadHeight (height : Nat)
  deriving DecidableEq

/-- One step of the storage task, in the order of execution: a Store call together with the
result the Store reported for it, the `void` call `UnCache`, the listener callback, and the
hand-over of the purge (`msVertices_.erase(msHash)` and `PopOldest(vtxHashes, txoc)` on every
chain) to the verify thread. -/
inductive TaskStep where
  | store (call : StoreCall) (reported : Bool)
  | unCache (h : uint256)
  | onLvsConfirmed (blocks : List Vertex) (created : List (uint256 × UTXO))
      (removed : List uint256)
  | schedulePurge (msHash : uint256) (vtxHashes : List uint256) (created : List uint256)
      (removed : List uint256)
  deriving DecidableEq

/-- A Store call made as an expression statement: the call is performed, the Store reports a
result, and the statement has the trace as its only effect on the task. -/
def callStore (report : StoreCall → Bool) (c : StoreCall) (trace : List TaskStep) :
    Bool × List TaskStep :=
  (report c, trace ++ [TaskStep.store c (report c)])

/-- The loop `for (auto& vtx : vtxToStore)` of the storage task: every weak pointer is locked,
kept for the listener and dereferenced for `UnCache`. -/
def unCacheLoop : List (Option Vertex) → List Vertex × List TaskStep →
    Option (List Vertex × List TaskStep)
  | [], acc => some acc
  | vtx :: rest, acc =>
    match vtx with
    | none => none
    | some v => unCacheLoop rest (acc.1 ++ [v], acc.2 ++ [TaskStep.unCache v.cblock.hash])

/-- The loop over `utxoToStore`: one `AddUTXO` per entry. -/
def addUTXOLoop (report : StoreCall → Bool) : List (uint256 × UTXO) → List TaskStep →
    List TaskStep
  | [], trace => trace
  | e :: rest, trace => addUTXOLoop report rest (callStore report (StoreCall.addUTXO e.1 e.2) trace).2

/-- The loop over `utxoToRemove`: one `RemoveUTXO` per key. -/
def removeUTXOLoop (report : StoreCall → Bool) : List uint256 → List TaskStep → List TaskStep
  | [], trace => trace
  | k :: rest, trace => removeUTXOLoop report rest (callStore report (StoreCall.removeUTXO k) trace).2

/-- The loop that collects `vtxHashes` for the purge. -/
def vtxHashesLoop : List (Option Vertex) → List uint256 → Option (List uint256)
  | [], acc => some acc
  | vtx :: rest, acc =>
    match vtx with
    | none => none
    | some v => vtxHashesLoop rest (acc ++ [v.cblock.hash])

/-- Body of the task that `FlushToSTORE` hands to the storage pool, as a function of what the
lambda captures: the level set as weak pointers (an expired one locks to null), the UTXOs to
store and to remove, and whether a listener callback is registered.  `report` is what the Store
answers to each call.  The result is the trace of the steps performed; there is none when a
null pointer is dereferenced. -/
def storageTask (report : StoreCall → Bool) (hasCallback : Bool)
    (vtxToStore : List (Option Vertex)) (utxoToStore : List (uint256 × UTXO))
    (utxoToRemove : List uint256) : Option (List TaskStep) := do
  let ms ← vtxToStore.getLast?.join
  let t1 := (callStore report (StoreCall.storeLevelSet vtxToStore) []).2
  let snapshot ← ms.snapshot
  let t2 := (callStore report (StoreCall.updatePrevRedemHashes snapshot) t1).2
  let (blocksToListener, t3) ← unCacheLoop vtxToStore ([], t2)
  let t4 := addUTXOLoop report utxoToStore t3
  let t5 := removeUTXOLoop report utxoToRemove t4
  let t6 := (callStore report (StoreCall.saveHeadHeight ms.height) t5).2
  let t7 := if hasCallback then
      t6 ++ [TaskStep.onLvsConfirmed blocksToListener utxoToStore utxoToRemove]
    else t6
  let vtxHashes ← vtxHashesLoop vtxToStore []
  let utxoCreated := utxoToStore.map (fun e => e.1)
  pure (t7 ++ [TaskStep.schedulePurge ms.cblock.hash vtxHashes utxoCreated utxoToRemove])

/-- Level-set vertex of the storage scenario. -/
def taskBlockVertex : Vertex :=
  { cblock := mkBlock 85 84 84 84 0, height := 5, isMilestone := false, snapshot := none }

/-- Milestone vertex of the storage scenario, the last vertex of its level set. -/
def taskMilestoneVertex : Vertex := (mkMilestone (mkBlock 86 84 85 85 0) 5 5).GetMilestone

/-- Candidate output stored by the storage scenario. -/
def taskUTXO : UTXO := { output := { value := 7 }, txIndex := 0, outIndex := 0 }

/-- Store of the storage scenario: every call reports failure. -/
def failingStore : StoreCall → Bool := fun _ => false

/-! ## Locators and inventories -/

/-- Modelled from the spec: `uint256::IsNull` (the class `uint256` is not under src/); the null
hash is the zero value, "from best head if null". -/
def IsNull (h : uint256) : Bool := h == 0

/-- Pointer returned by `DAGManager::GetMilestoneHead`, before any dereference: the head of
the best chain, or the durable milestone of the head height when the deque is empty. -/
def GetMilestoneHeadPtr (s : DAGManager) : Run (Option Vertex) := do
  let bestchain ← GetBestChain s
  match bestchain.GetChainHead with
  | none => pure (s.store.GetMilestoneAt s.store.headHeight)
  | some head => pure (some head.GetMilestone)

/-- The loop of `DAGManager::TraverseMilestoneBackward`; the first argument is `length - i`
and the second the `int` counter `i`.  A failed `assert` ends the run, and so does the
increment of `i` past the largest `int`. -/
def backwardLoop (env : Collab) (s : DAGManager) :
    Nat → Nat → Option Vertex → List uint256 → Run (List uint256)
  | 0, _, _, result => pure result
  | remaining + 1, i, cursor, result => do
    let c ← deref s cursor
    if c.isMilestone = false then Run.ub s
    else
      let result1 := result ++ [c.cblock.hash]
      if c.cblock.hash = env.genesis.hash then pure result1
      else if 2 ^ 31 ≤ i + 1 then Run.ub s
      else backwardLoop env s remaining (i + 1) (GetMsVertex s c.cblock.milestoneHash) result1

/-- Walk along the milestone links towards genesis: `DAGManager::TraverseMilestoneBackward`. -/
def TraverseMilestoneBackward (env : Collab) (s : DAGManager) (cursor : Option Vertex)
    (length : Nat) : Run (List uint256) :=
  backwardLoop env s length 0 cursor []

/-- The start of a locator, `startMilestone` in `DAGManager::ConstructLocator`: the best head
for the null hash, else the milestone vertex of `fromHash` (null when unknown). -/
def startMilestone (s : DAGManager) (fromHash : uint256) : Run (Option Vertex) :=
  if IsNull fromHash then GetMilestoneHeadPtr s else pure (GetMsVertex s fromHash)

/-- Locator of at most `length` milestone hashes: `DAGManager::ConstructLocator`. -/
def ConstructLocator (env : Collab) (s : DAGManager) (fromHash : uint256) (length : Nat) :
    Run (List uint256) := do
  let start ← startMilestone s fromHash
  match start with
  | none => pure []
  | some v => TraverseMilestoneBackward env s (some v) length

/-- Every non-null entry of `msVertices_` is stored under the hash of its own block. -/
def keyedByHash (s : DAGManager) : Bool :=
  s.msVertices.all (fun e =>
    match e.2 with
    | some v => v.cblock.hash == e.1
    | none => true)

/-- Value of a `size_t` / `uint64_t` expression. -/
def u64 (n : Nat) : Nat := n % 2 ^ 64

/-- Subtraction of `uint64_t` values. -/
def subU64 (a b : Nat) : Nat := (u64 a + 2 ^ 64 - u64 b) % 2 ^ 64

/-- First loop of `DAGManager::TraverseMilestoneForward`, over the durable milestones; the
first argument bounds the number of iterations (each one makes `result` longer, and the loop
condition fails once `result` is longer than `length`). -/
def forwardStoreLoop (s : DAGManager) (length : Nat) :
    Nat → Nat → List uint256 → Run (Nat × List uint256)
  | 0, cursorHeight, result => pure (cursorHeight, result)
  | fuel + 1, cursorHeight, result =>
    if cursorHeight ≤ u64 s.store.headHeight ∧ result.length ≤ length then do
      let v ← deref s (s.store.GetMilestoneAt cursorHeight)
      forwardStoreLoop s length fuel (u64 (cursorHeight + 1)) (result ++ [v.cblock.hash])
    else pure (cursorHeight, result)

/-- Second loop of `DAGManager::TraverseMilestoneForward`, over the best chain's deque. -/
def forwardCacheLoop (s : DAGManager) (milestones : List Milestone)
    (min_height max_height length : Nat) : Nat → Nat → List uint256 → Run (List uint256)
  | 0, _, result => pure result
  | fuel + 1, cursorHeight, result =>
    if cursorHeight ≤ u64 max_height ∧ result.length ≤ length then do
      let m ← deref s milestones[subU64 cursorHeight min_height]?
      forwardCacheLoop s milestones min_height max_height length fuel (u64 (cursorHeight + 1))
        (result ++ [m.GetMilestoneHash])
    else pure result

/-- Milestone hashes above `cursor`, first from the Store and then from the best chain's
deque: `DAGManager::TraverseMilestoneForward`. -/
def TraverseMilestoneForward (s : DAGManager) (cursor : Option Vertex) (length : Nat) :
    Run (List uint256) := do
  let bestChain ← GetBestChain s
  let c ← deref s cursor
  let cursorHeight := u64 (c.height + 1)
  let r1 ← forwardStoreLoop s length (length + 1) cursorHeight []
  match bestChain.milestones.head?, bestChain.milestones.getLast? with
  | some front, some back =>
    forwardCacheLoop s bestChain.milestones front.height back.height length (length + 1)
      r1.1 r1.2
  | _, _ => pure r1.2

/-- Whether a hash is a milestone of the best chain: `DAGManager::IsMainChainMS`. -/
def IsMainChainMS (env : Collab) (s : DAGManager) (blkHash : uint256) : Run Bool := do
  let bestChain ← GetBestChain s
  pure (env.chainIsMilestone bestChain s.store blkHash)

/-- Messages sent to a peer: an `Inv`, and a `GetData` request for level sets (its hashes; the
nonce that the constructor of each `GetDataTask` draws is left out). -/
inductive NetMessage where
  | inv (hashes : List uint256) (nonce : Nat)
  | getData (hashes : List uint256)
  deriving DecidableEq

/-- The part of a `Peer` (`net/peer.h`) that the synchronization methods use: the two hashes
last sent, the messages sent to the peer in order, and the hashes of its pending level-set
`GetData` tasks. -/
structure Peer where
  lastSentInvHash : uint256
  lastSentBundleHash : uint256
  sent : List NetMessage
  getDataTasks : List uint256 := []
  deriving DecidableEq

/-- Modelled from the spec: `Peer::SendMessage` (declared in `net/peer.h`, its body is not
under src/); the message is appended to what the peer has been sent. -/
def Peer.SendMessage (p : Peer) (m : NetMessage) : Peer := { p with sent := p.sent ++ [m] }

/-- Modelled from the spec: `Peer::SetLastSentInvHash` (declared in `net/peer.h`, its body is
not under src/); "tracked per-peer as `lastSentInvHash`". -/
def Peer.SetLastSentInvHash (p : Peer) (h : uint256) : Peer := { p with lastSentInvHash := h }

/-- The elements after the first occurrence of `h`, `sublist(it + 1, hashes.end())` for
`it = std::find(hashes.begin(), hashes.end(), h)`; nothing when `h` does not occur. -/
def sublistAfter (h : uint256) : List uint256 → Option (List uint256)
  | [] => none
  | x :: xs => if x = h then some xs else sublistAfter h xs

/-- The loop of `DAGManager::RespondRequestInv` over the locator: nothing when an entry is
the best head (the empty Inv is sent and the task returns), else the forward traversal from
the first entry that is a main-chain milestone, else the empty list. -/
def scanLocator (env : Collab) (s : DAGManager) : List uint256 → Run (Option (List uint256))
  | [] => pure (some [])
  | start :: rest => do
    let head ← GetMilestoneHead s
    if start = head.cblock.hash then pure none
    else
      let isMs ← IsMainChainMS env s start
      if isMs then do
        let hashes ← TraverseMilestoneForward s (GetMsVertex s start) env.kMaxInventorySize
        pure (some hashes)
      else scanLocator env s rest

/-- The reply of `DAGManager::RespondRequestInv` once the locator has been scanned. -/
def replyInv (env : Collab) (nonce : Nat) (peer : Peer) : Option (List uint256) → Peer
  | none => peer.SendMessage (NetMessage.inv [] nonce)
  | some hashes =>
    if hashes.isEmpty then peer.SendMessage (NetMessage.inv [env.genesis.hash] nonce)
    else
      let lih := peer.lastSentInvHash
      let lbh := peer.lastSentBundleHash
      let hashes1 :=
        match sublistAfter lih hashes with
        | some sublist => sublist
        | none =>
          match sublistAfter lbh hashes with
          | some sublist => sublist
          | none => hashes
      let peer1 :=
        match hashes1.getLast? with
        | none => peer
        | some back => peer.SetLastSentInvHash back
      peer1.SendMessage (NetMessage.inv hashes1 nonce)

/-- The task of `DAGManager::RespondRequestInv`: the state of the peer after the reply. -/
def RespondRequestInv (env : Collab) (s : DAGManager) (locator : List uint256) (nonce : Nat)
    (peer : Peer) : Run Peer := do
  let found ← scanLocator env s locator
  pure (replyInv env nonce peer found)

/-- Genesis block of the locator scenario. -/
def locGenesis : Block := mkBlock 100 0 0 0 0

/-- Milestone of the locator scenario at height `n` (1 to 4), with hash `100 + n`, linked to
the milestone below it. -/
def locMilestone (n : Nat) : Milestone := mkMilestone (mkBlock (100 + n) (99 + n) 0 0 0) n n

/-- Collaborators of the locator scenario: inventories of at most two hashes. -/
def locEnv : Collab :=
  { demoEnv with genesis := locGenesis,
                 genesisVertex := (mkMilestone locGenesis 0 0).GetMilestone,
                 kMaxInventorySize := 2 }

/-- Manager of the locator scenario: genesis and the milestones of height 1 and 2 are durable
(head height 2), the best chain holds the milestones of height 3 and 4. -/
def locManager : DAGManager :=
  { milestoneChains :=
      [{ ismainchain := true, milestones := [locMilestone 3, locMilestone 4],
         pendingBlocks := [], pendingUTXOs := [],
         vertexCache := [(locMilestone 3).GetMilestone, (locMilestone 4).GetMilestone] }],
    msVertices := [(100, some (mkMilestone locGenesis 0 0).GetMilestone),
                   (103, some (locMilestone 3).GetMilestone),
                   (104, some (locMilestone 4).GetMilestone)],
    downloading := [],
    store := { db := [(mkMilestone locGenesis 0 0).GetMilestone, (locMilestone 1).GetMilestone,
                      (locMilestone 2).GetMilestone],
               headHeight := 2, blockCache := [], obc := [], obcEnabled := true },
    storedMs := [],
    stat := { nTxCnt := 0, nBlkCnt := 0, tStart := 0 },
    log := [] }

/-- Peer of the locator scenario: nothing has been sent to it. -/
def locPeer : Peer := { lastSentInvHash := 0, lastSentBundleHash := 0, sent := [] }

/-- Peer of the locator scenario to which the hash 102 was last sent in an Inv and the level
set of 103 in a bundle. -/
def servedPeer : Peer := { lastSentInvHash := 102, lastSentBundleHash := 103, sent := [] }

/-! ## Requests for level sets -/

/-- Modelled from the spec: `Peer::AddPendingGetDataTask` (declared in `net/peer.h`, its body
is not under src/); the task of the hash is added to the pending tasks of the peer. -/
def Peer.AddPendingGetDataTask (p : Peer) (h : uint256) : Peer :=
  { p with getDataTasks := p.getDataTasks ++ [h] }

/-- The loop of `DAGManager::RequestData` over the requested hashes, with the set
`downloading_`, the hashes of the message being filled, and the peer. -/
def requestDataLoop (env : Collab) (store : BlockStore) :
    List uint256 → List uint256 → List uint256 → Peer → List uint256 × List uint256 × Peer
  | [], downloading, message, peer => (downloading, message, peer)
  | h :: rest, downloading, message, peer =>
    if downloading.contains h || store.DAGExists h then
      requestDataLoop env store rest downloading message peer
    else
      let message1 := message ++ [h]
      let peer1 := peer.AddPendingGetDataTask h
      let downloading1 := downloading ++ [h]
      if env.maxGetDataSize ≤ message1.length then
        requestDataLoop env store rest downloading1 []
          (peer1.SendMessage (NetMessage.getData message1))
      else
        requestDataLoop env store rest downloading1 message1 peer1

/-- Request of the level sets of the given milestone hashes from a peer:
`DAGManager::RequestData`.  The result is the manager and the peer after the call. -/
def RequestData (env : Collab) (s : DAGManager) (requests : List uint256) (requestFrom : Peer) :
    DAGManager × Peer :=
  let r := requestDataLoop env s.store requests s.downloading [] requestFrom
  let peer1 :=
    if r.2.1.isEmpty then r.2.2 else r.2.2.SendMessage (NetMessage.getData r.2.1)
  ({ s with downloading := r.1 }, peer1)

/-- A list without the later occurrences of its elements. -/
def keepFirst : List uint256 → List uint256
  | [] => []
  | h :: t => h :: (keepFirst t).filter (fun x => x != h)

/-- The hashes to request, in the words of the specification: the requested list with every
hash removed that is already in `downloading_`, that exists in the DAG, or that occurred
earlier in the list. -/
def newRequests (downloading : List uint256) (store : BlockStore) (requests : List uint256) :
    List uint256 :=
  keepFirst (requests.filter (fun h => !(downloading.contains h || store.DAGExists h)))

/-- The hashes that the loop of `RequestData` does not skip, as the loop meets them. -/
def requestedHashes (store : BlockStore) : List uint256 → List uint256 → List uint256
  | [], _ => []
  | h :: rest, downloading =>
    if downloading.contains h || store.DAGExists h then requestedHashes store rest downloading
    else h :: requestedHashes store rest (downloading ++ [h])

/-- Manager of the request scenario: the locator scenario with 105 being downloaded. -/
def requestManager : DAGManager := { locManager with downloading := [105] }

/-! ## Level sets of the main chain -/

/-- Modelled from the spec: `Chain::GetVertexCache` (its body is not under src/); the lookup of
a hash in the chain's vertex cache. -/
def Chain.GetVertexCache (c : Chain) (h : uint256) : Option Vertex :=
  c.vertexCache.find? (fun v => v.cblock.hash == h)

/-- Height of a block of the main chain: `DAGManager::GetHeight`. -/
def GetHeight (env : Collab) (s : DAGManager) (blockHash : uint256) : Run Nat := do
  let bestChain ← GetBestChain s
  match bestChain.GetVertexCache blockHash with
  | some vtx => pure vtx.height
  | none => pure (env.storeGetHeight s.store blockHash)

/-- Level set of a milestone hash, `DAGManager::GetLevelSet`, each vertex given by its block
(as in `Milestone.levelSet`, whose weak pointers are alive while the snapshot is cached). -/
def GetLevelSet (env : Collab) (s : DAGManager) (blockHash : uint256) : Run (List Block) := do
  let bestChain ← GetBestChain s
  let leastHeightCached := env.leastHeightCached bestChain
  let height ← GetHeight env s blockHash
  if height < leastHeightCached then
    pure (env.storeLevelSetVtcsAt s.store height)
  else
    match GetMsVertex s blockHash with
    | none => pure []
    | some msVer => do
      let snapshot ← deref s msVer.snapshot
      pure snapshot.levelSet

/-- The loop `for (int i = 0; i < vtcs.size() - 1; i++)` of `GetMainChainRawLevelSet`; the
first argument is `vtcs.size() - 1 - i`, the second the `int` counter `i`, whose increment past
the largest `int` ends the run. -/
def rawLevelSetLoop (s : DAGManager) (vtcs : List Block) :
    Nat → Nat → List Block → Run (List Block)
  | 0, _, result => pure result
  | remaining + 1, i, result => do
    let v ← deref s vtcs[i]?
    if 2 ^ 31 ≤ i + 1 then Run.ub s
    else rawLevelSetLoop s vtcs remaining (i + 1) (result ++ [v])

/-- The blocks serialized for the level set of a height:
`DAGManager::GetMainChainRawLevelSet(size_t height)`.  The stream is the list of the blocks
written to it. -/
def GetMainChainRawLevelSetAt (env : Collab) (s : DAGManager) (height : Nat) :
    Run (List Block) := do
  let bestChain ← GetBestChain s
  let leastHeightCached := env.leastHeightCached bestChain
  if height < leastHeightCached then
    pure (env.storeRawLevelSetAt s.store height)
  else
    let ms ← deref s bestChain.milestones[height - leastHeightCached]?
    let vtcs := ms.levelSet
    let back ← deref s vtcs.getLast?
    rawLevelSetLoop s vtcs (vtcs.length - 1) 0 [back]

/-- The blocks serialized for the level set of a milestone hash:
`DAGManager::GetMainChainRawLevelSet(const uint256& blockHash)`. -/
def GetMainChainRawLevelSet (env : Collab) (s : DAGManager) (blockHash : uint256) :
    Run (List Block) := do
  let height ← GetHeight env s blockHash
  GetMainChainRawLevelSetAt env s height

/-- Milestone of the level-set scenario: height 3, hash 203, sealing the blocks 201 and 202;
the milestone block is the last element of its level set. -/
def lvsMilestone : Milestone :=
  { mkMilestone (mkBlock 203 200 202 201 0) 3 3 with
    levelSet := [mkBlock 201 200 200 200 500, mkBlock 202 200 201 200 500,
                 mkBlock 203 200 202 201 0] }

/-- Manager of the level-set scenario: the best chain caches the milestone of height 3. -/
def lvsManager : DAGManager :=
  { milestoneChains :=
      [{ ismainchain := true, milestones := [lvsMilestone],
         pendingBlocks := [], pendingUTXOs := [],
         vertexCache := [lvsMilestone.GetMilestone] }],
    msVertices := [(203, some lvsMilestone.GetMilestone)],
    downloading := [],
    store := demoStore,
    storedMs := [],
    stat := { nTxCnt := 0, nBlkCnt := 0, tStart := 0 },
    log := [] }

/-! ## Further scenarios -/

/-- Block of the concrete world whose three parents are unknown. -/
def strayBlock : Block := mkBlock 40 41 42 43 500

/-- Best chain of the overrun scenario: milestones 80..85, heights and chainwork 0..5. -/
def overrunBest : Chain :=
  { ismainchain := true,
    milestones := [mkMilestone (mkBlock 80 0 0 0 0) 0 0, mkMilestone (mkBlock 81 80 0 0 0) 1 1,
                   mkMilestone (mkBlock 82 81 0 0 0) 2 2, mkMilestone (mkBlock 83 82 0 0 0) 3 3,
                   mkMilestone (mkBlock 84 83 0 0 0) 4 4, mkMilestone (mkBlock 85 84 0 0 0) 5 5],
    pendingBlocks := [], pendingUTXOs := [], vertexCache := [] }

/-- Fork of the overrun scenario: forked at the milestone 80, with its own milestone 91. -/
def overrunFork : Chain :=
  { ismainchain := false,
    milestones := [mkMilestone (mkBlock 80 0 0 0 0) 0 0, mkMilestone (mkBlock 91 80 0 0 0) 1 1],
    pendingBlocks := [], pendingUTXOs := [], vertexCache := [] }

/-- Manager of the overrun scenario: the milestones 80 and 81 of the best chain have been
flushed (`stored = true`) and are still in the deques. -/
def overrunManager : DAGManager :=
  { milestoneChains := [overrunBest, overrunFork],
    msVertices := [],
    downloading := [],
    store := demoStore,
    storedMs := [81, 80],
    stat := { nTxCnt := 0, nBlkCnt := 0, tStart := 0 },
    log := [] }

/-- Collaborators of the sharing scenario: `deleteForkThreshold = 1`. -/
def shareEnv : Collab := { demoEnv with deleteForkThreshold := 1 }

/-- The vertex of the referenced milestone that the main-chain branch of `AddBlockToPending`
looks at: `mainchain->GetMsVertexCache(msHash)`, and `STORE->GetVertex(msHash)` when the cache
has none. -/
def mainMsBlock (s : DAGManager) (mainchain : Chain) (msHash : uint256) : Option Vertex :=
  match mainchain.GetMsVertexCache msHash with
  | some v => some v
  | none => s.store.GetVertex msHash

/-- Whether the proof hash of a block is at most the `milestoneTarget` of the snapshot of a
vertex (false for a vertex without snapshot). -/
def meetsTargetOf (block : Block) (v : Vertex) : Bool :=
  match v.snapshot with
  | some ms => decide (block.proofHash ≤ ms.milestoneTarget)
  | none => false

/-- Whether a chain other than the best one holds, in its milestone vertex cache, a vertex of
the referenced milestone whose target the block meets. -/
def forkCandidate (block : Block) (c : Chain) : Bool :=
  !c.ismainchain &&
    match c.GetMsVertexCache block.milestoneHash with
    | some v => meetsTargetOf block v
    | none => false

/-- Milestone candidate, in the words of the specification: the proof hash of the block is at
most the `milestoneTarget` of the snapshot of the referenced milestone.  The vertex of the
referenced milestone is the one that `AddBlockToPending` finds: the one of the best chain's
cache or of the store, and when neither has one, one in the cache of another chain. -/
def isMilestoneCandidate (s : DAGManager) (block : Block) : Bool :=
  match bestOf s.milestoneChains with
  | none => false
  | some b =>
    match mainMsBlock s b block.milestoneHash with
    | some v => meetsTargetOf block v
    | none => s.milestoneChains.any (forkCandidate block)

/-! ## Pruning of the milestone map, and the overtaking scenario -/

/-- First milestone of the chain that falls behind in the overtaking scenario (on genesis). -/
def lagA1 : Block := mkBlock 1 0 0 0 50

/-- First milestone of the chain that takes the lead (on genesis as well). -/
def leadB1 : Block := mkBlock 11 0 0 0 50

/-- Second milestone of the chain that takes the lead (on `leadB1`). -/
def leadB2 : Block := mkBlock 12 11 11 11 50

/-- Overtaking scenario with `deleteForkThreshold = 1`, step 1: `lagA1` extends the genesis
chain of the freshly constructed manager. -/
def lagManager1 : DAGManager :=
  (AddNewBlock shareEnv (DAGManager.init shareEnv demoStore) lagA1 none 0).state

/-- Overtaking scenario, step 2: `leadB1` forks a second chain from genesis. -/
def lagManager2 : DAGManager := (AddNewBlock shareEnv lagManager1 leadB1 none 0).state

/-- Overtaking scenario, step 3: `leadB2` grows the second chain, which becomes the best
chain. -/
def lagManager : DAGManager := (AddNewBlock shareEnv lagManager2 leadB2 none 0).state

/-- The chain that fell behind in the overtaking scenario: genesis and `lagA1`, with the
blocks of the other chain still pending. -/
def lagChain : Chain :=
  { ismainchain := false,
    milestones := [mkMilestone demoGenesis 0 0, mkMilestone lagA1 1 1],
    pendingBlocks := [leadB1, leadB2], pendingUTXOs := [],
    vertexCache := [demoGenesisVertex, (mkMilestone lagA1 1 1).GetMilestone] }

/-- The best chain of the overtaking scenario: genesis, `leadB1` and `leadB2`. -/
def leadChain : Chain :=
  { ismainchain := true,
    milestones := [mkMilestone demoGenesis 0 0, mkMilestone leadB1 1 1, mkMilestone leadB2 2 2],
    pendingBlocks := [], pendingUTXOs := [],
    vertexCache := [demoGenesisVertex, (mkMilestone leadB1 1 1).GetMilestone,
                    (mkMilestone leadB2 2 2).GetMilestone] }

/-- Manager of the overtaking scenario after `DeleteFork`. -/
def laggedManager : DAGManager := (DeleteFork shareEnv lagManager).state

end Epic

/-! # Properties -/

namespace Epic

/-- C3. `AddNewBlock` called with the genesis block, or with a block whose hash the store
reports as existing, returns with the whole manager state unchanged: block cache, OBC, every
chain, `msVertices_`, and the log of relays, sync requests and notifications. -/
theorem AddNewBlock_known_block_noop (env : Collab) (s : DAGManager) (blk : Block)
    (peer : Option Nat) (now : Int)
    (h : blk = env.genesis ∨ s.store.Exists blk.hash = true) :
    AddNewBlock env s blk peer now = Run.ok s := by
  unfold AddNewBlock
  rcases h with h | h
  · simp [h, pure]
  · by_cases hg : blk = env.genesis
    · simp [hg, pure]
    · simp [hg, h, pure]

/-- Instance of C3: the genesis block submitted to the freshly constructed manager. -/
theorem AddNewBlock_known_block_noop_witness :
    AddNewBlock demoEnv demoInit demoGenesis (some 7) 0 = Run.ok demoInit :=
  AddNewBlock_known_block_noop demoEnv demoInit demoGenesis (some 7) 0 (Or.inl rfl)

/-- C4. The solidity mask of `AddNewBlock` is the 3-bit number with bit 0 set exactly when the
milestone parent is missing from the DAG, bit 1 exactly when the tip parent is missing and
bit 2 exactly when the prev parent is missing; it is below 8 and it is 0 exactly when all
three parents are in the DAG. -/
theorem solidityMask_bits (st : BlockStore) (blk : Block) :
    (solidityMask st blk).testBit 0 = (!st.DAGExists blk.milestoneHash) ∧
    (solidityMask st blk).testBit 1 = (!st.DAGExists blk.tipHash) ∧
    (solidityMask st blk).testBit 2 = (!st.DAGExists blk.prevHash) ∧
    (∀ k, 3 ≤ k → (solidityMask st blk).testBit k = false) ∧
    solidityMask st blk =
      (!st.DAGExists blk.milestoneHash).toNat + 2 * (!st.DAGExists blk.tipHash).toNat
        + 4 * (!st.DAGExists blk.prevHash).toNat ∧
    solidityMask st blk < 8 ∧
    (solidityMask st blk = 0 ↔
      (st.DAGExists blk.milestoneHash = true ∧ st.DAGExists blk.tipHash = true ∧
        st.DAGExists blk.prevHash = true)) := by
  have hlt : solidityMask st blk < 8 := by
    unfold solidityMask
    cases st.DAGExists blk.milestoneHash <;> cases st.DAGExists blk.prevHash <;>
      cases st.DAGExists blk.tipHash <;> decide
  refine ⟨?_, ?_, ?_, ?_, ?_, hlt, ?_⟩
  · unfold solidityMask
    cases st.DAGExists blk.milestoneHash <;> cases st.DAGExists blk.prevHash <;>
      cases st.DAGExists blk.tipHash <;> decide
  · unfold solidityMask
    cases st.DAGExists blk.milestoneHash <;> cases st.DAGExists blk.prevHash <;>
      cases st.DAGExists blk.tipHash <;> decide
  · unfold solidityMask
    cases st.DAGExists blk.milestoneHash <;> cases st.DAGExists blk.prevHash <;>
      cases st.DAGExists blk.tipHash <;> decide
  · intro k hk
    apply Nat.testBit_lt_two_pow
    calc solidityMask st blk < 8 := hlt
      _ = 2 ^ 3 := by norm_num
      _ ≤ 2 ^ k := Nat.pow_le_pow_right (by norm_num) hk
  · unfold solidityMask
    cases st.DAGExists blk.milestoneHash <;> cases st.DAGExists blk.prevHash <;>
      cases st.DAGExists blk.tipHash <;> decide
  · unfold solidityMask
    cases st.DAGExists blk.milestoneHash <;> cases st.DAGExists blk.prevHash <;>
      cases st.DAGExists blk.tipHash <;> decide

/-- Result of `GetBestMilestoneHeight` in terms of the best chain. -/
theorem GetBestMilestoneHeight_eq (s : DAGManager) (c : Chain)
    (h : bestOf s.milestoneChains = some c) :
    GetBestMilestoneHeight s =
      Run.ok (match c.GetChainHead with
              | none => s.store.headHeight
              | some head => head.height) := by
  unfold GetBestMilestoneHeight GetBestChain
  simp only [h, deref, bind, Run.bind, pure]
  cases c.GetChainHead <;> rfl

/-- Value of `CheckPuntuality` once the best height is known. -/
theorem CheckPuntuality_of_height (env : Collab) (s : DAGManager) (ms : Vertex) (bestHeight : Nat)
    (h : GetBestMilestoneHeight s = Run.ok bestHeight) :
    CheckPuntuality env s ms =
      Run.ok (!(decide (bestHeight > ms.height) &&
                decide (bestHeight - ms.height ≥ env.punctualityThred))) := by
  unfold CheckPuntuality
  simp only [h, bind, Run.bind, pure]
  by_cases h1 : bestHeight > ms.height <;>
    by_cases h2 : bestHeight - ms.height ≥ env.punctualityThred <;> simp [h1, h2]

/-- C6 (as amended). `CheckPuntuality` accepts a block exactly when the referenced milestone is
not below the best height or is less than `punctualityThred` below it; in particular it rejects
a milestone that is strictly older than the best head by `punctualityThred` or more. -/
theorem CheckPuntuality_iff (env : Collab) (s : DAGManager) (ms : Vertex) (bestHeight : Nat)
    (h : GetBestMilestoneHeight s = Run.ok bestHeight) :
    (CheckPuntuality env s ms = Run.ok true ↔
      (bestHeight ≤ ms.height ∨ bestHeight - ms.height < env.punctualityThred)) ∧
    (CheckPuntuality env s ms = Run.ok false ↔
      (ms.height < bestHeight ∧ env.punctualityThred ≤ bestHeight - ms.height)) ∧
    (env.punctualityThred + 1 ≤ bestHeight - ms.height →
      CheckPuntuality env s ms = Run.ok false) := by
  rw [CheckPuntuality_of_height env s ms bestHeight h]
  refine ⟨?_, ?_, ?_⟩
  · by_cases h1 : bestHeight > ms.height <;>
      by_cases h2 : bestHeight - ms.height ≥ env.punctualityThred <;>
      simp [h1, h2] <;> omega
  · by_cases h1 : bestHeight > ms.height <;>
      by_cases h2 : bestHeight - ms.height ≥ env.punctualityThred <;>
      simp [h1, h2]
  · intro h3
    have h1 : bestHeight > ms.height := by omega
    have h2 : bestHeight - ms.height ≥ env.punctualityThred := by omega
    simp [h1, h2]

/-- Instance of the amended C6: best height 5, milestone height 2, threshold 3. -/
theorem CheckPuntuality_iff_witness :
    (CheckPuntuality demoEnv lateManager oldVertex = Run.ok true ↔
      (5 ≤ oldVertex.height ∨ 5 - oldVertex.height < demoEnv.punctualityThred)) ∧
    (CheckPuntuality demoEnv lateManager oldVertex = Run.ok false ↔
      (oldVertex.height < 5 ∧ demoEnv.punctualityThred ≤ 5 - oldVertex.height)) ∧
    (demoEnv.punctualityThred + 1 ≤ 5 - oldVertex.height →
      CheckPuntuality demoEnv lateManager oldVertex = Run.ok false) :=
  CheckPuntuality_iff demoEnv lateManager oldVertex 5 (by rfl)

/-- C6 fails as stated: the best head is at height 5, the referenced milestone at height 2 and
`punctualityThred` is 3, so the milestone is within `punctualityThred` of the best height
(5 − 2 ≤ 3), yet `CheckPuntuality` rejects the block. -/
theorem CheckPuntuality_rejects_at_threshold :
    GetBestMilestoneHeight lateManager = Run.ok 5 ∧
    oldVertex.height = 2 ∧
    demoEnv.punctualityThred = 3 ∧
    5 - oldVertex.height ≤ demoEnv.punctualityThred ∧
    CheckPuntuality demoEnv lateManager oldVertex = Run.ok false := by
  refine ⟨by rfl, by rfl, by rfl, by decide, by rfl⟩

/-- A weakly solid block without a link in the OBC has all three parents in the DAG. -/
theorem solid_of_weaklySolid (st : BlockStore) (b : Block)
    (hw : st.IsWeaklySolid b = true) (ho : st.AnyLinkIsOrphan b = false) :
    st.DAGExists b.milestoneHash = true ∧ st.DAGExists b.prevHash = true ∧
      st.DAGExists b.tipHash = true := by
  unfold BlockStore.IsWeaklySolid BlockStore.Exists at hw
  unfold BlockStore.AnyLinkIsOrphan at ho
  simp only [Bool.or_eq_false_iff] at ho
  obtain ⟨⟨h1, h2⟩, h3⟩ := ho
  simpa [h1, h2, h3, and_assoc] using hw

/-- Caching a block keeps every hash of the DAG in the DAG. -/
theorem DAGExists_Cache (st : BlockStore) (b : Block) (h : uint256)
    (hd : st.DAGExists h = true) : (st.Cache b).DAGExists h = true := by
  unfold BlockStore.DAGExists BlockStore.Cache BlockStore.DBExists at *
  simp only [List.any_append, Bool.or_eq_true] at *
  rcases hd with hd | hd
  · exact Or.inl (Or.inl hd)
  · exact Or.inr hd

/-- Undefined behaviour inside `CheckPuntuality` (no best chain) leaves the state as it was. -/
theorem CheckPuntuality_ub (env : Collab) (s : DAGManager) (ms : Vertex) (s1 : DAGManager)
    (hp : CheckPuntuality env s ms = Run.ub s1) : s1 = s := by
  unfold CheckPuntuality GetBestMilestoneHeight GetBestChain at hp
  cases hb : bestOf s.milestoneChains with
  | none =>
    simp only [hb, deref, bind, Run.bind] at hp
    cases hp; rfl
  | some c =>
    simp only [hb, deref, bind, Run.bind, pure] at hp
    cases hh : c.GetChainHead <;> simp only [hh] at hp <;> split at hp <;> cases hp

/-- C1. A block that `AddNewBlock` hands to `AddBlockToPending` has passed `Block::Verify`, is
weakly solid without a link in the OBC, hence has its milestone, prev and tip parents in the
DAG (both when the checks are made and, after the block itself has been cached, when
`AddBlockToPending` is entered), carries the compact `blockTarget` of the snapshot of the
milestone it refers to, and passes the punctuality check. -/
theorem AddNewBlock_admits_only_checked (env : Collab) (s : DAGManager) (blk : Block)
    (peer : Option Nat) (now : Int)
    (hnew : Event.addBlockToPending blk ∉ s.log)
    (hadm : Event.addBlockToPending blk ∈ (AddNewBlock env s blk peer now).state.log) :
    env.blockVerify blk = true ∧
    s.store.IsWeaklySolid blk = true ∧ s.store.AnyLinkIsOrphan blk = false ∧
    (s.store.DAGExists blk.milestoneHash = true ∧ s.store.DAGExists blk.prevHash = true ∧
      s.store.DAGExists blk.tipHash = true) ∧
    ((s.store.Cache blk).DAGExists blk.milestoneHash = true ∧
      (s.store.Cache blk).DAGExists blk.prevHash = true ∧
      (s.store.Cache blk).DAGExists blk.tipHash = true) ∧
    ∃ ms snap, GetMsVertex s blk.milestoneHash = some ms ∧ ms.snapshot = some snap ∧
      blk.diffTarget = env.getCompact snap.blockTarget ∧
      CheckPuntuality env s ms = Run.ok true := by
  unfold AddNewBlock at hadm
  by_cases hg : blk = env.genesis
  · rw [if_pos hg] at hadm; exact absurd hadm hnew
  rw [if_neg hg] at hadm
  by_cases he : s.store.Exists blk.hash = true
  · rw [if_pos he] at hadm; exact absurd hadm hnew
  rw [if_neg he] at hadm
  by_cases hv : env.blockVerify blk = true
  swap
  · simp only [Bool.not_eq_true] at hv
    simp only [hv, Bool.not_false, if_true] at hadm; exact absurd hadm hnew
  simp only [hv, Bool.not_true, Bool.false_eq_true, if_false] at hadm
  by_cases hw : s.store.IsWeaklySolid blk = true
  swap
  · simp only [Bool.not_eq_true] at hw
    simp only [hw, Bool.false_and, Bool.false_eq_true, if_false, Bool.not_false, if_true] at hadm
    exfalso
    have hsync : Event.addBlockToPending blk ∉
        (match peer with
          | some p => s.log ++ [Event.startSync p]
          | none => s.log) := by
      cases peer <;> simp [hnew]
    cases hm : GetMsVertex s blk.milestoneHash with
    | none =>
      simp only [hm] at hadm
      exact hsync hadm
    | some ms =>
      simp only [hm] at hadm
      cases hp : CheckPuntuality env s ms with
      | ub s1 =>
        simp only [hp] at hadm
        rw [CheckPuntuality_ub env s ms s1 hp] at hadm
        exact hnew hadm
      | ok punctual =>
        simp only [hp] at hadm
        cases punctual
        · exact hnew hadm
        · exact hsync hadm
  by_cases ho : s.store.AnyLinkIsOrphan blk = true
  · simp only [hw, ho, Bool.and_self, if_true] at hadm; exact absurd hadm hnew
  simp only [Bool.not_eq_true] at ho
  simp only [hw, ho, Bool.and_false, Bool.false_eq_true, if_false, Bool.not_true] at hadm
  have hsolid := solid_of_weaklySolid s.store blk hw ho
  refine ⟨hv, hw, ho, hsolid,
    ⟨DAGExists_Cache _ _ _ hsolid.1, DAGExists_Cache _ _ _ hsolid.2.1,
      DAGExists_Cache _ _ _ hsolid.2.2⟩, ?_⟩
  cases hm : GetMsVertex s blk.milestoneHash with
  | none => simp only [hm] at hadm; exact absurd hadm hnew
  | some ms =>
    simp only [hm] at hadm
    cases hsn : ms.snapshot with
    | none => simp only [hsn] at hadm; exact absurd hadm hnew
    | some snap =>
      simp only [hsn] at hadm
      by_cases ht : blk.diffTarget = env.getCompact snap.blockTarget
      swap
      · have : (blk.diffTarget != env.getCompact snap.blockTarget) = true := by
          simpa using ht
        rw [if_pos this] at hadm; exact absurd hadm hnew
      have hte : (blk.diffTarget != env.getCompact snap.blockTarget) = false := by
        simpa using ht
      simp only [hte, Bool.false_eq_true, if_false] at hadm
      cases hp : CheckPuntuality env s ms with
      | ub s1 =>
        exfalso
        simp only [hp] at hadm
        rw [CheckPuntuality_ub env s ms s1 hp] at hadm
        exact hnew hadm
      | ok punctual =>
        simp only [hp] at hadm
        cases punctual
        · exact absurd hadm hnew
        · exact ⟨ms, snap, rfl, hsn, ht, hp⟩

/-- Instance of C1: an ordinary block on top of genesis is admitted by the freshly constructed
manager. -/
theorem AddNewBlock_admits_only_checked_witness :
    demoEnv.blockVerify plainBlock = true ∧
    demoInit.store.IsWeaklySolid plainBlock = true ∧
    demoInit.store.AnyLinkIsOrphan plainBlock = false ∧
    (demoInit.store.DAGExists plainBlock.milestoneHash = true ∧
      demoInit.store.DAGExists plainBlock.prevHash = true ∧
      demoInit.store.DAGExists plainBlock.tipHash = true) ∧
    ((demoInit.store.Cache plainBlock).DAGExists plainBlock.milestoneHash = true ∧
      (demoInit.store.Cache plainBlock).DAGExists plainBlock.prevHash = true ∧
      (demoInit.store.Cache plainBlock).DAGExists plainBlock.tipHash = true) ∧
    ∃ ms snap, GetMsVertex demoInit plainBlock.milestoneHash = some ms ∧
      ms.snapshot = some snap ∧
      plainBlock.diffTarget = demoEnv.getCompact snap.blockTarget ∧
      CheckPuntuality demoEnv demoInit ms = Run.ok true :=
  AddNewBlock_admits_only_checked demoEnv demoInit plainBlock none 0 (by decide) (by decide)

/-- C5 (as amended). A block whose referenced milestone is known and fails the punctuality check
is never cached and never reaches a pending set: `AddNewBlock` returns the manager unchanged,
except in the branch of a weakly solid block with a parent in the OBC, which makes no
punctuality check and hands the block with its mask to `AddBlockToOBC` (a call that leaves the
block cache alone). -/
theorem AddNewBlock_too_old (env : Collab) (s : DAGManager) (blk : Block) (peer : Option Nat)
    (now : Int) (ms : Vertex)
    (hms : GetMsVertex s blk.milestoneHash = some ms)
    (hsnap : ms.snapshot ≠ none)
    (hp : CheckPuntuality env s ms = Run.ok false) :
    (AddNewBlock env s blk peer now = Run.ok s ∨
      (s.store.IsWeaklySolid blk = true ∧ s.store.AnyLinkIsOrphan blk = true ∧
        AddNewBlock env s blk peer now =
          Run.ok { s with store := s.store.AddBlockToOBC blk (solidityMask s.store blk) })) ∧
    (¬ (s.store.IsWeaklySolid blk = true ∧ s.store.AnyLinkIsOrphan blk = true) →
      AddNewBlock env s blk peer now = Run.ok s) ∧
    (s.store.AddBlockToOBC blk (solidityMask s.store blk)).blockCache = s.store.blockCache := by
  have key : AddNewBlock env s blk peer now = Run.ok s ∨
      (s.store.IsWeaklySolid blk = true ∧ s.store.AnyLinkIsOrphan blk = true ∧
        AddNewBlock env s blk peer now =
          Run.ok { s with store := s.store.AddBlockToOBC blk (solidityMask s.store blk) }) := by
    unfold AddNewBlock
    by_cases hg : blk = env.genesis
    · left; rw [if_pos hg]; rfl
    rw [if_neg hg]
    by_cases he : s.store.Exists blk.hash = true
    · left; rw [if_pos he]; rfl
    rw [if_neg he]
    by_cases hv : env.blockVerify blk = true
    swap
    · simp only [Bool.not_eq_true] at hv
      left; simp only [hv, Bool.not_false, if_true]; rfl
    simp only [hv, Bool.not_true, Bool.false_eq_true, if_false]
    by_cases hw : s.store.IsWeaklySolid blk = true
    swap
    · simp only [Bool.not_eq_true] at hw
      left
      simp only [hw, Bool.false_and, Bool.false_eq_true, if_false, Bool.not_false, if_true,
        hms, hp]
      rfl
    by_cases ho : s.store.AnyLinkIsOrphan blk = true
    · right
      refine ⟨hw, ho, ?_⟩
      simp only [hw, ho, Bool.and_self, if_true]; rfl
    simp only [Bool.not_eq_true] at ho
    left
    simp only [hw, ho, Bool.and_false, Bool.false_eq_true, if_false, Bool.not_true, hms]
    cases hsn : ms.snapshot with
    | none => exact absurd hsn hsnap
    | some snap =>
      simp only []
      by_cases ht : (blk.diffTarget != env.getCompact snap.blockTarget) = true
      · rw [if_pos ht]; rfl
      · rw [if_neg ht]; simp only [hp, Bool.not_false, if_true]; rfl
  refine ⟨key, ?_, ?_⟩
  · intro hno
    rcases key with h | ⟨hw, ho, _⟩
    · exact h
    · exact absurd ⟨hw, ho⟩ hno
  · unfold BlockStore.AddBlockToOBC
    split <;> rfl

/-- Instance of the amended C5: a solid block that points at the old milestone is dropped. -/
theorem AddNewBlock_too_old_witness :
    (AddNewBlock demoEnv lateManager lateSolidBlock none 0 = Run.ok lateManager ∨
      (lateManager.store.IsWeaklySolid lateSolidBlock = true ∧
        lateManager.store.AnyLinkIsOrphan lateSolidBlock = true ∧
        AddNewBlock demoEnv lateManager lateSolidBlock none 0 =
          Run.ok { lateManager with
            store := lateManager.store.AddBlockToOBC lateSolidBlock
              (solidityMask lateManager.store lateSolidBlock) })) ∧
    (¬ (lateManager.store.IsWeaklySolid lateSolidBlock = true ∧
        lateManager.store.AnyLinkIsOrphan lateSolidBlock = true) →
      AddNewBlock demoEnv lateManager lateSolidBlock none 0 = Run.ok lateManager) ∧
    (lateManager.store.AddBlockToOBC lateSolidBlock
      (solidityMask lateManager.store lateSolidBlock)).blockCache
        = lateManager.store.blockCache :=
  AddNewBlock_too_old demoEnv lateManager lateSolidBlock none 0 oldVertex
    (by rfl) (by decide) (by rfl)

/-- C5 fails as stated: the block 40 passes `Block::Verify`, its milestone 20 is known and fails
the punctuality check (best height 5, milestone height 2, threshold 3), its prev parent 30
waits in the OBC; `AddNewBlock` inserts the block into the OBC with mask 4. -/
theorem AddNewBlock_too_old_enters_OBC :
    demoEnv.blockVerify lateBlock = true ∧
    GetMsVertex lateManager lateBlock.milestoneHash = some oldVertex ∧
    CheckPuntuality demoEnv lateManager oldVertex = Run.ok false ∧
    lateManager.store.OBCContains lateBlock.hash = false ∧
    AddNewBlock demoEnv lateManager lateBlock none 0 =
      Run.ok { lateManager with
        store := { lateManager.store with obc := [(orphanBlock, 4), (lateBlock, 4)] } } ∧
    (AddNewBlock demoEnv lateManager lateBlock none 0).state.store.OBCContains lateBlock.hash
      = true := by
  refine ⟨by rfl, by rfl, by rfl, by rfl, by rfl, by rfl⟩

/-- The inner extraction loop lists the outputs with their positions. -/
theorem utxosOfOutputs_eq (i : Nat) (outs : List TxOutput) (j : Nat) :
    utxosOfOutputs i outs j =
      (outs.enumFrom j).map (fun jo => { output := jo.2, txIndex := i, outIndex := jo.1 }) := by
  induction outs generalizing j with
  | nil => rfl
  | cons o outs ih => simp [utxosOfOutputs, List.enumFrom, ih]

/-- The outer extraction loop lists the transactions with their positions. -/
theorem utxosOfTxns_eq (txns : List Transaction) (i : Nat) :
    utxosOfTxns txns i =
      (txns.enumFrom i).flatMap (fun it => (it.2.outputs.enum).map
        (fun jo => { output := jo.2, txIndex := it.1, outIndex := jo.1 })) := by
  induction txns generalizing i with
  | nil => rfl
  | cons t txns ih =>
    simp [utxosOfTxns, List.enumFrom, ih, utxosOfOutputs_eq, List.enum]

/-- Membership in the result of the inner extraction loop. -/
theorem mem_utxosOfOutputs (i : Nat) (outs : List TxOutput) (j : Nat) (u : UTXO) :
    u ∈ utxosOfOutputs i outs j ↔
      (u.txIndex = i ∧ j ≤ u.outIndex ∧ outs.get? (u.outIndex - j) = some u.output) := by
  induction outs generalizing j with
  | nil => simp [utxosOfOutputs]
  | cons o outs ih =>
    simp only [utxosOfOutputs, List.mem_cons, ih]
    constructor
    · rintro (h | ⟨h1, h2, h3⟩)
      · subst h; simp
      · refine ⟨h1, by omega, ?_⟩
        have : u.outIndex - j = (u.outIndex - (j + 1)) + 1 := by omega
        rw [this]; simpa using h3
    · rintro ⟨h1, h2, h3⟩
      by_cases hj : u.outIndex = j
      · left
        rw [hj] at h3
        simp at h3
        cases u
        simp_all
      · right
        refine ⟨h1, by omega, ?_⟩
        have : u.outIndex - j = (u.outIndex - (j + 1)) + 1 := by omega
        rw [this] at h3; simpa using h3

/-- Membership in the result of the outer extraction loop. -/
theorem mem_utxosOfTxns (txns : List Transaction) (i : Nat) (u : UTXO) :
    u ∈ utxosOfTxns txns i ↔
      (i ≤ u.txIndex ∧ ∃ t, txns.get? (u.txIndex - i) = some t ∧
        t.outputs.get? u.outIndex = some u.output) := by
  induction txns generalizing i with
  | nil => simp [utxosOfTxns]
  | cons t txns ih =>
    simp only [utxosOfTxns, List.mem_append, mem_utxosOfOutputs, ih]
    constructor
    · rintro (⟨h1, _, h3⟩ | ⟨h1, t1, h2, h3⟩)
      · refine ⟨by omega, t, ?_, ?_⟩
        · simp [h1]
        · simpa using h3
      · refine ⟨by omega, t1, ?_, h3⟩
        have : u.txIndex - i = (u.txIndex - (i + 1)) + 1 := by omega
        rw [this]; simpa using h2
    · rintro ⟨h1, t1, h2, h3⟩
      by_cases hi : u.txIndex = i
      · left
        rw [hi] at h2
        simp at h2
        subst h2
        exact ⟨hi, Nat.zero_le _, by simpa using h3⟩
      · right
        refine ⟨by omega, t1, ?_, h3⟩
        have : u.txIndex - i = (u.txIndex - (i + 1)) + 1 := by omega
        rw [this] at h2; simpa using h2

/-- The inner extraction loop lists its entries in increasing output index. -/
theorem pairwise_utxosOfOutputs (i : Nat) (outs : List TxOutput) (j : Nat) :
    (utxosOfOutputs i outs j).Pairwise utxoBefore := by
  induction outs generalizing j with
  | nil => simp [utxosOfOutputs]
  | cons o outs ih =>
    simp only [utxosOfOutputs, List.pairwise_cons]
    refine ⟨?_, ih (j + 1)⟩
    intro u hu
    rw [mem_utxosOfOutputs] at hu
    right
    exact ⟨hu.1.symm, by simp only; omega⟩

/-- The outer extraction loop lists its entries in increasing (transaction, output) index. -/
theorem pairwise_utxosOfTxns (txns : List Transaction) (i : Nat) :
    (utxosOfTxns txns i).Pairwise utxoBefore := by
  induction txns generalizing i with
  | nil => simp [utxosOfTxns]
  | cons t txns ih =>
    simp only [utxosOfTxns, List.pairwise_append]
    refine ⟨pairwise_utxosOfOutputs i t.outputs 0, ih (i + 1), ?_⟩
    intro a ha b hb
    rw [mem_utxosOfOutputs] at ha
    rw [mem_utxosOfTxns] at hb
    left
    omega

/-- Number of entries produced by the inner extraction loop. -/
theorem length_utxosOfOutputs (i : Nat) (outs : List TxOutput) (j : Nat) :
    (utxosOfOutputs i outs j).length = outs.length := by
  induction outs generalizing j with
  | nil => rfl
  | cons o outs ih => simp [utxosOfOutputs, ih]

/-- Number of entries produced by the outer extraction loop. -/
theorem length_utxosOfTxns (txns : List Transaction) (i : Nat) :
    (utxosOfTxns txns i).length = (txns.map (fun t => t.outputs.length)).sum := by
  induction txns generalizing i with
  | nil => rfl
  | cons t txns ih => simp [utxosOfTxns, ih, length_utxosOfOutputs]

/-- C7. `AddBlockToPending` first runs the pending loop and then the promotion on its result.
The loop keeps the number of chains, leaves a pending entry with the block's hash on every
chain (the block itself, appended, unless the hash was pending already), and appends the
candidate UTXOs to every chain's pending UTXOs exactly when the block is not a first
registration.  The UTXO list is the list of the specification: one entry `(output, i, j)` per
output `j` of transaction `i` and no other entry, in increasing `(i, j)` order. -/
theorem AddBlockToPending_pending_sets (env : Collab) (s : DAGManager) (block : Block)
    (now : Int) :
    AddBlockToPending env s block now =
      promote env
        { s with milestoneChains := addPendingOnEveryChain env block s.milestoneChains,
                 log := s.log ++ [Event.addBlockToPending block] } block now ∧
    (addPendingOnEveryChain env block s.milestoneChains).length = s.milestoneChains.length ∧
    (∀ c ∈ addPendingOnEveryChain env block s.milestoneChains,
      ∃ p ∈ c.pendingBlocks, p.hash = block.hash) ∧
    (∀ i c, s.milestoneChains.get? i = some c →
      ∃ c1, (addPendingOnEveryChain env block s.milestoneChains).get? i = some c1 ∧
        c1.pendingBlocks =
          (if c.pendingBlocks.any (fun p => p.hash == block.hash) then c.pendingBlocks
           else c.pendingBlocks ++ [block]) ∧
        c1.pendingUTXOs =
          (if env.isFirstRegistration block then c.pendingUTXOs
           else c.pendingUTXOs ++ extractUTXOs block) ∧
        c1.milestones = c.milestones ∧ c1.ismainchain = c.ismainchain ∧
        c1.vertexCache = c.vertexCache) ∧
    extractUTXOs block = utxosSpec block ∧
    (∀ u, u ∈ extractUTXOs block ↔
      ∃ t, block.transactions.get? u.txIndex = some t ∧
        t.outputs.get? u.outIndex = some u.output) ∧
    (extractUTXOs block).Pairwise utxoBefore ∧
    (extractUTXOs block).length = (block.transactions.map (fun t => t.outputs.length)).sum := by
  have hfields : ∀ c : Chain,
      (addPendingOn env block (extractUTXOs block) c).pendingBlocks =
          (if c.pendingBlocks.any (fun p => p.hash == block.hash) then c.pendingBlocks
           else c.pendingBlocks ++ [block]) ∧
      (addPendingOn env block (extractUTXOs block) c).pendingUTXOs =
          (if env.isFirstRegistration block then c.pendingUTXOs
           else c.pendingUTXOs ++ extractUTXOs block) ∧
      (addPendingOn env block (extractUTXOs block) c).milestones = c.milestones ∧
      (addPendingOn env block (extractUTXOs block) c).ismainchain = c.ismainchain ∧
      (addPendingOn env block (extractUTXOs block) c).vertexCache = c.vertexCache := by
    intro c
    unfold addPendingOn Chain.AddPendingBlock Chain.AddPendingUTXOs
    cases env.isFirstRegistration block <;>
      cases (c.pendingBlocks.any fun p => p.hash == block.hash) <;> simp
  refine ⟨rfl, by simp [addPendingOnEveryChain], ?_, ?_, ?_, ?_, ?_, ?_⟩
  · intro c hc
    unfold addPendingOnEveryChain at hc
    rw [List.mem_map] at hc
    obtain ⟨c0, _, rfl⟩ := hc
    rw [(hfields c0).1]
    by_cases h : (c0.pendingBlocks.any fun p => p.hash == block.hash) = true
    · rw [if_pos h]
      rw [List.any_eq_true] at h
      obtain ⟨p, hp, hh⟩ := h
      exact ⟨p, hp, by simpa using hh⟩
    · rw [if_neg h]
      exact ⟨block, by simp, rfl⟩
  · intro i c hi
    refine ⟨addPendingOn env block (extractUTXOs block) c, ?_, hfields c⟩
    unfold addPendingOnEveryChain
    simp [List.getElem?_map, List.get?_eq_getElem?] at hi ⊢
    exact ⟨c, hi, rfl⟩
  · unfold extractUTXOs utxosSpec
    rw [utxosOfTxns_eq]
    rfl
  · intro u
    unfold extractUTXOs
    rw [mem_utxosOfTxns]
    simp
  · exact pairwise_utxosOfTxns _ _
  · exact length_utxosOfTxns _ _

/-- The tracked best chain is a chain of the container. -/
theorem bestOf_mem (cs : List Chain) (b : Chain) (h : bestOf cs = some b) : b ∈ cs :=
  List.mem_of_find?_eq_some h

/-- The tracked best chain carries the main-chain flag. -/
theorem bestOf_flag (cs : List Chain) (b : Chain) (h : bestOf cs = some b) :
    b.ismainchain = true := by
  have := List.find?_some h
  simpa using this

/-- The tracked best chain sits at the tracked position. -/
theorem bestIdx_of_bestOf (cs : List Chain) (b : Chain) (h : bestOf cs = some b) :
    ∃ i, bestIdx cs = some i ∧ cs.get? i = some b := by
  induction cs with
  | nil => simp [bestOf] at h
  | cons c cs ih =>
    unfold bestOf at h
    rw [List.find?_cons] at h
    by_cases hc : c.ismainchain = true
    · simp only [hc] at h
      cases h
      exact ⟨0, by simp [bestIdx, hc], rfl⟩
    · simp only [Bool.not_eq_true] at hc
      simp only [hc] at h
      obtain ⟨i, hi, hg⟩ := ih h
      exact ⟨i + 1, by simp [bestIdx, hc, hi], by simpa using hg⟩

/-- What a successful `ProcessMilestone` does: the call is logged, the vertex returned by
`Verify` is entered into `msVertices_` under the block hash, the hash leaves `downloading_`,
and the chain gets the sealed state with the new snapshot at the back of its deque. -/
theorem ProcessMilestone_ok (env : Collab) (s : DAGManager) (chain : Chain) (block : Block)
    (s1 : DAGManager) (chain1 : Chain)
    (h : ProcessMilestone env s chain block = Run.ok (s1, chain1)) :
    ∃ out snap, env.verifyLevelSet chain block = some out ∧ out.vertex.snapshot = some snap ∧
      s1 = { s with log := s.log ++ [Event.processMilestone block],
                    msVertices := msEmplace s.msVertices block.hash (some out.vertex),
                    downloading := s.downloading.filter (fun h => h != block.hash) } ∧
      chain1 = { chain with pendingBlocks := out.pendingBlocks,
                            pendingUTXOs := out.pendingUTXOs,
                            vertexCache := out.vertexCache,
                            milestones := chain.milestones ++ [snap] } := by
  unfold ProcessMilestone Chain.Verify at h
  cases hv : env.verifyLevelSet chain block with
  | none => simp [hv, deref, bind, Run.bind] at h
  | some out =>
    cases hs : out.vertex.snapshot with
    | none => simp [hv, hs, deref, bind, Run.bind] at h
    | some snap =>
      simp only [hv, hs, deref, bind, Run.bind, pure, Run.ok.injEq, Prod.mk.injEq] at h
      obtain ⟨h1, h2⟩ := h
      exact ⟨out, snap, rfl, hs, h1.symm, by rw [← h2]; rfl⟩

/-- The loop over the chains other than the best one either leaves the manager as it is or
performs one promotion of the shapes `GrowStep` or `ForkStep`. -/
theorem promoteOnForks_ok (env : Collab) (s : DAGManager) (block : Block) (r : DAGManager) :
    ∀ (cs : List Chain) (i : Nat),
      (∀ k c, cs.get? k = some c → s.milestoneChains.get? (i + k) = some c) →
      promoteOnForks env s block cs i = Run.ok r →
      r = s ∨ GrowStep env s block r ∨ ForkStep env s block r := by
  intro cs
  induction cs with
  | nil =>
    intro i _ h
    simp only [promoteOnForks, pure, Run.ok.injEq] at h
    exact Or.inl h.symm
  | cons chain cs ih =>
    intro i hpos h
    have hrest : ∀ k c, cs.get? k = some c → s.milestoneChains.get? (i + 1 + k) = some c := by
      intro k c hk
      have := hpos (k + 1) c (by simpa using hk)
      rw [show i + 1 + k = i + (k + 1) by omega]
      exact this
    have hhere : s.milestoneChains.get? i = some chain := by
      simpa using hpos 0 chain rfl
    unfold promoteOnForks at h
    by_cases hm : chain.ismainchain = true
    · rw [if_pos hm] at h
      exact ih (i + 1) hrest h
    rw [if_neg hm] at h
    simp only [Bool.not_eq_true] at hm
    cases hc : chain.GetMsVertexCache block.milestoneHash with
    | none =>
      simp only [hc] at h
      exact ih (i + 1) hrest h
    | some msBlock =>
      simp only [hc] at h
      cases hsn : msBlock.snapshot with
      | none => simp only [hsn] at h; cases h
      | some ms =>
        simp only [hsn] at h
        by_cases hpow : CheckMsPOW block ms = true
        swap
        · rw [if_neg hpow] at h
          exact ih (i + 1) hrest h
        rw [if_pos hpow] at h
        cases hh : chain.GetChainHead with
        | none => simp only [hh] at h; cases h
        | some head =>
          simp only [hh] at h
          by_cases heq : msBlock.cblock.hash = head.GetMilestoneHash
          · rw [if_pos heq] at h
            cases hpm : ProcessMilestone env s chain block with
            | ub s1 => simp only [hpm] at h; cases h
            | ok res =>
              obtain ⟨s1, chain1⟩ := res
              simp only [hpm, pure, Run.ok.injEq] at h
              right; left
              exact ⟨i, chain, s1, chain1, hhere, hm, hpm, h.symm⟩
          · rw [if_neg heq] at h
            cases hpm : ProcessMilestone env s (chain.fork env block) block with
            | ub s1 => simp only [hpm] at h; cases h
            | ok res =>
              obtain ⟨s1, f⟩ := res
              simp only [hpm, pure, Run.ok.injEq] at h
              right; right
              exact ⟨chain, s1, f, List.get?_mem hhere, hpm, h.symm⟩

/-- A successful `promote` either leaves the manager as it is or performs exactly one promotion,
of one of the three shapes. -/
theorem promote_ok (env : Collab) (s : DAGManager) (block : Block) (now : Int) (r : DAGManager)
    (h : promote env s block now = Run.ok r) :
    r = s ∨ BestStep env s block now r ∨ GrowStep env s block r ∨ ForkStep env s block r := by
  unfold promote GetBestChain at h
  cases hb : bestOf s.milestoneChains with
  | none => simp [hb, deref, bind, Run.bind] at h
  | some mainchain =>
    simp only [hb, deref, bind, Run.bind] at h
    have hloop : promoteOnForks env s block s.milestoneChains 0 = Run.ok r →
        r = s ∨ BestStep env s block now r ∨ GrowStep env s block r ∨ ForkStep env s block r := by
      intro hl
      rcases promoteOnForks_ok env s block r s.milestoneChains 0
          (by intro k c hk; simpa using hk) hl with h1 | h1 | h1
      · exact Or.inl h1
      · exact Or.inr (Or.inr (Or.inl h1))
      · exact Or.inr (Or.inr (Or.inr h1))
    have hfound : ∀ msBlock : Vertex,
        (match some msBlock with
          | some msBlock =>
            (deref s msBlock.snapshot).bind fun ms =>
              if CheckMsPOW block ms = true then
                (GetMilestoneHead s).bind fun head =>
                  if msBlock.cblock = head.cblock then
                    (deref s (bestIdx s.milestoneChains)).bind fun i =>
                      (ProcessMilestone env s mainchain block).bind fun x =>
                        match x with
                        | (s1, chain1) =>
                          (EnableOBC env
                            { s1 with milestoneChains := s1.milestoneChains.set i chain1,
                                      log := s1.log ++ [Event.onChainUpdated block true] }
                            now).bind fun s3 =>
                              (DeleteFork env s3).bind fun s4 => FlushTrigger env s4
                  else
                    (ProcessMilestone env s (mainchain.fork env block) block).bind fun x =>
                      match x with
                      | (s1, new_fork) =>
                        pure
                          { s1 with milestoneChains := (emplace s1.milestoneChains new_fork).1,
                                    log := s1.log ++
                                      [Event.onChainUpdated block
                                        (emplace s1.milestoneChains new_fork).2] }
              else pure s
          | none => promoteOnForks env s block s.milestoneChains 0) = Run.ok r →
        r = s ∨ BestStep env s block now r ∨ GrowStep env s block r ∨ ForkStep env s block r := by
      intro msBlock h
      simp only [] at h
      cases hsn : msBlock.snapshot with
      | none => simp [hsn, deref, Run.bind] at h
      | some ms =>
        simp only [hsn, deref, Run.bind] at h
        by_cases hpow : CheckMsPOW block ms = true
        swap
        · rw [if_neg hpow] at h
          left
          simp only [pure, Run.ok.injEq] at h
          exact h.symm
        rw [if_pos hpow] at h
        cases hhd : GetMilestoneHead s with
        | ub s1 => simp only [hhd] at h; cases h
        | ok head =>
          simp only [hhd] at h
          by_cases heq : msBlock.cblock = head.cblock
          · rw [if_pos heq] at h
            cases hi : bestIdx s.milestoneChains with
            | none => simp only [hi] at h; cases h
            | some i =>
              simp only [hi] at h
              cases hpm : ProcessMilestone env s mainchain block with
              | ub s1 => simp only [hpm] at h; cases h
              | ok res =>
                obtain ⟨s1, chain1⟩ := res
                simp only [hpm] at h
                cases he : EnableOBC env
                    { s1 with milestoneChains := s1.milestoneChains.set i chain1,
                              log := s1.log ++ [Event.onChainUpdated block true] } now with
                | ub s3 => simp only [he] at h; cases h
                | ok s3 =>
                  simp only [he] at h
                  cases hd : DeleteFork env s3 with
                  | ub s4 => simp only [hd] at h; cases h
                  | ok s4 =>
                    simp only [hd] at h
                    right; left
                    exact ⟨mainchain, i, s1, chain1, s3, s4, hb, hi, hpm, he, hd, h⟩
          · rw [if_neg heq] at h
            cases hpm : ProcessMilestone env s (mainchain.fork env block) block with
            | ub s1 => simp only [hpm] at h; cases h
            | ok res =>
              obtain ⟨s1, f⟩ := res
              simp only [hpm, pure, Run.ok.injEq] at h
              right; right; right
              exact ⟨mainchain, s1, f, bestOf_mem _ _ hb, hpm, h.symm⟩
    cases hc : mainchain.GetMsVertexCache block.milestoneHash with
    | some v =>
      simp only [hc] at h
      exact hfound v h
    | none =>
      simp only [hc] at h
      cases hst : s.store.GetVertex block.milestoneHash with
      | some v =>
        simp only [hst] at h
        exact hfound v h
      | none =>
        simp only [hst] at h
        exact hloop h

/-- The milestone proof-of-work test holds exactly when the proof hash does not exceed the
milestone target. -/
theorem CheckMsPOW_iff (b : Block) (m : Milestone) :
    CheckMsPOW b m = true ↔ b.proofHash ≤ m.milestoneTarget := by
  unfold CheckMsPOW
  simp

/-- The pending loop changes neither the flag, nor the deque, nor the vertex cache of a chain. -/
theorem addPendingOn_frame (env : Collab) (block : Block) (utxos : List UTXO) (c : Chain) :
    (addPendingOn env block utxos c).ismainchain = c.ismainchain ∧
    (addPendingOn env block utxos c).milestones = c.milestones ∧
    (addPendingOn env block utxos c).vertexCache = c.vertexCache := by
  unfold addPendingOn Chain.AddPendingBlock Chain.AddPendingUTXOs
  cases env.isFirstRegistration block <;>
    cases (c.pendingBlocks.any fun p => p.hash == block.hash) <;> simp

/-- The pending loop does not change what a chain's milestone vertex cache answers. -/
theorem addPendingOn_cache (env : Collab) (block : Block) (utxos : List UTXO) (c : Chain)
    (h : uint256) :
    (addPendingOn env block utxos c).GetMsVertexCache h = c.GetMsVertexCache h := by
  unfold Chain.GetMsVertexCache
  rw [(addPendingOn_frame env block utxos c).2.2]

/-- The tracked best chain after a map that keeps the flags. -/
theorem bestOf_map (f : Chain → Chain) (hf : ∀ c, (f c).ismainchain = c.ismainchain)
    (cs : List Chain) : bestOf (cs.map f) = (bestOf cs).map f := by
  induction cs with
  | nil => rfl
  | cons c cs ih =>
    unfold bestOf at ih ⊢
    simp only [List.map_cons, List.find?_cons, hf]
    cases c.ismainchain
    · simpa using ih
    · simp

/-- The loop over the other chains leaves the manager alone when no cached vertex of the
referenced milestone has its target met. -/
theorem promoteOnForks_not_candidate (env : Collab) (s : DAGManager) (block : Block) :
    ∀ (cs : List Chain) (i : Nat),
      (∀ c ∈ cs, ∀ v, c.GetMsVertexCache block.milestoneHash = some v →
        ∃ snap, v.snapshot = some snap ∧ snap.milestoneTarget < block.proofHash) →
      promoteOnForks env s block cs i = Run.ok s := by
  intro cs
  induction cs with
  | nil => intro i _; rfl
  | cons chain cs ih =>
    intro i hno
    have hrest := ih (i + 1) (fun c hc v hv => hno c (List.mem_cons_of_mem _ hc) v hv)
    unfold promoteOnForks
    by_cases hm : chain.ismainchain = true
    · rw [if_pos hm]; exact hrest
    rw [if_neg hm]
    cases hc : chain.GetMsVertexCache block.milestoneHash with
    | none => simp only []; exact hrest
    | some v =>
      obtain ⟨snap, hs, hlt⟩ := hno chain (List.mem_cons_self _ _) v hc
      have hpow : ¬ CheckMsPOW block snap = true := by
        rw [CheckMsPOW_iff]; omega
      simp only [hs, if_neg hpow]
      exact hrest

/-- The promotion leaves the manager alone when no vertex of the referenced milestone, in a
chain's cache or in the store, has its target met. -/
theorem promote_not_candidate (env : Collab) (s : DAGManager) (block : Block) (now : Int)
    (hbest : bestOf s.milestoneChains ≠ none)
    (hno : ∀ v, ((∃ c ∈ s.milestoneChains, c.GetMsVertexCache block.milestoneHash = some v) ∨
          s.store.GetVertex block.milestoneHash = some v) →
        ∃ snap, v.snapshot = some snap ∧ snap.milestoneTarget < block.proofHash) :
    promote env s block now = Run.ok s := by
  unfold promote GetBestChain
  cases hb : bestOf s.milestoneChains with
  | none => exact absurd hb hbest
  | some mainchain =>
    simp only [deref, bind, Run.bind]
    have hfound : ∀ v, ((∃ c ∈ s.milestoneChains,
          c.GetMsVertexCache block.milestoneHash = some v) ∨
          s.store.GetVertex block.milestoneHash = some v) →
        ∃ snap, v.snapshot = some snap ∧ ¬ CheckMsPOW block snap = true := by
      intro v hv
      obtain ⟨snap, hs, hlt⟩ := hno v hv
      exact ⟨snap, hs, by rw [CheckMsPOW_iff]; omega⟩
    cases hc : mainchain.GetMsVertexCache block.milestoneHash with
    | some v =>
      obtain ⟨snap, hs, hpow⟩ := hfound v (Or.inl ⟨mainchain, bestOf_mem _ _ hb, hc⟩)
      simp only [hs, deref, Run.bind, if_neg hpow]
      rfl
    | none =>
      simp only []
      cases hst : s.store.GetVertex block.milestoneHash with
      | some v =>
        obtain ⟨snap, hs, hpow⟩ := hfound v (Or.inr hst)
        simp only [hs, deref, Run.bind, if_neg hpow]
        rfl
      | none =>
        simp only []
        exact promoteOnForks_not_candidate env s block s.milestoneChains 0
          (fun c hc v hv => hno v (Or.inl ⟨c, hc, hv⟩))

/-- The milestone test `CheckMsPOW` holds exactly when the proof hash is at most the
`milestoneTarget` of the snapshot (equality meets the target).  When the block misses the
target of the referenced milestone, whichever chain cache or store entry provides it,
`AddBlockToPending` only runs the pending loop: the chains are the ones the loop produced (no
chain inserted, no deque extended), `msVertices_` is untouched and the only call logged is the
entry of `AddBlockToPending` itself, so neither `ProcessMilestone` nor `OnChainUpdated`
occurs. -/
theorem AddBlockToPending_missed_target (env : Collab) (s : DAGManager) (block : Block)
    (now : Int)
    (hbest : bestOf s.milestoneChains ≠ none)
    (hno : ∀ v, ((∃ c ∈ s.milestoneChains, c.GetMsVertexCache block.milestoneHash = some v) ∨
          s.store.GetVertex block.milestoneHash = some v) →
        ∃ snap, v.snapshot = some snap ∧ snap.milestoneTarget < block.proofHash) :
    (∀ m : Milestone, CheckMsPOW block m = true ↔ block.proofHash ≤ m.milestoneTarget) ∧
    AddBlockToPending env s block now =
      Run.ok { s with milestoneChains := addPendingOnEveryChain env block s.milestoneChains,
                      log := s.log ++ [Event.addBlockToPending block] } ∧
    (∀ r, AddBlockToPending env s block now = Run.ok r →
      r.milestoneChains.length = s.milestoneChains.length ∧
      r.milestoneChains.map (fun c => c.milestones) =
        s.milestoneChains.map (fun c => c.milestones) ∧
      r.msVertices = s.msVertices ∧
      r.log = s.log ++ [Event.addBlockToPending block] ∧
      Event.processMilestone block ∉ [Event.addBlockToPending block] ∧
      (∀ isMain, Event.onChainUpdated block isMain ∉ [Event.addBlockToPending block])) := by
  have hrun : AddBlockToPending env s block now =
      Run.ok { s with milestoneChains := addPendingOnEveryChain env block s.milestoneChains,
                      log := s.log ++ [Event.addBlockToPending block] } := by
    unfold AddBlockToPending
    apply promote_not_candidate
    · show bestOf (addPendingOnEveryChain env block s.milestoneChains) ≠ none
      unfold addPendingOnEveryChain
      rw [bestOf_map _ (fun c => (addPendingOn_frame env block _ c).1)]
      cases hb : bestOf s.milestoneChains with
      | none => exact absurd hb hbest
      | some b => simp
    · intro v hv
      apply hno v
      rcases hv with ⟨c, hc, hv⟩ | hv
      · left
        change c ∈ addPendingOnEveryChain env block s.milestoneChains at hc
        unfold addPendingOnEveryChain at hc
        rw [List.mem_map] at hc
        obtain ⟨c0, hc0, rfl⟩ := hc
        rw [addPendingOn_cache] at hv
        exact ⟨c0, hc0, hv⟩
      · right; exact hv
  refine ⟨fun m => CheckMsPOW_iff block m, hrun, ?_⟩
  intro r hr
  rw [hrun] at hr
  cases hr
  refine ⟨by simp [addPendingOnEveryChain], ?_, rfl, rfl, by simp, by simp⟩
  unfold addPendingOnEveryChain
  rw [List.map_map]
  apply List.map_congr_left
  intro c _
  exact (addPendingOn_frame env block _ c).2.1

/-- `EnableOBC` can only switch the OBC on. -/
theorem EnableOBC_ok (env : Collab) (s : DAGManager) (now : Int) (r : DAGManager)
    (h : EnableOBC env s now = Run.ok r) :
    r = s ∨ r = { s with store := s.store.EnableOBC } := by
  unfold EnableOBC at h
  cases hh : GetMilestoneHead s with
  | ub s1 => simp [hh, bind, Run.bind] at h
  | ok head =>
    simp only [hh, bind, Run.bind] at h
    split at h
    · right; simp only [pure, Run.ok.injEq] at h; exact h.symm
    · left; simp only [pure, Run.ok.injEq] at h; exact h.symm

/-- `EnableOBC` leaves chains, milestone map and log alone. -/
theorem EnableOBC_frame (env : Collab) (s : DAGManager) (now : Int) (r : DAGManager)
    (h : EnableOBC env s now = Run.ok r) :
    r.milestoneChains = s.milestoneChains ∧ r.msVertices = s.msVertices ∧ r.log = s.log := by
  rcases EnableOBC_ok env s now r h with h1 | h1 <;> subst h1 <;> exact ⟨rfl, rfl, rfl⟩

/-- The statistics update leaves everything but the statistics alone. -/
theorem UpdateStatOnLvsStored_frame (s : DAGManager) (pms : Milestone) (r : DAGManager)
    (h : UpdateStatOnLvsStored s pms = Run.ok r) :
    r.milestoneChains = s.milestoneChains ∧ r.msVertices = s.msVertices ∧ r.log = s.log ∧
      r.store = s.store ∧ r.storedMs = s.storedMs := by
  unfold UpdateStatOnLvsStored at h
  simp only [bind, Run.bind, pure] at h
  split at h
  · cases hf : pms.levelSet.head? with
    | none => simp [hf, deref] at h
    | some front =>
      simp only [hf, deref, Run.ok.injEq] at h
      subst h
      exact ⟨rfl, rfl, rfl, rfl, rfl⟩
  · simp only [Run.ok.injEq] at h
    subst h
    exact ⟨rfl, rfl, rfl, rfl, rfl⟩

/-- `FlushToSTORE` sets the stored flag and schedules one storage task; chains, milestone map
and store are left alone. -/
theorem FlushToSTORE_frame (s : DAGManager) (ms : Milestone) (r : DAGManager)
    (h : FlushToSTORE s ms = Run.ok r) :
    r.milestoneChains = s.milestoneChains ∧ r.msVertices = s.msVertices ∧
      r.log = s.log ++ [Event.storageTask ms] ∧ r.store = s.store ∧
      r.storedMs = ms.ptr :: s.storedMs := by
  unfold FlushToSTORE at h
  cases hu : UpdateStatOnLvsStored s ms with
  | ub s1 => simp [hu, bind, Run.bind] at h
  | ok s1 =>
    obtain ⟨h1, h2, h3, h4, h5⟩ := UpdateStatOnLvsStored_frame s ms s1 hu
    simp only [hu, bind, Run.bind, GetBestChain] at h
    cases hb : bestOf s1.milestoneChains with
    | none => simp [hb, deref] at h
    | some b =>
      simp only [hb, deref, pure, Run.ok.injEq] at h
      subst h
      exact ⟨h1, h2, by simp [h3], h4, by simp [h5]⟩

/-- The flush loop only schedules storage tasks; chains, milestone map and store are left
alone. -/
theorem flushLoop_frame : ∀ (ms : List Milestone) (forks : List (List Milestone))
    (s r : DAGManager), flushLoop ms forks s = Run.ok r →
    r.milestoneChains = s.milestoneChains ∧ r.msVertices = s.msVertices ∧ r.store = s.store ∧
      ∃ tasks, r.log = s.log ++ tasks ∧ ∀ e ∈ tasks, ∃ m, e = Event.storageTask m := by
  intro ms
  induction ms with
  | nil =>
    intro forks s r h
    simp only [flushLoop, pure, Run.ok.injEq] at h
    subst h
    exact ⟨rfl, rfl, rfl, [], by simp, by simp⟩
  | cons cursor rest ih =>
    intro forks s r h
    unfold flushLoop at h
    split at h
    · exact ih _ _ _ h
    · cases ha : forksAgree cursor forks with
      | none => simp [ha] at h
      | some b =>
        cases b
        · simp only [ha, pure, Run.ok.injEq] at h
          subst h
          exact ⟨rfl, rfl, rfl, [], by simp, by simp⟩
        · simp only [ha] at h
          cases hf : FlushToSTORE s cursor with
          | ub s1 => simp [hf] at h
          | ok s1 =>
            simp only [hf] at h
            obtain ⟨h1, h2, h3, h4, _⟩ := FlushToSTORE_frame s cursor s1 hf
            obtain ⟨g1, g2, g3, tasks, g4, g5⟩ := ih _ _ _ h
            refine ⟨g1.trans h1, g2.trans h2, g3.trans h4, Event.storageTask cursor :: tasks,
              ?_, ?_⟩
            · rw [g4, h3]; simp
            · intro e he
              rcases List.mem_cons.mp he with he | he
              · exact ⟨cursor, he⟩
              · exact g5 e he

/-- `FlushTrigger` only schedules storage tasks; chains, milestone map and store are left
alone. -/
theorem FlushTrigger_frame (env : Collab) (s r : DAGManager)
    (h : FlushTrigger env s = Run.ok r) :
    r.milestoneChains = s.milestoneChains ∧ r.msVertices = s.msVertices ∧ r.store = s.store ∧
      ∃ tasks, r.log = s.log ++ tasks ∧ ∀ e ∈ tasks, ∃ m, e = Event.storageTask m := by
  unfold FlushTrigger GetBestChain at h
  cases hb : bestOf s.milestoneChains with
  | none => simp [hb, deref, bind, Run.bind] at h
  | some b =>
    simp only [hb, deref, bind, Run.bind] at h
    split at h
    · simp only [pure, Run.ok.injEq] at h
      subst h
      exact ⟨rfl, rfl, rfl, [], by simp, by simp⟩
    · cases hi : bestIdx s.milestoneChains with
      | none => simp [hi] at h
      | some i =>
        simp only [hi] at h
        exact flushLoop_frame _ _ _ _ h

/-- The chain loop of `DeleteFork` keeps every chain that carries the main-chain flag and only
drops chains: the tracked best chain, the number of flagged chains and membership are kept. -/
theorem deleteForkLoop_keeps (bestchain : Chain) (target : Nat) :
    ∀ (cs : List Chain) (mv : List (uint256 × Option Vertex)) (cs1 : List Chain)
      (mv1 : List (uint256 × Option Vertex)),
      deleteForkLoop bestchain target cs mv = some (cs1, mv1) →
      bestOf cs1 = bestOf cs ∧ (∀ c ∈ cs1, c ∈ cs) ∧
        cs1.countP (fun c => c.ismainchain) = cs.countP (fun c => c.ismainchain) := by
  intro cs
  induction cs with
  | nil =>
    intro mv cs1 mv1 h
    simp only [deleteForkLoop, Option.some.injEq, Prod.mk.injEq] at h
    obtain ⟨h1, _⟩ := h
    subst h1
    exact ⟨rfl, by simp, rfl⟩
  | cons c cs ih =>
    intro mv cs1 mv1 h
    unfold deleteForkLoop at h
    by_cases hm : c.ismainchain = true
    · rw [if_pos hm] at h
      cases hr : deleteForkLoop bestchain target cs mv with
      | none => simp [hr] at h
      | some res =>
        obtain ⟨cs2, mv2⟩ := res
        simp only [hr, Option.map_some', Option.some.injEq, Prod.mk.injEq] at h
        obtain ⟨h1, _⟩ := h
        subst h1
        obtain ⟨_, g2, g3⟩ := ih mv cs2 mv2 hr
        refine ⟨by simp [bestOf, List.find?_cons, hm], ?_, ?_⟩
        · intro d hd
          rcases List.mem_cons.mp hd with hd | hd
          · subst hd; exact List.mem_cons_self _ _
          · exact List.mem_cons_of_mem _ (g2 d hd)
        · simp [List.countP_cons, g3]
    · rw [if_neg hm] at h
      simp only [Bool.not_eq_true] at hm
      have hskip : ∀ (mvx : List (uint256 × Option Vertex)) (cs2 : List Chain)
          (mv2 : List (uint256 × Option Vertex)),
          deleteForkLoop bestchain target cs mvx = some (cs2, mv2) →
          bestOf cs2 = bestOf (c :: cs) ∧ (∀ d ∈ cs2, d ∈ c :: cs) ∧
            cs2.countP (fun c => c.ismainchain) =
              (c :: cs).countP (fun c => c.ismainchain) := by
        intro mvx cs2 mv2 hr
        obtain ⟨g1, g2, g3⟩ := ih mvx cs2 mv2 hr
        refine ⟨?_, fun d hd => List.mem_cons_of_mem _ (g2 d hd), ?_⟩
        · rw [g1]; simp [bestOf, List.find?_cons, hm]
        · simp [List.countP_cons, g3, hm]
      have hkeep : ∀ (cs2 : List Chain) (mv2 : List (uint256 × Option Vertex)),
          deleteForkLoop bestchain target cs mv = some (cs2, mv2) →
          bestOf (c :: cs2) = bestOf (c :: cs) ∧ (∀ d ∈ c :: cs2, d ∈ c :: cs) ∧
            (c :: cs2).countP (fun c => c.ismainchain) =
              (c :: cs).countP (fun c => c.ismainchain) := by
        intro cs2 mv2 hr
        obtain ⟨g1, g2, g3⟩ := ih mv cs2 mv2 hr
        refine ⟨?_, ?_, ?_⟩
        · simp only [bestOf, List.find?_cons, hm]
          exact g1
        · intro d hd
          rcases List.mem_cons.mp hd with hd | hd
          · subst hd; exact List.mem_cons_self _ _
          · exact List.mem_cons_of_mem _ (g2 d hd)
        · simp [List.countP_cons, g3]
      cases hh : c.GetChainHead with
      | none => simp [hh] at h
      | some head =>
        simp only [hh] at h
        split at h
        · exact hskip _ cs1 mv1 h
        · cases hr : deleteForkLoop bestchain target cs mv with
          | none => simp [hr] at h
          | some res =>
            obtain ⟨cs2, mv2⟩ := res
            simp only [hr, Option.map_some', Option.some.injEq, Prod.mk.injEq] at h
            obtain ⟨h1, _⟩ := h
            subst h1
            exact hkeep cs2 mv2 hr

/-- `DeleteFork` keeps the log, the tracked best chain and the number of flagged chains, and
every chain it leaves was there before. -/
theorem DeleteFork_frame (env : Collab) (s r : DAGManager) (h : DeleteFork env s = Run.ok r) :
    r.log = s.log ∧ r.store = s.store ∧
      bestOf r.milestoneChains = bestOf s.milestoneChains ∧
      (∀ c ∈ r.milestoneChains, c ∈ s.milestoneChains) ∧
      r.milestoneChains.countP (fun c => c.ismainchain) =
        s.milestoneChains.countP (fun c => c.ismainchain) := by
  unfold DeleteFork GetBestChain at h
  cases hb : bestOf s.milestoneChains with
  | none => simp [hb, deref, bind, Run.bind] at h
  | some b =>
    simp only [hb, deref, bind, Run.bind] at h
    split at h
    · simp only [pure, Run.ok.injEq] at h
      subst h
      exact ⟨rfl, rfl, hb, fun c hc => hc, rfl⟩
    · cases ht : b.milestones.get? (b.milestones.length - env.deleteForkThreshold) with
      | none =>
        simp only [ht] at h
        cases h
      | some target =>
        simp only [ht] at h
        cases hl : deleteForkLoop b target.chainwork s.milestoneChains s.msVertices with
        | none => simp [hl] at h
        | some res =>
          obtain ⟨cs1, mv1⟩ := res
          simp only [hl, pure, Run.ok.injEq] at h
          subst h
          obtain ⟨g1, g2, g3⟩ := deleteForkLoop_keeps b target.chainwork _ _ _ _ hl
          exact ⟨rfl, rfl, by rw [← hb]; exact g1, g2, g3⟩

/-- After `markBest` the chain at the marked position carries the flag. -/
theorem markBest_get : ∀ (cs : List Chain) (i : Nat) (c : Chain), cs.get? i = some c →
    (markBest cs i).get? i = some { c with ismainchain := true } := by
  intro cs
  induction cs with
  | nil => intro i c h; simp at h
  | cons a cs ih =>
    intro i c h
    cases i with
    | zero =>
      simp only [List.get?_cons_zero, Option.some.injEq] at h
      subst h
      rfl
    | succ j =>
      simp only [List.get?_cons_succ] at h
      simp only [markBest, List.get?_cons_succ]
      exact ih j c h

/-- After `markBest` the tracked position is the marked one. -/
theorem bestIdx_markBest : ∀ (cs : List Chain) (i : Nat) (c : Chain), cs.get? i = some c →
    bestIdx (markBest cs i) = some i := by
  intro cs
  induction cs with
  | nil => intro i c h; simp at h
  | cons a cs ih =>
    intro i c h
    cases i with
    | zero => simp [markBest, bestIdx]
    | succ j =>
      simp only [List.get?_cons_succ] at h
      simp [markBest, bestIdx, ih j c h]

/-- Replacing the chain at the tracked position by a flagged chain makes that chain the tracked
best chain, at the same position. -/
theorem bestOf_set_bestIdx : ∀ (cs : List Chain) (i : Nat) (x : Chain),
    bestIdx cs = some i → x.ismainchain = true →
    bestOf (cs.set i x) = some x ∧ bestIdx (cs.set i x) = some i := by
  intro cs
  induction cs with
  | nil => intro i x h; simp [bestIdx] at h
  | cons a cs ih =>
    intro i x hi hx
    by_cases ha : a.ismainchain = true
    · simp only [bestIdx, ha, if_true, Option.some.injEq] at hi
      subst hi
      simp [bestOf, bestIdx, List.find?_cons, hx]
    · simp only [Bool.not_eq_true] at ha
      simp only [bestIdx, ha, Bool.false_eq_true, if_false, Option.map_eq_some'] at hi
      obtain ⟨j, hj, rfl⟩ := hi
      obtain ⟨h1, h2⟩ := ih j x hj hx
      unfold bestOf at h1
      simp [bestOf, bestIdx, List.find?_cons, ha, h1, h2]

/-- Replacing an unflagged chain by an unflagged chain keeps the tracked best chain. -/
theorem bestOf_set_other : ∀ (cs : List Chain) (i : Nat) (c c1 : Chain), cs.get? i = some c →
    c.ismainchain = false → c1.ismainchain = false → bestOf (cs.set i c1) = bestOf cs := by
  intro cs
  induction cs with
  | nil => intro i c c1 h; simp at h
  | cons a cs ih =>
    intro i c c1 h hc hc1
    cases i with
    | zero =>
      simp only [List.get?_cons_zero, Option.some.injEq] at h
      subst h
      simp [bestOf, List.find?_cons, hc, hc1]
    | succ j =>
      simp only [List.get?_cons_succ] at h
      have := ih j c c1 h hc hc1
      unfold bestOf at this
      simp only [bestOf, List.set_cons_succ, List.find?_cons, this]

/-- Appending a chain keeps an existing tracked best chain. -/
theorem bestOf_append (cs : List Chain) (f b : Chain) (h : bestOf cs = some b) :
    bestOf (cs ++ [f]) = some b := by
  unfold bestOf at h ⊢
  simp [List.find?_append, h]

/-- The chain returned by a successful `ProcessMilestone` keeps the flag of the chain it was
run on, and its head is the new snapshot. -/
theorem ProcessMilestone_chain (env : Collab) (s : DAGManager) (chain : Chain) (block : Block)
    (s1 : DAGManager) (chain1 : Chain)
    (h : ProcessMilestone env s chain block = Run.ok (s1, chain1)) :
    chain1.ismainchain = chain.ismainchain ∧ s1.milestoneChains = s.milestoneChains ∧
      s1.log = s.log ++ [Event.processMilestone block] ∧ s1.store = s.store ∧
      ∃ out snap, env.verifyLevelSet chain block = some out ∧
        out.vertex.snapshot = some snap ∧ chain1.headWork = snap.chainwork := by
  obtain ⟨out, snap, h1, h2, h3, h4⟩ := ProcessMilestone_ok env s chain block s1 chain1 h
  subst h3 h4
  refine ⟨rfl, rfl, rfl, rfl, out, snap, h1, h2, ?_⟩
  simp [Chain.headWork, Chain.GetChainHead]

/-- A successful `promote` found a tracked best chain. -/
theorem promote_ok_best (env : Collab) (s : DAGManager) (block : Block) (now : Int)
    (r : DAGManager) (h : promote env s block now = Run.ok r) :
    ∃ b, bestOf s.milestoneChains = some b := by
  unfold promote GetBestChain at h
  cases hb : bestOf s.milestoneChains with
  | none => simp [hb, deref, bind, Run.bind] at h
  | some b => exact ⟨b, rfl⟩

/-- An unflagged chain is not changed by clearing its flag. -/
theorem clear_flag_eq (c : Chain) (h : c.ismainchain = false) :
    ({ c with ismainchain := false } : Chain) = c := by
  cases c
  simp_all

/-- A flagged chain is not changed by setting its flag. -/
theorem set_flag_eq (c : Chain) (h : c.ismainchain = true) :
    ({ c with ismainchain := true } : Chain) = c := by
  cases c
  simp_all

/-- What `update_best` answers for a chain that is not the best one: `true` exactly when its
head has strictly more chainwork than the best head; the answer is the flag the chain carries
afterwards, a `true` moves the tracked position to the chain, a `false` changes nothing. -/
theorem update_best_spec (cs : List Chain) (i : Nat) (c b : Chain)
    (hi : cs.get? i = some c) (hc : c.ismainchain = false) (hb : bestOf cs = some b) :
    ((update_best cs i).2 = true ↔ b.headWork < c.headWork) ∧
    (update_best cs i).1.get? i = some { c with ismainchain := (update_best cs i).2 } ∧
    ((update_best cs i).2 = true → bestIdx (update_best cs i).1 = some i) ∧
    ((update_best cs i).2 = false → (update_best cs i).1 = cs) := by
  unfold update_best
  simp only [hi, hb, hc, Bool.not_false, Bool.true_and]
  by_cases hw : b.headWork < c.headWork
  · simp only [hw, decide_True, if_true, true_iff, forall_true_left]
    exact ⟨trivial, markBest_get cs i c hi, bestIdx_markBest cs i c hi, by simp⟩
  · simp only [hw, decide_False, Bool.false_eq_true, if_false, false_iff, not_false_eq_true,
      true_and, false_implies, forall_true_left, and_true]
    rw [clear_flag_eq c hc]
    exact hi

/-- A successful `AddBlockToPending` either promotes nothing (the manager is the one the
pending loop left) or runs `ProcessMilestone` exactly once and then emits exactly one
`OnChainUpdated(block, isMain)`; the only later calls are storage tasks of the flush.  The chain
that received the block is in the container afterwards with its main-chain flag equal to
`isMain`, and at the tracked best position when `isMain` is true.  `isMain` is true when the
block extended the best chain in place; for every other chain (grown in place or newly forked)
it is the answer of `update_best` / `emplace`: true exactly when the new head has strictly more
chainwork than the best head, and when it is false the best chain is the one it was. -/
theorem AddBlockToPending_promotion_shape (env : Collab) (s : DAGManager) (block : Block) (now : Int)
    (r : DAGManager) (h : AddBlockToPending env s block now = Run.ok r) :
    r = afterPendingLoop env s block ∨
    ∃ chain0 s1 chain1 isMain tasks i b,
      bestOf (afterPendingLoop env s block).milestoneChains = some b ∧
      ProcessMilestone env (afterPendingLoop env s block) chain0 block = Run.ok (s1, chain1) ∧
      r.log = s.log ++ [Event.addBlockToPending block, Event.processMilestone block,
        Event.onChainUpdated block isMain] ++ tasks ∧
      (∀ e ∈ tasks, ∃ m, e = Event.storageTask m) ∧
      r.milestoneChains.get? i = some { chain1 with ismainchain := isMain } ∧
      (isMain = true → bestIdx r.milestoneChains = some i) ∧
      ((chain0 = b ∧ isMain = true) ∨
       (chain0.ismainchain = false ∧ tasks = [] ∧
         (isMain = true ↔ b.headWork < chain1.headWork) ∧
         (isMain = false → bestOf r.milestoneChains = some b))) := by
  unfold AddBlockToPending at h
  obtain ⟨b, hb⟩ := promote_ok_best env _ block now r h
  have hlog0 : (afterPendingLoop env s block).log = s.log ++ [Event.addBlockToPending block] :=
    rfl
  rcases promote_ok env _ block now r h with h0 | hB | hG | hF
  · exact Or.inl h0
  · right
    obtain ⟨b1, i, s1, chain1, s3, s4, hb1, hi, hpm, he, hd, hf⟩ := hB
    rw [hb] at hb1
    cases hb1
    obtain ⟨p1, p2, p3, _, _⟩ := ProcessMilestone_chain env _ b block s1 chain1 hpm
    obtain ⟨e1, _, e3⟩ := EnableOBC_frame env _ now s3 he
    obtain ⟨d1, _, d3, _, _⟩ := DeleteFork_frame env s3 s4 hd
    obtain ⟨f1, _, _, tasks, f4, f5⟩ := FlushTrigger_frame env s4 r hf
    have hflag : chain1.ismainchain = true := by rw [p1]; exact bestOf_flag _ _ hb
    have hbest3 : bestOf s3.milestoneChains = some chain1 := by
      rw [e1]
      show bestOf (s1.milestoneChains.set i chain1) = some chain1
      rw [p2]
      exact (bestOf_set_bestIdx _ i chain1 hi hflag).1
    have hbestr : bestOf r.milestoneChains = some chain1 := by
      rw [f1, d3]; exact hbest3
    obtain ⟨j, hj1, hj2⟩ := bestIdx_of_bestOf _ _ hbestr
    refine ⟨b, s1, chain1, true, tasks, j, b, hb, hpm, ?_, f5, ?_, fun _ => hj1,
      Or.inl ⟨rfl, rfl⟩⟩
    · rw [f4, d1, e3]
      show s1.log ++ [Event.onChainUpdated block true] ++ tasks = _
      rw [p3, hlog0]
      simp
    · rw [hj2, set_flag_eq chain1 hflag]
  · right
    obtain ⟨i, c, s1, c1, hi, hc, hpm, hr⟩ := hG
    obtain ⟨p1, p2, p3, _, _⟩ := ProcessMilestone_chain env _ c block s1 c1 hpm
    have hc1 : c1.ismainchain = false := by rw [p1]; exact hc
    have hget : (s1.milestoneChains.set i c1).get? i = some c1 := by
      rw [p2]
      have hlt : i < (afterPendingLoop env s block).milestoneChains.length := by
        rw [List.get?_eq_some] at hi
        exact hi.1
      simp [List.get?_eq_getElem?, hlt]
    have hbs : bestOf (s1.milestoneChains.set i c1) = some b := by
      rw [p2, bestOf_set_other _ i c c1 hi hc hc1]
      exact hb
    obtain ⟨u1, u2, u3, u4⟩ := update_best_spec _ i c1 b hget hc1 hbs
    subst hr
    refine ⟨c, s1, c1, (update_best (s1.milestoneChains.set i c1) i).2, [], i, b, hb, hpm,
      ?_, by simp, u2, u3, Or.inr ⟨hc, rfl, u1, ?_⟩⟩
    · show s1.log ++ [Event.onChainUpdated block _] = _
      rw [p3, hlog0]
      simp
    · intro hfalse
      show bestOf (update_best (s1.milestoneChains.set i c1) i).1 = some b
      rw [u4 hfalse]
      exact hbs
  · right
    obtain ⟨c, s1, f, _, hpm, hr⟩ := hF
    obtain ⟨p1, p2, p3, _, _⟩ := ProcessMilestone_chain env _ (c.fork env block) block s1 f hpm
    have hf : f.ismainchain = false := by rw [p1]; rfl
    have hget : (s1.milestoneChains ++ [f]).get? s1.milestoneChains.length = some f := by
      simp [List.get?_eq_getElem?]
    have hbs : bestOf (s1.milestoneChains ++ [f]) = some b := by
      rw [p2]
      exact bestOf_append _ f b hb
    obtain ⟨u1, u2, u3, u4⟩ := update_best_spec _ _ f b hget hf hbs
    subst hr
    refine ⟨c.fork env block, s1, f, (emplace s1.milestoneChains f).2, [],
      s1.milestoneChains.length, b, hb, hpm, ?_, by simp, u2, u3, Or.inr ⟨rfl, rfl, u1, ?_⟩⟩
    · show s1.log ++ [Event.onChainUpdated block _] = _
      rw [p3, hlog0]
      simp
    · intro hfalse
      show bestOf (emplace s1.milestoneChains f).1 = some b
      unfold emplace
      unfold emplace at hfalse
      rw [u4 hfalse]
      exact hbs

/-- The inner loop of `DeleteFork` removes from the milestone map exactly the walked hashes. -/
theorem eraseForkMs_eq (bestchain : Chain) :
    ∀ (ms : List Milestone) (mv : List (uint256 × Option Vertex)),
      eraseForkMs bestchain ms mv =
        mv.filter (fun e => !(walkedHashes bestchain ms).contains e.1) := by
  intro ms
  induction ms with
  | nil => intro mv; simp [eraseForkMs, walkedHashes]
  | cons m ms ih =>
    intro mv
    unfold eraseForkMs
    by_cases hp : (bestchain.GetMsVertexCache m.GetMilestoneHash).isSome = true
    · rw [if_pos hp]
      cases hv : bestchain.GetMsVertexCache m.GetMilestoneHash with
      | none => rw [hv] at hp; cases hp
      | some v => simp [walkedHashes, List.takeWhile_cons, hv]
    · rw [if_neg hp, ih]
      simp only [Bool.not_eq_true] at hp
      unfold msErase walkedHashes
      simp only [List.takeWhile_cons, hp, Bool.not_false, if_true, List.map_cons,
        List.filter_filter]
      apply List.filter_congr
      intro e _
      by_cases he : e.1 = m.GetMilestoneHash
      · simp [he]
      · have he2 : ¬ m.GetMilestoneHash = e.1 := fun h => he h.symm
        simp [he, he2, List.contains_cons]

/-- The erased hashes when the first chain is kept. -/
theorem erasedHashes_cons_kept (bestchain : Chain) (target : Nat) (c : Chain) (cs : List Chain)
    (hk : keptByDeleteFork target c = true) :
    erasedHashes bestchain target (c :: cs) = erasedHashes bestchain target cs := by
  simp [erasedHashes, List.filter_cons, hk]

/-- The erased hashes when the first chain is erased. -/
theorem erasedHashes_cons_erased (bestchain : Chain) (target : Nat) (c : Chain)
    (cs : List Chain) (hk : keptByDeleteFork target c = false) :
    erasedHashes bestchain target (c :: cs) =
      walkedHashes bestchain c.milestones.reverse ++ erasedHashes bestchain target cs := by
  simp [erasedHashes, List.filter_cons, hk]

/-- The chain loop of `DeleteFork`, when no fork has an empty deque, keeps exactly the chains of
`keptByDeleteFork` and removes from the milestone map exactly the hashes of `erasedHashes`. -/
theorem deleteForkLoop_eq (bestchain : Chain) (target : Nat) :
    ∀ (cs : List Chain) (mv : List (uint256 × Option Vertex)),
      (∀ c ∈ cs, c.ismainchain = false → c.milestones ≠ []) →
      deleteForkLoop bestchain target cs mv =
        some (cs.filter (keptByDeleteFork target),
              mv.filter (fun e => !(erasedHashes bestchain target cs).contains e.1)) := by
  intro cs
  induction cs with
  | nil => intro mv _; simp [deleteForkLoop, erasedHashes]
  | cons c cs ih =>
    intro mv hne
    have hrest : ∀ d ∈ cs, d.ismainchain = false → d.milestones ≠ [] :=
      fun d hd => hne d (List.mem_cons_of_mem _ hd)
    unfold deleteForkLoop
    by_cases hm : c.ismainchain = true
    · have hk : keptByDeleteFork target c = true := by simp [keptByDeleteFork, hm]
      rw [if_pos hm, ih mv hrest, erasedHashes_cons_kept _ _ _ _ hk]
      simp [List.filter_cons, hk]
    · rw [if_neg hm]
      simp only [Bool.not_eq_true] at hm
      have hc := hne c (List.mem_cons_self _ _) hm
      obtain ⟨head, hh⟩ : ∃ head, c.GetChainHead = some head := by
        unfold Chain.GetChainHead
        cases hg : c.milestones.getLast? with
        | none => rw [List.getLast?_eq_none_iff] at hg; exact absurd hg hc
        | some x => exact ⟨x, rfl⟩
      have hw : c.headWork = head.chainwork := by simp [Chain.headWork, hh]
      simp only [hh]
      by_cases hlt : head.chainwork < target
      · have hk : keptByDeleteFork target c = false := by
          simp [keptByDeleteFork, hm, hw, hlt]
        rw [if_pos hlt, ih _ hrest, eraseForkMs_eq, erasedHashes_cons_erased _ _ _ _ hk]
        simp only [List.filter_cons, hk, Bool.false_eq_true, if_false, List.filter_filter]
        congr 2
        apply List.filter_congr
        intro e _
        by_cases h1 : e.1 ∈ walkedHashes bestchain c.milestones.reverse <;>
          by_cases h2 : e.1 ∈ erasedHashes bestchain target cs <;>
          simp [h1, h2]
      · have hk : keptByDeleteFork target c = true := by
          simp [keptByDeleteFork, hm, hw, hlt]
        rw [if_neg hlt, ih mv hrest, erasedHashes_cons_kept _ _ _ _ hk]
        simp [List.filter_cons, hk]

/-- `DeleteFork` in closed form, when the best chain holds more than `deleteForkThreshold`
milestones, the target position exists and no fork has an empty deque. -/
theorem DeleteFork_eq (env : Collab) (s : DAGManager) (b : Chain) (target : Milestone)
    (hb : bestOf s.milestoneChains = some b)
    (hlen : env.deleteForkThreshold < b.milestones.length)
    (ht : b.milestones.get? (b.milestones.length - env.deleteForkThreshold) = some target)
    (hheads : ∀ c ∈ s.milestoneChains, c.ismainchain = false → c.milestones ≠ []) :
    DeleteFork env s =
      Run.ok { s with
        milestoneChains := s.milestoneChains.filter (keptByDeleteFork target.chainwork),
        msVertices := s.msVertices.filter (fun e =>
          !(erasedHashes b target.chainwork s.milestoneChains).contains e.1) } := by
  unfold DeleteFork GetBestChain
  have hn : ¬ b.milestones.length ≤ env.deleteForkThreshold := by omega
  simp only [hb, deref, bind, Run.bind, if_neg hn, ht,
    deleteForkLoop_eq b target.chainwork s.milestoneChains s.msVertices hheads]
  rfl

/-- C11 (as amended). With `deleteForkThreshold ≥ 1` and no fork with an empty deque,
`DeleteFork` erases nothing when the best chain holds at most `deleteForkThreshold`
milestones; otherwise it reads the target chainwork at index `size − deleteForkThreshold` of
the best chain's deque (the oldest of the newest `deleteForkThreshold` milestones) and erases
exactly the chains that are not the main chain and whose head chainwork is strictly below that
target: the main chain and every other chain are kept, in their order. -/
theorem DeleteFork_erases (env : Collab) (s : DAGManager) (b : Chain)
    (hb : bestOf s.milestoneChains = some b)
    (hthr : 1 ≤ env.deleteForkThreshold)
    (hheads : ∀ c ∈ s.milestoneChains, c.ismainchain = false → c.milestones ≠ []) :
    (b.milestones.length ≤ env.deleteForkThreshold → DeleteFork env s = Run.ok s) ∧
    (env.deleteForkThreshold < b.milestones.length →
      ∃ target r,
        b.milestones.get? (b.milestones.length - env.deleteForkThreshold) = some target ∧
        DeleteFork env s = Run.ok r ∧
        r.milestoneChains = s.milestoneChains.filter (keptByDeleteFork target.chainwork) ∧
        (∀ c, c ∈ r.milestoneChains ↔
          (c ∈ s.milestoneChains ∧
            (c.ismainchain = true ∨ ¬ c.headWork < target.chainwork)))) := by
  refine ⟨?_, ?_⟩
  · intro hle
    unfold DeleteFork GetBestChain
    simp only [hb, deref, bind, Run.bind, if_pos hle]
    rfl
  · intro hlen
    have hidx : b.milestones.length - env.deleteForkThreshold < b.milestones.length := by omega
    obtain ⟨target, ht⟩ : ∃ target,
        b.milestones.get? (b.milestones.length - env.deleteForkThreshold) = some target :=
      ⟨b.milestones.get ⟨_, hidx⟩, List.get?_eq_get hidx⟩
    refine ⟨target, _, ht, DeleteFork_eq env s b target hb hlen ht hheads, rfl, ?_⟩
    intro c
    simp only [List.mem_filter, keptByDeleteFork, Bool.or_eq_true, Bool.not_eq_true',
      decide_eq_false_iff_not]

/-- The fork of the pruning scenario has a head. -/
theorem prune_heads :
    ∀ c ∈ pruneManager.milestoneChains, c.ismainchain = false → c.milestones ≠ [] := by
  intro c hc hm
  have h2 : c = pruneBest ∨ c = pruneFork := by
    simpa [pruneManager] using hc
  rcases h2 with h2 | h2
  · subst h2; cases hm
  · subst h2; simp [pruneFork]

/-- Instance of the amended C11: the pruning scenario with `deleteForkThreshold = 2`. -/
theorem DeleteFork_erases_witness :
    (pruneBest.milestones.length ≤ pruneEnv.deleteForkThreshold →
      DeleteFork pruneEnv pruneManager = Run.ok pruneManager) ∧
    (pruneEnv.deleteForkThreshold < pruneBest.milestones.length →
      ∃ target r,
        pruneBest.milestones.get?
          (pruneBest.milestones.length - pruneEnv.deleteForkThreshold) = some target ∧
        DeleteFork pruneEnv pruneManager = Run.ok r ∧
        r.milestoneChains =
          pruneManager.milestoneChains.filter (keptByDeleteFork target.chainwork) ∧
        (∀ c, c ∈ r.milestoneChains ↔
          (c ∈ pruneManager.milestoneChains ∧
            (c.ismainchain = true ∨ ¬ c.headWork < target.chainwork)))) :=
  DeleteFork_erases pruneEnv pruneManager pruneBest (by rfl) (by decide) prune_heads

/-- C11 fails as stated in the position of the target.  The best chain holds four milestones
with chainwork 1, 2, 3, 4 and `deleteForkThreshold` is 2: the milestone 2 positions before the
best head (index 4 − 1 − 2 = 1) has chainwork 2, and the fork's head chainwork 2 is not
strictly below it, yet `DeleteFork` erases the fork, because it compares with the milestone at
index 4 − 2 = 2, of chainwork 3. -/
theorem DeleteFork_target_is_one_later :
    pruneEnv.deleteForkThreshold = 2 ∧
    pruneBest.milestones.length = 4 ∧
    (pruneBest.milestones.get? (4 - 1 - 2)).map (fun m => m.chainwork) = some 2 ∧
    (pruneBest.milestones.get? (4 - 2)).map (fun m => m.chainwork) = some 3 ∧
    pruneFork.ismainchain = false ∧ pruneFork.headWork = 2 ∧
    pruneManager.milestoneChains = [pruneBest, pruneFork] ∧
    (DeleteFork pruneEnv pruneManager).state.milestoneChains = [pruneBest] := by
  refine ⟨by rfl, by rfl, by rfl, by rfl, by rfl, by rfl, by rfl, by rfl⟩

/-- When every fork iterator agrees with the cursor, every fork holds the cursor's milestone
object at the cursor's position. -/
theorem forksAgree_true (cursor : Milestone) (k : Nat) :
    ∀ (F : List (List Milestone)), forksAgree cursor (F.map (List.drop k)) = some true →
      ∀ f ∈ F, ∃ x, f[k]? = some x ∧ x.ptr = cursor.ptr := by
  intro F
  induction F with
  | nil => intro _ f hf; simp at hf
  | cons g F ih =>
    intro h f hf
    simp only [List.map_cons, forksAgree, List.head?_drop] at h
    cases hg : g[k]? with
    | none => simp [hg] at h
    | some x =>
      simp only [hg] at h
      by_cases hne : (cursor.ptr != x.ptr) = true
      · rw [if_pos hne] at h; cases h
      · rw [if_neg hne] at h
        rcases List.mem_cons.mp hf with h1 | h1
        · subst h1
          have hpe : cursor.ptr = x.ptr := by simpa using hne
          exact ⟨x, hg, hpe.symm⟩
        · exact ih h f h1

/-- A fork that holds another milestone object at the cursor's position prevents the answer
`true` of the comparison of the fork iterators. -/
theorem forksAgree_differs (cursor : Milestone) (k : Nat) (F : List (List Milestone))
    (f : List Milestone) (y : Milestone) (hf : f ∈ F) (hy : f[k]? = some y)
    (hne : y.ptr ≠ cursor.ptr) : forksAgree cursor (F.map (List.drop k)) ≠ some true := by
  intro h
  obtain ⟨x, hx, hp⟩ := forksAgree_true cursor k F h f hf
  rw [hy] at hx
  cases hx
  exact hne hp

/-- A run of the flush loop that flushes nothing and leaves the manager as it is. -/
theorem flushRun_nil (B : List Milestone) (F : List (List Milestone)) (lo hi : Nat)
    (s : DAGManager) : FlushRun B F lo hi s s [] :=
  FlushRun.mk List.Pairwise.nil (by simp) (by simp) (by simp) (by simp) (by simp) (by simp)
    ⟨rfl, rfl, rfl⟩

/-- The flush loop, run over the segment of the best chain's deque that starts at position `k`
with every fork iterator at position `k`, is a `FlushRun`. -/
theorem flushLoop_run (B : List Milestone) (F : List (List Milestone)) :
    ∀ (ms : List Milestone) (k : Nat) (s r : DAGManager),
      (∀ j x, ms[j]? = some x → B[k + j]? = some x) →
      flushLoop ms (F.map (List.drop k)) s = Run.ok r →
      ∃ idxs, FlushRun B F k (k + ms.length) s r idxs := by
  intro ms
  induction ms with
  | nil =>
    intro k s r _ h
    simp only [flushLoop, pure, Run.ok.injEq] at h
    subst h
    exact ⟨[], flushRun_nil B F _ _ s⟩
  | cons cursor rest ih =>
    intro k s r hpos h
    have hcur : B[k]? = some cursor := by
      have := hpos 0 cursor (by simp)
      simpa using this
    have hrest : ∀ j x, rest[j]? = some x → B[k + 1 + j]? = some x := by
      intro j x hj
      have := hpos (j + 1) x (by simpa using hj)
      rw [show k + 1 + j = k + (j + 1) by omega]
      exact this
    have htail : (F.map (List.drop k)).map List.tail = F.map (List.drop (k + 1)) := by
      rw [List.map_map]
      apply List.map_congr_left
      intro f _
      exact List.tail_drop f k
    have hlen : k + (cursor :: rest).length = k + 1 + rest.length := by
      simp only [List.length_cons]; omega
    rw [hlen]
    unfold flushLoop at h
    rw [htail] at h
    by_cases hst : s.storedMs.contains cursor.ptr = true
    · rw [if_pos hst] at h
      have hmem : cursor.ptr ∈ s.storedMs := by simpa using hst
      obtain ⟨idxs, R⟩ := ih (k + 1) s r hrest h
      refine ⟨idxs, FlushRun.mk R.increasing ?_ R.log_eq R.stored_eq R.flushed ?_ ?_ R.frame⟩
      · intro i hi
        have := R.inRange i hi
        omega
      · intro i hi j hj1 hj2 x hx
        by_cases hjk : j = k
        · subst hjk
          rw [hcur] at hx
          cases hx
          rw [R.stored_eq]
          exact List.mem_append_right _ hmem
        · exact R.olderStored i hi j (by omega) hj2 x hx
      · intro j x hj1 hj2 hx hns hearlier hdiff
        by_cases hjk : j = k
        · subst hjk
          rw [hcur] at hx
          cases hx
          exact absurd hmem hns
        · exact R.stops j x (by omega) hj2 hx hns hearlier hdiff
    · rw [if_neg hst] at h
      have hnmem : cursor.ptr ∉ s.storedMs := by simpa using hst
      cases ha : forksAgree cursor (F.map (List.drop k)) with
      | none => simp [ha] at h
      | some ans =>
        cases ans
        · simp only [ha, pure, Run.ok.injEq] at h
          subst h
          exact ⟨[], flushRun_nil B F _ _ s⟩
        · simp only [ha] at h
          cases hf : FlushToSTORE s cursor with
          | ub s1 => simp [hf] at h
          | ok s1 =>
            simp only [hf] at h
            obtain ⟨q1, q2, q3, q4, q5⟩ := FlushToSTORE_frame s cursor s1 hf
            obtain ⟨idxs, R⟩ := ih (k + 1) s1 r hrest h
            have hfm : (k :: idxs).filterMap (fun i => B[i]?) =
                cursor :: idxs.filterMap (fun i => B[i]?) := by
              simp [List.filterMap_cons, hcur]
            have hsub : ∀ p, p ∈ s1.storedMs → p ∈ r.storedMs := by
              intro p hp
              rw [R.stored_eq]
              exact List.mem_append_right _ hp
            have hcs : cursor.ptr ∈ r.storedMs := hsub _ (by rw [q5]; exact List.mem_cons_self _ _)
            refine ⟨k :: idxs, FlushRun.mk ?_ ?_ ?_ ?_ ?_ ?_ ?_ ?_⟩
            · rw [List.pairwise_cons]
              refine ⟨?_, R.increasing⟩
              intro i hi
              have := R.inRange i hi
              omega
            · intro i hi
              rcases List.mem_cons.mp hi with h1 | h1
              · subst h1; omega
              · have := R.inRange i h1
                omega
            · rw [R.log_eq, q3, hfm]
              simp
            · rw [R.stored_eq, q5, hfm]
              simp
            · intro i hi
              rcases List.mem_cons.mp hi with h1 | h1
              · subst h1
                refine ⟨cursor, hcur, hnmem, ?_, forksAgree_true cursor i F ha⟩
                intro j hj hlt
                rcases List.mem_cons.mp hj with h2 | h2
                · omega
                · have := R.inRange j h2
                  omega
              · obtain ⟨m, hm1, hm2, hm3, hm4⟩ := R.flushed i h1
                have hm5 : m.ptr ≠ cursor.ptr ∧ m.ptr ∉ s.storedMs := by
                  rw [q5] at hm2
                  simpa [List.mem_cons] using hm2
                refine ⟨m, hm1, hm5.2, ?_, hm4⟩
                intro j hj hlt x hx
                rcases List.mem_cons.mp hj with h2 | h2
                · subst h2
                  rw [hcur] at hx
                  cases hx
                  exact fun he => hm5.1 he.symm
                · exact hm3 j h2 hlt x hx
            · intro i hi j hj1 hj2 x hx
              by_cases hjk : j = k
              · subst hjk
                rw [hcur] at hx
                cases hx
                exact hcs
              · rcases List.mem_cons.mp hi with h1 | h1
                · omega
                · exact R.olderStored i h1 j (by omega) hj2 x hx
            · intro j x hj1 hj2 hx hns hearlier hdiff
              by_cases hjk : j = k
              · subst hjk
                rw [hcur] at hx
                cases hx
                obtain ⟨f, hf1, y, hy1, hy2⟩ := hdiff
                exact absurd ha (forksAgree_differs _ j F f y hf1 hy1 hy2)
              · have hkj : k < j := by omega
                have hne : cursor.ptr ≠ x.ptr :=
                  hearlier k (List.mem_cons_self _ _) hkj cursor hcur
                have hns1 : x.ptr ∉ s1.storedMs := by
                  rw [q5]
                  simp only [List.mem_cons, not_or]
                  exact ⟨fun he => hne he.symm, hns⟩
                have := R.stops j x (by omega) hj2 hx hns1
                  (fun i hi hlt m hm => hearlier i (List.mem_cons_of_mem _ hi) hlt m hm) hdiff
                intro i hi
                rcases List.mem_cons.mp hi with h1 | h1
                · omega
                · exact this i h1
            · exact ⟨R.frame.1.trans q1, R.frame.2.1.trans q2, R.frame.2.2.trans q4⟩

/-- The chain at the tracked position carries the main-chain flag. -/
theorem bestIdx_get : ∀ (cs : List Chain) (i : Nat), bestIdx cs = some i →
    ∃ b, cs[i]? = some b ∧ b.ismainchain = true := by
  intro cs
  induction cs with
  | nil => intro i h; simp [bestIdx] at h
  | cons a cs ih =>
    intro i h
    by_cases ha : a.ismainchain = true
    · simp only [bestIdx, ha, if_true, Option.some.injEq] at h
      subst h
      exact ⟨a, by simp, ha⟩
    · simp only [Bool.not_eq_true] at ha
      simp only [bestIdx, ha, Bool.false_eq_true, if_false, Option.map_eq_some'] at h
      obtain ⟨j, hj, rfl⟩ := h
      obtain ⟨b, hb1, hb2⟩ := ih j hj
      exact ⟨b, by simpa using hb1, hb2⟩

/-- Every chain without the main-chain flag is among the chains other than the tracked one. -/
theorem mem_othersThan (cs : List Chain) (i : Nat) (c : Chain) (hi : bestIdx cs = some i)
    (hc : c ∈ cs) (hf : c.ismainchain = false) : c ∈ othersThan cs i := by
  unfold othersThan
  rw [List.mem_eraseIdx_iff_getElem?]
  obtain ⟨j, hj⟩ := List.getElem?_of_mem hc
  refine ⟨j, ?_, hj⟩
  intro hji
  subst hji
  obtain ⟨b, hb1, hb2⟩ := bestIdx_get cs j hi
  rw [hj] at hb1
  cases hb1
  rw [hf] at hb2
  cases hb2

/-- A successful `FlushTrigger` is a run of the flush loop over the positions below
`size − punctualityThred` of the best chain's deque, against the deques of the other chains. -/
theorem FlushTrigger_run (env : Collab) (s r : DAGManager)
    (hr : FlushTrigger env s = Run.ok r) :
    ∃ b ib idxs, bestOf s.milestoneChains = some b ∧ bestIdx s.milestoneChains = some ib ∧
      (b.milestones.length ≤ env.punctualityThred → idxs = [] ∧ r = s) ∧
      FlushRun b.milestones ((othersThan s.milestoneChains ib).map (fun c => c.milestones)) 0
        (b.milestones.length - env.punctualityThred) s r idxs := by
  unfold FlushTrigger GetBestChain at hr
  cases hb : bestOf s.milestoneChains with
  | none => simp [hb, deref, bind, Run.bind] at hr
  | some b =>
    obtain ⟨ib, hib, _⟩ := bestIdx_of_bestOf _ _ hb
    simp only [hb, deref, bind, Run.bind, hib] at hr
    by_cases hle : b.milestones.length ≤ env.punctualityThred
    · rw [if_pos hle] at hr
      simp only [pure, Run.ok.injEq] at hr
      subst hr
      exact ⟨b, ib, [], rfl, hib, fun _ => ⟨rfl, rfl⟩, flushRun_nil _ _ _ _ _⟩
    · rw [if_neg hle] at hr
      have hmap : ∀ F : List (List Milestone), F.map (List.drop 0) = F := by
        intro F
        have hid : (List.drop 0 : List Milestone → List Milestone) = id := by
          funext f
          rfl
        rw [hid, List.map_id]
      rw [← hmap ((othersThan s.milestoneChains ib).map (fun c => c.milestones))] at hr
      obtain ⟨idxs, R⟩ := flushLoop_run b.milestones _ _ 0 s r
        (by
          intro j x hj
          rw [List.getElem?_take] at hj
          split at hj
          · simpa using hj
          · cases hj) hr
      have hlen : 0 + (b.milestones.take (b.milestones.length - env.punctualityThred)).length
          = b.milestones.length - env.punctualityThred := by
        rw [List.length_take]
        omega
      rw [hlen] at R
      exact ⟨b, ib, idxs, rfl, hib, fun h => absurd h hle, R⟩

/-- C13. A successful `FlushTrigger` calls `FlushToSTORE` only on milestones of the best chain
that are not stored when the loop reaches them (not stored at the call and not flushed at an
earlier position), and only when every chain without the main-chain flag holds, at the same
position of its deque, the identical milestone object.  Where the loop would reach a position
below `size − punctualityThred` with an unstored milestone on which some such chain holds
another object, it stops: nothing at that position or after it is flushed. -/
theorem FlushTrigger_flushes_agreed (env : Collab) (s r : DAGManager)
    (hr : FlushTrigger env s = Run.ok r) :
    ∃ (b : Chain) (idxs : List Nat), bestOf s.milestoneChains = some b ∧
      r.log = s.log ++ (idxs.filterMap (fun i => b.milestones[i]?)).map Event.storageTask ∧
      (∀ i ∈ idxs, ∃ m : Milestone, b.milestones[i]? = some m ∧ m.ptr ∉ s.storedMs ∧
        (∀ j ∈ idxs, j < i → ∀ x : Milestone, b.milestones[j]? = some x → x.ptr ≠ m.ptr) ∧
        ∀ c ∈ s.milestoneChains, c.ismainchain = false →
          ∃ x : Milestone, c.milestones[i]? = some x ∧ x.ptr = m.ptr) ∧
      (∀ (j : Nat) (x : Milestone), j < b.milestones.length - env.punctualityThred →
        b.milestones[j]? = some x → x.ptr ∉ s.storedMs →
        (∀ i ∈ idxs, i < j → ∀ m : Milestone, b.milestones[i]? = some m → m.ptr ≠ x.ptr) →
        (∃ c ∈ s.milestoneChains, c.ismainchain = false ∧
          ∃ y : Milestone, c.milestones[j]? = some y ∧ y.ptr ≠ x.ptr) →
        ∀ i ∈ idxs, i < j) := by
  obtain ⟨b, ib, idxs, hb, hib, _, R⟩ := FlushTrigger_run env s r hr
  refine ⟨b, idxs, hb, R.log_eq, ?_, ?_⟩
  · intro i hi
    obtain ⟨m, h1, h2, h3, h4⟩ := R.flushed i hi
    refine ⟨m, h1, h2, h3, ?_⟩
    intro c hc hf
    exact h4 c.milestones
      (List.mem_map.mpr ⟨c, mem_othersThan _ ib c hib hc hf, rfl⟩)
  · intro j x hj hx hns hearlier hdiff
    obtain ⟨c, hc, hf, y, hy1, hy2⟩ := hdiff
    exact R.stops j x (Nat.zero_le _) hj hx hns hearlier
      ⟨c.milestones, List.mem_map.mpr ⟨c, mem_othersThan _ ib c hib hc hf, rfl⟩, y, hy1, hy2⟩

/-- Instance of C13: the flush scenario, in which the fork agrees with the best chain on the
two milestones that are old enough. -/
theorem FlushTrigger_flushes_agreed_witness :
    ∃ (b : Chain) (idxs : List Nat), bestOf flushManager.milestoneChains = some b ∧
      flushedManager.log = flushManager.log ++
        (idxs.filterMap (fun i => b.milestones[i]?)).map Event.storageTask ∧
      (∀ i ∈ idxs, ∃ m : Milestone, b.milestones[i]? = some m ∧ m.ptr ∉ flushManager.storedMs ∧
        (∀ j ∈ idxs, j < i → ∀ x : Milestone, b.milestones[j]? = some x → x.ptr ≠ m.ptr) ∧
        ∀ c ∈ flushManager.milestoneChains, c.ismainchain = false →
          ∃ x : Milestone, c.milestones[i]? = some x ∧ x.ptr = m.ptr) ∧
      (∀ (j : Nat) (x : Milestone), j < b.milestones.length - demoEnv.punctualityThred →
        b.milestones[j]? = some x → x.ptr ∉ flushManager.storedMs →
        (∀ i ∈ idxs, i < j → ∀ m : Milestone, b.milestones[i]? = some m → m.ptr ≠ x.ptr) →
        (∃ c ∈ flushManager.milestoneChains, c.ismainchain = false ∧
          ∃ y : Milestone, c.milestones[j]? = some y ∧ y.ptr ≠ x.ptr) →
        ∀ i ∈ idxs, i < j) :=
  FlushTrigger_flushes_agreed demoEnv flushManager flushedManager (by rfl)

/-- The flush scenario as values: the milestones 80 and 81 are flushed, in this order. -/
theorem flush_scenario_trace :
    flushedManager.log =
      [Event.storageTask (mkMilestone (mkBlock 80 0 0 0 0) 0 0),
       Event.storageTask (mkMilestone (mkBlock 81 80 0 0 0) 1 1)] ∧
    flushedManager.storedMs = [81, 80] := by
  refine ⟨by rfl, by rfl⟩

/-- C14. A successful `FlushTrigger` flushes nothing, and leaves the manager as it is, when the
best chain holds at most `punctualityThred` milestones; and every position of the best chain's
deque at which it does call `FlushToSTORE` has at least `punctualityThred` newer positions
after it, so the newest `punctualityThred` milestones are never flushed. -/
theorem FlushTrigger_keeps_newest (env : Collab) (s r : DAGManager)
    (hr : FlushTrigger env s = Run.ok r) :
    ∃ (b : Chain) (idxs : List Nat), bestOf s.milestoneChains = some b ∧
      r.log = s.log ++ (idxs.filterMap (fun i => b.milestones[i]?)).map Event.storageTask ∧
      (b.milestones.length ≤ env.punctualityThred → idxs = [] ∧ r = s) ∧
      (∀ i ∈ idxs, ∃ m : Milestone, b.milestones[i]? = some m ∧
        i < b.milestones.length ∧
        env.punctualityThred ≤ b.milestones.length - 1 - i) ∧
      (∀ i, b.milestones.length - env.punctualityThred ≤ i → i ∉ idxs) := by
  obtain ⟨b, ib, idxs, hb, _, hsmall, R⟩ := FlushTrigger_run env s r hr
  refine ⟨b, idxs, hb, R.log_eq, hsmall, ?_, ?_⟩
  · intro i hi
    obtain ⟨m, h1, _⟩ := R.flushed i hi
    have := R.inRange i hi
    exact ⟨m, h1, by omega, by omega⟩
  · intro i hge hi
    have := R.inRange i hi
    omega

/-- Instance of C14: the flush scenario (five milestones, `punctualityThred = 3`). -/
theorem FlushTrigger_keeps_newest_witness :
    ∃ (b : Chain) (idxs : List Nat), bestOf flushManager.milestoneChains = some b ∧
      flushedManager.log = flushManager.log ++
        (idxs.filterMap (fun i => b.milestones[i]?)).map Event.storageTask ∧
      (b.milestones.length ≤ demoEnv.punctualityThred →
        idxs = [] ∧ flushedManager = flushManager) ∧
      (∀ i ∈ idxs, ∃ m : Milestone, b.milestones[i]? = some m ∧
        i < b.milestones.length ∧
        demoEnv.punctualityThred ≤ b.milestones.length - 1 - i) ∧
      (∀ i, b.milestones.length - demoEnv.punctualityThred ≤ i → i ∉ idxs) :=
  FlushTrigger_keeps_newest demoEnv flushManager flushedManager (by rfl)

/-- Every position of a list of positions is below its end. -/
theorem lt_endOf : ∀ (is : List Nat) (i : Nat), i ∈ is → i < endOf is := by
  intro is
  induction is with
  | nil => intro i h; simp at h
  | cons a is ih =>
    intro i h
    simp only [endOf]
    rcases List.mem_cons.mp h with h1 | h1
    · subst h1; omega
    · have := ih i h1
      omega

/-- Every position below the end of a list of positions is at or below one of them. -/
theorem le_of_lt_endOf : ∀ (is : List Nat) (j : Nat), j < endOf is → ∃ i ∈ is, j ≤ i := by
  intro is
  induction is with
  | nil => intro j h; simp [endOf] at h
  | cons a is ih =>
    intro j h
    simp only [endOf] at h
    by_cases hj : j < a + 1
    · exact ⟨a, List.mem_cons_self _ _, by omega⟩
    · obtain ⟨i, hi, hle⟩ := ih j (by omega)
      exact ⟨i, List.mem_cons_of_mem _ hi, hle⟩

/-- C15. Within a successful `FlushTrigger` the calls of `FlushToSTORE` occur at strictly
increasing positions of the best chain's deque (hence in increasing height when the heights
increase along the deque), no milestone object is flushed twice, the `stored` flags set are
those of the flushed milestones, every milestone at or before a flushed position has
`stored = true` afterwards, and the stored milestones form a prefix of the deque afterwards
whenever they did before the call. -/
theorem FlushTrigger_oldest_first (env : Collab) (s r : DAGManager)
    (hr : FlushTrigger env s = Run.ok r) :
    ∃ (b : Chain) (idxs : List Nat), bestOf s.milestoneChains = some b ∧
      r.log = s.log ++ (idxs.filterMap (fun i => b.milestones[i]?)).map Event.storageTask ∧
      r.storedMs =
        ((idxs.filterMap (fun i => b.milestones[i]?)).map (fun m => m.ptr)).reverse
          ++ s.storedMs ∧
      idxs.Pairwise (fun i j => i < j) ∧
      (∀ i ∈ idxs, ∃ m : Milestone, b.milestones[i]? = some m) ∧
      (b.milestones.Pairwise (fun x y => x.height < y.height) →
        (idxs.filterMap (fun i => b.milestones[i]?)).Pairwise
          (fun x y => x.height < y.height)) ∧
      ((idxs.filterMap (fun i => b.milestones[i]?)).map (fun m => m.ptr)).Nodup ∧
      (∀ p ∈ (idxs.filterMap (fun i => b.milestones[i]?)).map (fun m => m.ptr),
        p ∉ s.storedMs) ∧
      (∀ i ∈ idxs, ∀ j, j ≤ i → ∀ x : Milestone, b.milestones[j]? = some x →
        x.ptr ∈ r.storedMs) ∧
      (StoredPrefix s.storedMs b.milestones → StoredPrefix r.storedMs b.milestones) := by
  obtain ⟨b, ib, idxs, hb, _, _, R⟩ := FlushTrigger_run env s r hr
  have hmemptr : ∀ p, p ∈ (idxs.filterMap (fun i => b.milestones[i]?)).map (fun m => m.ptr) →
      ∃ i ∈ idxs, ∃ m : Milestone, b.milestones[i]? = some m ∧ m.ptr = p := by
    intro p hp
    rw [List.mem_map] at hp
    obtain ⟨m, hm, rfl⟩ := hp
    rw [List.mem_filterMap] at hm
    obtain ⟨i, hi, him⟩ := hm
    exact ⟨i, hi, m, him, rfl⟩
  refine ⟨b, idxs, hb, R.log_eq, R.stored_eq, R.increasing, ?_, ?_, ?_, ?_, ?_, ?_⟩
  · intro i hi
    obtain ⟨m, h1, _⟩ := R.flushed i hi
    exact ⟨m, h1⟩
  · intro hh
    rw [List.pairwise_iff_getElem] at hh
    apply List.Pairwise.filterMap (fun i => b.milestones[i]?) _ R.increasing
    intro i j hij x hx y hy
    simp only [Option.mem_def] at hx hy
    obtain ⟨hi, rfl⟩ := List.getElem?_eq_some.mp hx
    obtain ⟨hj, rfl⟩ := List.getElem?_eq_some.mp hy
    exact hh i j hi hj hij
  · rw [List.map_filterMap]
    show List.Pairwise (fun p q => p ≠ q) _
    rw [List.pairwise_filterMap]
    apply List.Pairwise.imp_of_mem _ R.increasing
    intro i j hi hj hij p hp q hq
    simp only [Option.mem_def, Option.map_eq_some'] at hp hq
    obtain ⟨x, hx, rfl⟩ := hp
    obtain ⟨y, hy, rfl⟩ := hq
    obtain ⟨m, hm1, _, hm3, _⟩ := R.flushed j hj
    rw [hy] at hm1
    cases hm1
    exact hm3 i hi hij x hx
  · intro p hp
    obtain ⟨i, hi, m, hm, rfl⟩ := hmemptr p hp
    obtain ⟨m1, hm1, hm2, _⟩ := R.flushed i hi
    rw [hm] at hm1
    cases hm1
    exact hm2
  · intro i hi j hj x hx
    exact R.olderStored i hi j (Nat.zero_le _) hj x hx
  · rintro ⟨k, hk⟩
    refine ⟨max k (endOf idxs), ?_⟩
    intro m hm
    constructor
    · intro hst
      rw [R.stored_eq, List.mem_append, List.mem_reverse] at hst
      rcases hst with hfl | hold
      · obtain ⟨i, hi, x, hx, hxp⟩ := hmemptr _ hfl
        exact ⟨i, x, by have := lt_endOf idxs i hi; omega, hx, hxp⟩
      · obtain ⟨j, x, hj, hx, hxp⟩ := (hk m hm).mp hold
        exact ⟨j, x, by omega, hx, hxp⟩
    · rintro ⟨j, x, hj, hx, hxp⟩
      rw [← hxp]
      by_cases hjk : j < k
      · have hxs : x.ptr ∈ s.storedMs :=
          (hk x (List.getElem?_mem hx)).mpr ⟨j, x, hjk, hx, rfl⟩
        rw [R.stored_eq]
        exact List.mem_append_right _ hxs
      · obtain ⟨i, hi, hle⟩ := le_of_lt_endOf idxs j (by omega)
        exact R.olderStored i hi j (Nat.zero_le _) hle x hx

/-- Instance of C15: the flush scenario. -/
theorem FlushTrigger_oldest_first_witness :
    ∃ (b : Chain) (idxs : List Nat), bestOf flushManager.milestoneChains = some b ∧
      flushedManager.log = flushManager.log ++
        (idxs.filterMap (fun i => b.milestones[i]?)).map Event.storageTask ∧
      flushedManager.storedMs =
        ((idxs.filterMap (fun i => b.milestones[i]?)).map (fun m => m.ptr)).reverse
          ++ flushManager.storedMs ∧
      idxs.Pairwise (fun i j => i < j) ∧
      (∀ i ∈ idxs, ∃ m : Milestone, b.milestones[i]? = some m) ∧
      (b.milestones.Pairwise (fun x y => x.height < y.height) →
        (idxs.filterMap (fun i => b.milestones[i]?)).Pairwise
          (fun x y => x.height < y.height)) ∧
      ((idxs.filterMap (fun i => b.milestones[i]?)).map (fun m => m.ptr)).Nodup ∧
      (∀ p ∈ (idxs.filterMap (fun i => b.milestones[i]?)).map (fun m => m.ptr),
        p ∉ flushManager.storedMs) ∧
      (∀ i ∈ idxs, ∀ j, j ≤ i → ∀ x : Milestone, b.milestones[j]? = some x →
        x.ptr ∈ flushedManager.storedMs) ∧
      (StoredPrefix flushManager.storedMs b.milestones →
        StoredPrefix flushedManager.storedMs b.milestones) :=
  FlushTrigger_oldest_first demoEnv flushManager flushedManager (by rfl)

/-- The statistics update adds the milestone's transaction count and level-set size. -/
theorem UpdateStatOnLvsStored_stat (s : DAGManager) (pms : Milestone) (r : DAGManager)
    (h : UpdateStatOnLvsStored s pms = Run.ok r) :
    r.stat.nTxCnt = s.stat.nTxCnt + pms.numOfValidTxns ∧
      r.stat.nBlkCnt = s.stat.nBlkCnt + pms.levelSet.length := by
  unfold UpdateStatOnLvsStored at h
  simp only [bind, Run.bind, pure] at h
  split at h
  · cases hf : pms.levelSet.head? with
    | none => simp [hf, deref] at h
    | some front =>
      simp only [hf, deref, Run.ok.injEq] at h
      subst h
      exact ⟨rfl, rfl⟩
  · simp only [Run.ok.injEq] at h
    subst h
    exact ⟨rfl, rfl⟩

/-- `FlushToSTORE` adds the milestone's counts to the statistics, whatever the stored flags. -/
theorem FlushToSTORE_stat (s : DAGManager) (ms : Milestone) (r : DAGManager)
    (h : FlushToSTORE s ms = Run.ok r) :
    r.stat.nTxCnt = s.stat.nTxCnt + ms.numOfValidTxns ∧
      r.stat.nBlkCnt = s.stat.nBlkCnt + ms.levelSet.length := by
  unfold FlushToSTORE at h
  cases hu : UpdateStatOnLvsStored s ms with
  | ub s1 => simp [hu, bind, Run.bind] at h
  | ok s1 =>
    have hs := UpdateStatOnLvsStored_stat s ms s1 hu
    simp only [hu, bind, Run.bind, GetBestChain] at h
    cases hb : bestOf s1.milestoneChains with
    | none => simp [hb, deref] at h
    | some b =>
      simp only [hb, deref, pure, Run.ok.injEq] at h
      subst h
      exact hs

/-- C16 (as the code has it). `FlushToSTORE` does not test the `stored` flag: applied to a
milestone whose flag is already true it still adds the milestone's counts to the statistics and
schedules a storage task; the call itself leaves `msVertices_`, the chains and the Store alone.
The guard is in `FlushTrigger`: every milestone on which a successful `FlushTrigger` calls
`FlushToSTORE` had `stored = false` on entry and was not flushed earlier in the same run. -/
theorem FlushToSTORE_has_no_guard (s r : DAGManager) (ms : Milestone) (env : Collab)
    (t u : DAGManager) (hst : ms.ptr ∈ s.storedMs) (hr : FlushToSTORE s ms = Run.ok r)
    (hu : FlushTrigger env t = Run.ok u) :
    (r.stat.nTxCnt = s.stat.nTxCnt + ms.numOfValidTxns ∧
      r.stat.nBlkCnt = s.stat.nBlkCnt + ms.levelSet.length ∧
      r.log = s.log ++ [Event.storageTask ms] ∧
      ms.ptr ∈ r.storedMs ∧
      r.milestoneChains = s.milestoneChains ∧ r.msVertices = s.msVertices ∧
      r.store = s.store) ∧
    ∃ (b : Chain) (idxs : List Nat), bestOf t.milestoneChains = some b ∧
      u.log = t.log ++ (idxs.filterMap (fun i => b.milestones[i]?)).map Event.storageTask ∧
      ∀ i ∈ idxs, ∃ m : Milestone, b.milestones[i]? = some m ∧ m.ptr ∉ t.storedMs ∧
        ∀ j ∈ idxs, j < i → ∀ x : Milestone, b.milestones[j]? = some x → x.ptr ≠ m.ptr := by
  obtain ⟨h1, h2, h3, h4, h5⟩ := FlushToSTORE_frame s ms r hr
  obtain ⟨h6, h7⟩ := FlushToSTORE_stat s ms r hr
  refine ⟨⟨h6, h7, h3, ?_, h1, h2, h4⟩, ?_⟩
  · rw [h5]
    exact List.mem_cons_of_mem _ hst
  · obtain ⟨b, ib, idxs, hb, _, _, R⟩ := FlushTrigger_run env t u hu
    refine ⟨b, idxs, hb, R.log_eq, ?_⟩
    intro i hi
    obtain ⟨m, hm1, hm2, hm3, _⟩ := R.flushed i hi
    exact ⟨m, hm1, hm2, hm3⟩

/-- Instance of C16: the oldest milestone of the flush scenario, already stored, is handed to
`FlushToSTORE`; and `FlushTrigger` runs on the flush scenario. -/
theorem FlushToSTORE_has_no_guard_witness :
    flushOldest.ptr ∈ storedAgainManager.storedMs ∧
    (((FlushToSTORE storedAgainManager flushOldest).state.stat.nTxCnt =
        storedAgainManager.stat.nTxCnt + flushOldest.numOfValidTxns ∧
      (FlushToSTORE storedAgainManager flushOldest).state.stat.nBlkCnt =
        storedAgainManager.stat.nBlkCnt + flushOldest.levelSet.length ∧
      (FlushToSTORE storedAgainManager flushOldest).state.log =
        storedAgainManager.log ++ [Event.storageTask flushOldest] ∧
      flushOldest.ptr ∈ (FlushToSTORE storedAgainManager flushOldest).state.storedMs ∧
      (FlushToSTORE storedAgainManager flushOldest).state.milestoneChains =
        storedAgainManager.milestoneChains ∧
      (FlushToSTORE storedAgainManager flushOldest).state.msVertices =
        storedAgainManager.msVertices ∧
      (FlushToSTORE storedAgainManager flushOldest).state.store = storedAgainManager.store) ∧
    ∃ (b : Chain) (idxs : List Nat), bestOf flushManager.milestoneChains = some b ∧
      flushedManager.log = flushManager.log ++
        (idxs.filterMap (fun i => b.milestones[i]?)).map Event.storageTask ∧
      ∀ i ∈ idxs, ∃ m : Milestone, b.milestones[i]? = some m ∧
        m.ptr ∉ flushManager.storedMs ∧
        ∀ j ∈ idxs, j < i → ∀ x : Milestone, b.milestones[j]? = some x → x.ptr ≠ m.ptr) :=
  ⟨by decide,
   FlushToSTORE_has_no_guard storedAgainManager (FlushToSTORE storedAgainManager flushOldest).state
     flushOldest demoEnv flushManager flushedManager (by decide) (by rfl) (by rfl)⟩

/-- Counterexample to C16 as stated: the oldest milestone of the flush scenario already has
`stored = true`, and `FlushToSTORE` still counts its level set in the statistics and schedules
a storage task for it. -/
theorem FlushToSTORE_stored_not_noop :
    flushOldest.ptr ∈ storedAgainManager.storedMs ∧
    ∃ r, FlushToSTORE storedAgainManager flushOldest = Run.ok r ∧
      storedAgainManager.stat.nBlkCnt = 0 ∧ r.stat.nBlkCnt = 1 ∧
      storedAgainManager.log = [] ∧ r.log = [Event.storageTask flushOldest] ∧
      r ≠ storedAgainManager := by
  refine ⟨by decide, _, rfl, rfl, rfl, rfl, rfl, ?_⟩
  intro h
  have h2 := congrArg (fun x => x.log.length) h
  revert h2
  decide

/-- The `UnCache` loop over locked pointers keeps every vertex and uncaches each hash. -/
theorem unCacheLoop_eq : ∀ (vs : List Vertex) (acc : List Vertex × List TaskStep),
    unCacheLoop (vs.map some) acc =
      some (acc.1 ++ vs, acc.2 ++ vs.map (fun v => TaskStep.unCache v.cblock.hash)) := by
  intro vs
  induction vs with
  | nil => intro acc; simp [unCacheLoop]
  | cons v vs ih =>
    intro acc
    simp only [List.map_cons, unCacheLoop]
    rw [ih]
    simp

/-- The `AddUTXO` loop performs one call per entry, whatever the Store reports. -/
theorem addUTXOLoop_eq (report : StoreCall → Bool) : ∀ (us : List (uint256 × UTXO))
    (trace : List TaskStep),
    addUTXOLoop report us trace =
      trace ++ us.map (fun e => TaskStep.store (StoreCall.addUTXO e.1 e.2)
        (report (StoreCall.addUTXO e.1 e.2))) := by
  intro us
  induction us with
  | nil => intro trace; simp [addUTXOLoop]
  | cons e us ih =>
    intro trace
    simp only [addUTXOLoop, callStore, List.map_cons]
    rw [ih]
    simp

/-- The `RemoveUTXO` loop performs one call per key, whatever the Store reports. -/
theorem removeUTXOLoop_eq (report : StoreCall → Bool) : ∀ (ks : List uint256)
    (trace : List TaskStep),
    removeUTXOLoop report ks trace =
      trace ++ ks.map (fun k => TaskStep.store (StoreCall.removeUTXO k)
        (report (StoreCall.removeUTXO k))) := by
  intro ks
  induction ks with
  | nil => intro trace; simp [removeUTXOLoop]
  | cons k ks ih =>
    intro trace
    simp only [removeUTXOLoop, callStore, List.map_cons]
    rw [ih]
    simp

/-- The purge hashes of locked pointers are the hashes of the level set. -/
theorem vtxHashesLoop_eq : ∀ (vs : List Vertex) (acc : List uint256),
    vtxHashesLoop (vs.map some) acc = some (acc ++ vs.map (fun v => v.cblock.hash)) := by
  intro vs
  induction vs with
  | nil => intro acc; simp [vtxHashesLoop]
  | cons v vs ih =>
    intro acc
    simp only [List.map_cons, vtxHashesLoop]
    rw [ih]
    simp

/-- C17 (as the code has it). The storage task of a flush discards what the Store reports: for
a level set whose pointers are all alive and whose last vertex `ms` carries a snapshot, the task
performs `StoreLevelSet`, `UpdatePrevRedemHashes`, one `UnCache` per vertex, one `AddUTXO` per
UTXO to store, one `RemoveUTXO` per key to remove and `SaveHeadHeight`, invokes the callback
when one is registered and schedules the purge, in this order, whatever result each Store call
reports; a reported failure stops nothing. -/
theorem storageTask_ignores_reports (report : StoreCall → Bool) (hasCallback : Bool)
    (vs : List Vertex) (ms : Vertex) (snapshot : Milestone)
    (utxoToStore : List (uint256 × UTXO)) (utxoToRemove : List uint256)
    (hlast : vs.getLast? = some ms) (hsnap : ms.snapshot = some snapshot) :
    storageTask report hasCallback (vs.map some) utxoToStore utxoToRemove =
      some ([TaskStep.store (StoreCall.storeLevelSet (vs.map some))
               (report (StoreCall.storeLevelSet (vs.map some))),
             TaskStep.store (StoreCall.updatePrevRedemHashes snapshot)
               (report (StoreCall.updatePrevRedemHashes snapshot))]
        ++ vs.map (fun v => TaskStep.unCache v.cblock.hash)
        ++ utxoToStore.map (fun e => TaskStep.store (StoreCall.addUTXO e.1 e.2)
             (report (StoreCall.addUTXO e.1 e.2)))
        ++ utxoToRemove.map (fun k => TaskStep.store (StoreCall.removeUTXO k)
             (report (StoreCall.removeUTXO k)))
        ++ [TaskStep.store (StoreCall.saveHeadHeight ms.height)
             (report (StoreCall.saveHeadHeight ms.height))]
        ++ (if hasCallback then [TaskStep.onLvsConfirmed vs utxoToStore utxoToRemove] else [])
        ++ [TaskStep.schedulePurge ms.cblock.hash (vs.map (fun v => v.cblock.hash))
             (utxoToStore.map (fun e => e.1)) utxoToRemove]) := by
  have hl : (vs.map some).getLast?.join = some ms := by
    rw [List.getLast?_map, hlast]
    rfl
  unfold storageTask
  simp only [hl, hsnap, Option.bind_eq_bind, Option.some_bind, unCacheLoop_eq,
    vtxHashesLoop_eq, addUTXOLoop_eq, removeUTXOLoop_eq, callStore, List.nil_append, pure]
  cases hasCallback <;> simp

/-- Instance of C17: the storage scenario on a Store that reports failure for every call. -/
theorem storageTask_ignores_reports_witness :
    storageTask failingStore true ([taskBlockVertex, taskMilestoneVertex].map some)
        [(9, taskUTXO)] [8] =
      some ([TaskStep.store
               (StoreCall.storeLevelSet ([taskBlockVertex, taskMilestoneVertex].map some))
               (failingStore
                 (StoreCall.storeLevelSet ([taskBlockVertex, taskMilestoneVertex].map some))),
             TaskStep.store
               (StoreCall.updatePrevRedemHashes (mkMilestone (mkBlock 86 84 85 85 0) 5 5))
               (failingStore
                 (StoreCall.updatePrevRedemHashes (mkMilestone (mkBlock 86 84 85 85 0) 5 5)))]
        ++ [taskBlockVertex, taskMilestoneVertex].map (fun v => TaskStep.unCache v.cblock.hash)
        ++ [(9, taskUTXO)].map (fun e => TaskStep.store (StoreCall.addUTXO e.1 e.2)
             (failingStore (StoreCall.addUTXO e.1 e.2)))
        ++ [8].map (fun k => TaskStep.store (StoreCall.removeUTXO k)
             (failingStore (StoreCall.removeUTXO k)))
        ++ [TaskStep.store (StoreCall.saveHeadHeight taskMilestoneVertex.height)
             (failingStore (StoreCall.saveHeadHeight taskMilestoneVertex.height))]
        ++ (if true = true then
             [TaskStep.onLvsConfirmed [taskBlockVertex, taskMilestoneVertex] [(9, taskUTXO)] [8]]
            else [])
        ++ [TaskStep.schedulePurge taskMilestoneVertex.cblock.hash
             ([taskBlockVertex, taskMilestoneVertex].map (fun v => v.cblock.hash))
             ([(9, taskUTXO)].map (fun e => e.1)) [8]]) :=
  storageTask_ignores_reports failingStore true [taskBlockVertex, taskMilestoneVertex]
    taskMilestoneVertex (mkMilestone (mkBlock 86 84 85 85 0) 5 5) [(9, taskUTXO)] [8]
    (by rfl) (by rfl)

/-- Counterexample to C17 as stated: `StoreLevelSet`, the first Store operation of the flush,
reports failure (as does every later call), and the task still performs every later Store
write, invokes the `OnLvsConfirmed` callback and schedules the purge. -/
theorem storageTask_proceeds_after_failure :
    storageTask failingStore true [some taskBlockVertex, some taskMilestoneVertex]
        [(9, taskUTXO)] [8] =
      some [TaskStep.store
              (StoreCall.storeLevelSet [some taskBlockVertex, some taskMilestoneVertex]) false,
            TaskStep.store
              (StoreCall.updatePrevRedemHashes (mkMilestone (mkBlock 86 84 85 85 0) 5 5)) false,
            TaskStep.unCache 85, TaskStep.unCache 86,
            TaskStep.store (StoreCall.addUTXO 9 taskUTXO) false,
            TaskStep.store (StoreCall.removeUTXO 8) false,
            TaskStep.store (StoreCall.saveHeadHeight 5) false,
            TaskStep.onLvsConfirmed [taskBlockVertex, taskMilestoneVertex] [(9, taskUTXO)] [8],
            TaskStep.schedulePurge 86 [85, 86] [9] [8]] := by
  rfl

/-- The locators of the locator scenario: from the best head down, cut at the length or at
genesis, and from a given milestone. -/
theorem locator_scenario_trace :
    ConstructLocator locEnv locManager 0 3 = Run.ok [104, 103, 102] ∧
    ConstructLocator locEnv locManager 0 9 = Run.ok [104, 103, 102, 101, 100] ∧
    ConstructLocator locEnv locManager 102 9 = Run.ok [102, 101, 100] ∧
    ConstructLocator locEnv locManager 0 0 = Run.ok [] ∧
    keyedByHash locManager = true := by
  refine ⟨?_, ?_, ?_, ?_, ?_⟩ <;> rfl

/-- The iteration bound of the Store loop is never what ends it: with `length + 1` or more
iterations left to the bound, one more changes nothing. -/
theorem forwardStoreLoop_fuel (s : DAGManager) (length : Nat) : ∀ (fuel cursorHeight : Nat)
    (result : List uint256), length + 1 ≤ fuel + result.length →
    forwardStoreLoop s length (fuel + 1) cursorHeight result =
      forwardStoreLoop s length fuel cursorHeight result := by
  intro fuel
  induction fuel with
  | zero =>
    intro ch result h
    have hc : ¬ (ch ≤ u64 s.store.headHeight ∧ result.length ≤ length) := by omega
    simp [forwardStoreLoop, hc]
  | succ n ih =>
    intro ch result h
    rw [forwardStoreLoop, forwardStoreLoop]
    split
    · cases hg : s.store.GetMilestoneAt ch with
      | none => rfl
      | some v =>
        simp only [deref, bind, Run.bind]
        exact ih _ _ (by simp; omega)
    · rfl

/-- The iteration bound of the cache loop is never what ends it. -/
theorem forwardCacheLoop_fuel (s : DAGManager) (milestones : List Milestone)
    (min_height max_height length : Nat) : ∀ (fuel cursorHeight : Nat) (result : List uint256),
    length + 1 ≤ fuel + result.length →
    forwardCacheLoop s milestones min_height max_height length (fuel + 1) cursorHeight result =
      forwardCacheLoop s milestones min_height max_height length fuel cursorHeight result := by
  intro fuel
  induction fuel with
  | zero =>
    intro ch result h
    have hc : ¬ (ch ≤ u64 max_height ∧ result.length ≤ length) := by omega
    simp [forwardCacheLoop, hc]
  | succ n ih =>
    intro ch result h
    rw [forwardCacheLoop, forwardCacheLoop]
    split
    · cases hg : milestones[subU64 ch min_height]? with
      | none => rfl
      | some v =>
        simp only [deref, bind, Run.bind]
        exact ih _ _ (by simp; omega)
    · rfl

/-- The Store loop leaves at most `length + 1` hashes. -/
theorem forwardStoreLoop_length (s : DAGManager) (length : Nat) : ∀ (fuel cursorHeight : Nat)
    (result : List uint256) (r : Nat × List uint256),
    forwardStoreLoop s length fuel cursorHeight result = Run.ok r →
    result.length ≤ length + 1 → r.2.length ≤ length + 1 := by
  intro fuel
  induction fuel with
  | zero =>
    intro ch result r h hl
    simp only [forwardStoreLoop, pure, Run.ok.injEq] at h
    subst h
    exact hl
  | succ n ih =>
    intro ch result r h hl
    rw [forwardStoreLoop] at h
    split at h
    · rename_i hc
      cases hg : s.store.GetMilestoneAt ch with
      | none => simp [hg, deref, bind, Run.bind] at h
      | some v =>
        simp only [hg, deref, bind, Run.bind] at h
        exact ih _ _ _ h (by simp; omega)
    · simp only [pure, Run.ok.injEq] at h
      subst h
      exact hl

/-- The cache loop leaves at most `length + 1` hashes. -/
theorem forwardCacheLoop_length (s : DAGManager) (milestones : List Milestone)
    (min_height max_height length : Nat) : ∀ (fuel cursorHeight : Nat)
    (result r : List uint256),
    forwardCacheLoop s milestones min_height max_height length fuel cursorHeight result =
      Run.ok r →
    result.length ≤ length + 1 → r.length ≤ length + 1 := by
  intro fuel
  induction fuel with
  | zero =>
    intro ch result r h hl
    simp only [forwardCacheLoop, pure, Run.ok.injEq] at h
    subst h
    exact hl
  | succ n ih =>
    intro ch result r h hl
    rw [forwardCacheLoop] at h
    split at h
    · rename_i hc
      cases hg : milestones[subU64 ch min_height]? with
      | none => simp [hg, deref, bind, Run.bind] at h
      | some v =>
        simp only [hg, deref, bind, Run.bind] at h
        exact ih _ _ _ h (by simp; omega)
    · simp only [pure, Run.ok.injEq] at h
      subst h
      exact hl

/-- What the code guarantees: `TraverseMilestoneForward` returns at most `length + 1` hashes. -/
theorem TraverseMilestoneForward_length_le (s : DAGManager) (cursor : Option Vertex)
    (length : Nat) (r : List uint256)
    (h : TraverseMilestoneForward s cursor length = Run.ok r) : r.length ≤ length + 1 := by
  unfold TraverseMilestoneForward at h
  cases hb : GetBestChain s with
  | ub t => simp [hb, bind, Run.bind] at h
  | ok bestChain =>
    cases cursor with
    | none => simp [hb, deref, bind, Run.bind] at h
    | some c =>
      simp only [hb, deref, bind, Run.bind] at h
      cases h1 : forwardStoreLoop s length (length + 1) (u64 (c.height + 1)) [] with
      | ub t => simp [h1] at h
      | ok r1 =>
        have hl1 := forwardStoreLoop_length s length _ _ _ _ h1 (by simp)
        simp only [h1] at h
        split at h
        · exact forwardCacheLoop_length s _ _ _ length _ _ _ _ h hl1
        · simp only [pure, Run.ok.injEq] at h
          subst h
          exact hl1

/-- C19 fails in the code. In the locator scenario the forward traversal from genesis with
`length = 2` returns three hashes (two from the Store, and one more from the best chain's deque
because the loop tests `result.size() <= length`), and `RespondRequestInv` sends an Inv of
three hashes although `kMaxInventorySize` is 2. -/
theorem TraverseMilestoneForward_exceeds_length :
    TraverseMilestoneForward locManager (GetMsVertex locManager 100) 2 =
      Run.ok [101, 102, 103] ∧
    locEnv.kMaxInventorySize = 2 ∧
    RespondRequestInv locEnv locManager [100] 7 locPeer =
      Run.ok { lastSentInvHash := 103, lastSentBundleHash := 0,
               sent := [NetMessage.inv [101, 102, 103] 7] } := by
  refine ⟨?_, ?_, ?_⟩ <;> rfl

/-- C20 (as the code has it). `RespondRequestInv` called with an empty locator replies with one
Inv that carries the nonce of the request and whose hash list is the single genesis hash; the
peer's `lastSentInvHash` and `lastSentBundleHash` are left as they were. -/
theorem RespondRequestInv_empty_locator (env : Collab) (s : DAGManager) (nonce : Nat)
    (peer : Peer) :
    ∃ p, RespondRequestInv env s [] nonce peer = Run.ok p ∧
      p.sent = peer.sent ++ [NetMessage.inv [env.genesis.hash] nonce] ∧
      p.lastSentInvHash = peer.lastSentInvHash ∧
      p.lastSentBundleHash = peer.lastSentBundleHash :=
  ⟨peer.SendMessage (NetMessage.inv [env.genesis.hash] nonce), rfl, rfl, rfl, rfl⟩

/-- Counterexample to C20 as stated: in the locator scenario the reply to the empty locator is
the Inv of the genesis hash 100, not an Inv with an empty hash list. -/
theorem RespondRequestInv_empty_locator_sends_genesis :
    ∃ p, RespondRequestInv locEnv locManager [] 7 locPeer = Run.ok p ∧
      p.sent = [NetMessage.inv [100] 7] ∧
      p.sent ≠ [NetMessage.inv [] 7] :=
  ⟨locPeer.SendMessage (NetMessage.inv [100] 7), rfl, rfl, by decide⟩

/-- With a best chain, `IsMainChainMS` is the chain's milestone test. -/
theorem IsMainChainMS_eq (env : Collab) (s : DAGManager) (b : Chain) (x : uint256)
    (hb : bestOf s.milestoneChains = some b) :
    IsMainChainMS env s x = Run.ok (env.chainIsMilestone b s.store x) := by
  simp [IsMainChainMS, GetBestChain, hb, deref, bind, Run.bind, pure]

/-- A locator without the best head and without a main-chain milestone is scanned to its end
and leaves the hash list empty. -/
theorem scanLocator_no_intersection (env : Collab) (s : DAGManager) (head : Vertex) (b : Chain)
    (hb : bestOf s.milestoneChains = some b) (hh : GetMilestoneHead s = Run.ok head) :
    ∀ locator : List uint256,
      (∀ x ∈ locator, x ≠ head.cblock.hash ∧ env.chainIsMilestone b s.store x = false) →
      scanLocator env s locator = Run.ok (some []) := by
  intro locator
  induction locator with
  | nil => intro _; rfl
  | cons x rest ih =>
    intro hno
    obtain ⟨h1, h2⟩ := hno x (List.mem_cons_self _ _)
    have hrest := ih (fun y hy => hno y (List.mem_cons_of_mem _ hy))
    simp only [scanLocator, hh, bind, Run.bind, h1, if_false, IsMainChainMS_eq env s b x hb, h2]
    exact hrest

/-- The scan of a locator skips the entries that are neither the best head nor a main-chain
milestone, and at the first main-chain milestone (not the best head) it returns the forward
traversal from that milestone. -/
theorem scanLocator_first_milestone (env : Collab) (s : DAGManager) (head : Vertex) (b : Chain)
    (hb : bestOf s.milestoneChains = some b) (hh : GetMilestoneHead s = Run.ok head)
    (g : uint256) (post : List uint256) (hashes : List uint256)
    (hg1 : g ≠ head.cblock.hash) (hg2 : env.chainIsMilestone b s.store g = true)
    (ht : TraverseMilestoneForward s (GetMsVertex s g) env.kMaxInventorySize = Run.ok hashes) :
    ∀ pre : List uint256,
      (∀ x ∈ pre, x ≠ head.cblock.hash ∧ env.chainIsMilestone b s.store x = false) →
      scanLocator env s (pre ++ g :: post) = Run.ok (some hashes) := by
  intro pre
  induction pre with
  | nil =>
    intro _
    simp only [List.nil_append, scanLocator, hh, bind, Run.bind, hg1, if_false,
      IsMainChainMS_eq env s b g hb, hg2, if_true, ht, pure]
  | cons x rest ih =>
    intro hno
    obtain ⟨h1, h2⟩ := hno x (List.mem_cons_self _ _)
    have hrest := ih (fun y hy => hno y (List.mem_cons_of_mem _ hy))
    simp only [List.cons_append, scanLocator, hh, bind, Run.bind, h1, if_false,
      IsMainChainMS_eq env s b x hb, h2]
    exact hrest

/-- The cut of `std::find`: the part after the first occurrence of `h`. -/
theorem sublistAfter_some (h : uint256) : ∀ (l sub : List uint256),
    sublistAfter h l = some sub → ∃ pre, l = pre ++ h :: sub ∧ h ∉ pre := by
  intro l
  induction l with
  | nil => intro sub hs; simp [sublistAfter] at hs
  | cons x xs ih =>
    intro sub hs
    simp only [sublistAfter] at hs
    split at hs
    · rename_i hx
      simp only [Option.some.injEq] at hs
      subst hs
      subst hx
      exact ⟨[], rfl, by simp⟩
    · rename_i hx
      obtain ⟨pre, h1, h2⟩ := ih sub hs
      refine ⟨x :: pre, by simp [h1], ?_⟩
      simp only [List.mem_cons, not_or]
      exact ⟨fun e => hx e.symm, h2⟩

/-- The cut of `std::find` finds nothing exactly when `h` does not occur. -/
theorem sublistAfter_none (h : uint256) : ∀ (l : List uint256),
    sublistAfter h l = none ↔ h ∉ l := by
  intro l
  induction l with
  | nil => simp [sublistAfter]
  | cons x xs ih =>
    simp only [sublistAfter, List.mem_cons, not_or]
    split
    · rename_i hx
      simp [hx]
    · rename_i hx
      rw [ih]
      constructor
      · intro h2
        exact ⟨fun e => hx e.symm, h2⟩
      · intro h2
        exact h2.2

/-- C21. If no entry of the locator is the hash of the best head or a main-chain milestone,
`RespondRequestInv` replies with exactly one Inv, carrying the nonce of the request, whose hash
list is the single genesis hash, and the peer's `lastSentInvHash` (and `lastSentBundleHash`) is
left unchanged. -/
theorem RespondRequestInv_no_intersection (env : Collab) (s : DAGManager)
    (locator : List uint256) (nonce : Nat) (peer : Peer) (head : Vertex) (b : Chain)
    (hb : bestOf s.milestoneChains = some b) (hh : GetMilestoneHead s = Run.ok head)
    (hno : ∀ x ∈ locator, x ≠ head.cblock.hash ∧ env.chainIsMilestone b s.store x = false) :
    ∃ p, RespondRequestInv env s locator nonce peer = Run.ok p ∧
      p.sent = peer.sent ++ [NetMessage.inv [env.genesis.hash] nonce] ∧
      p.lastSentInvHash = peer.lastSentInvHash ∧
      p.lastSentBundleHash = peer.lastSentBundleHash := by
  refine ⟨peer.SendMessage (NetMessage.inv [env.genesis.hash] nonce), ?_, rfl, rfl, rfl⟩
  simp only [RespondRequestInv, scanLocator_no_intersection env s head b hb hh locator hno,
    bind, Run.bind, pure]
  rfl

/-- Instance of C21 in the locator scenario: the locator `[555, 777]` holds neither the best
head 104 nor a main-chain milestone. -/
theorem RespondRequestInv_no_intersection_witness :
    ∃ p, RespondRequestInv locEnv locManager [555, 777] 7 locPeer = Run.ok p ∧
      p.sent = locPeer.sent ++ [NetMessage.inv [locEnv.genesis.hash] 7] ∧
      p.lastSentInvHash = locPeer.lastSentInvHash ∧
      p.lastSentBundleHash = locPeer.lastSentBundleHash :=
  RespondRequestInv_no_intersection locEnv locManager [555, 777] 7 locPeer
    (locMilestone 4).GetMilestone
    { ismainchain := true, milestones := [locMilestone 3, locMilestone 4],
      pendingBlocks := [], pendingUTXOs := [],
      vertexCache := [(locMilestone 3).GetMilestone, (locMilestone 4).GetMilestone] }
    (by rfl) (by rfl) (by decide)

/-- The Store loop only appends. -/
theorem forwardStoreLoop_mono (s : DAGManager) (length : Nat) : ∀ (fuel cursorHeight : Nat)
    (result : List uint256) (r : Nat × List uint256),
    forwardStoreLoop s length fuel cursorHeight result = Run.ok r →
    result.length ≤ r.2.length := by
  intro fuel
  induction fuel with
  | zero =>
    intro ch result r h
    simp only [forwardStoreLoop, pure, Run.ok.injEq] at h
    subst h
    exact le_refl _
  | succ n ih =>
    intro ch result r h
    rw [forwardStoreLoop] at h
    split at h
    · cases hg : s.store.GetMilestoneAt ch with
      | none => simp [hg, deref, bind, Run.bind] at h
      | some v =>
        simp only [hg, deref, bind, Run.bind] at h
        have := ih _ _ _ h
        simp only [List.length_append, List.length_singleton] at this
        omega
    · simp only [pure, Run.ok.injEq] at h
      subst h
      exact le_refl _

/-- The cache loop only appends. -/
theorem forwardCacheLoop_mono (s : DAGManager) (milestones : List Milestone)
    (min_height max_height length : Nat) : ∀ (fuel cursorHeight : Nat)
    (result r : List uint256),
    forwardCacheLoop s milestones min_height max_height length fuel cursorHeight result =
      Run.ok r →
    result.length ≤ r.length := by
  intro fuel
  induction fuel with
  | zero =>
    intro ch result r h
    simp only [forwardCacheLoop, pure, Run.ok.injEq] at h
    subst h
    exact le_refl _
  | succ n ih =>
    intro ch result r h
    rw [forwardCacheLoop] at h
    split at h
    · cases hg : milestones[subU64 ch min_height]? with
      | none => simp [hg, deref, bind, Run.bind] at h
      | some v =>
        simp only [hg, deref, bind, Run.bind] at h
        have := ih _ _ _ h
        simp only [List.length_append, List.length_singleton] at this
        omega
    · simp only [pure, Run.ok.injEq] at h
      subst h
      exact le_refl _

/-- A forward traversal that starts at a vertex of height 0 while the best head is above
height 0 (heights being `uint64_t` values) returns at least one hash. -/
theorem TraverseMilestoneForward_nonempty (s : DAGManager) (g : Vertex) (length H : Nat)
    (hashes : List uint256) (hg : g.height = 0)
    (hH : GetBestMilestoneHeight s = Run.ok H) (hpos : 1 ≤ H) (hlt : H < 2 ^ 64)
    (ht : TraverseMilestoneForward s (some g) length = Run.ok hashes) : hashes ≠ [] := by
  have hone : u64 (g.height + 1) = 1 := by rw [hg]; rfl
  have hu : u64 H = H := by unfold u64; exact Nat.mod_eq_of_lt hlt
  unfold GetBestMilestoneHeight at hH
  unfold TraverseMilestoneForward at ht
  cases hb : GetBestChain s with
  | ub t => simp [hb, bind, Run.bind] at ht
  | ok bestChain =>
    simp only [hb, deref, bind, Run.bind, hone] at ht hH
    cases h1 : forwardStoreLoop s length (length + 1) 1 [] with
    | ub t => simp [h1] at ht
    | ok r1 =>
      simp only [h1] at ht
      by_cases hr1 : r1.2 = []
      · -- the Store loop has pushed nothing: the head height of the Store is 0
        have hstore : u64 s.store.headHeight = 0 := by
          by_contra hne
          rw [forwardStoreLoop] at h1
          have hc : 1 ≤ u64 s.store.headHeight ∧ ([] : List uint256).length ≤ length :=
            ⟨by omega, by simp⟩
          rw [if_pos hc] at h1
          cases hgm : s.store.GetMilestoneAt 1 with
          | none => simp [hgm, deref, bind, Run.bind] at h1
          | some v =>
            simp only [hgm, deref, bind, Run.bind] at h1
            have := forwardStoreLoop_mono s length _ _ _ _ h1
            rw [hr1] at this
            simp at this
        have hr1' : r1.1 = 1 := by
          rw [forwardStoreLoop] at h1
          have hc : ¬ (1 ≤ u64 s.store.headHeight ∧ ([] : List uint256).length ≤ length) := by
            omega
          rw [if_neg hc] at h1
          simp only [pure, Run.ok.injEq] at h1
          rw [← h1]
        cases hms : bestChain.milestones with
        | nil =>
          simp only [Chain.GetChainHead, hms, List.getLast?_nil, pure, Run.ok.injEq] at hH
          rw [hH, hu] at hstore
          omega
        | cons m ms =>
          have hlast : ∃ back, (m :: ms).getLast? = some back := by
            cases hq : (m :: ms).getLast? with
            | none => simp at hq
            | some back => exact ⟨back, rfl⟩
          obtain ⟨back, hback⟩ := hlast
          simp only [Chain.GetChainHead, hms, hback, pure, Run.ok.injEq] at hH
          simp only [hms, List.head?_cons, hback, hr1', hr1] at ht
          rw [forwardCacheLoop] at ht
          have hc : 1 ≤ u64 back.height ∧ ([] : List uint256).length ≤ length := by
            rw [hH, hu]
            exact ⟨hpos, by simp⟩
          rw [if_pos hc] at ht
          cases hgm : (m :: ms)[subU64 1 m.height]? with
          | none => simp [hgm, deref, bind, Run.bind] at ht
          | some v =>
            simp only [hgm, deref, bind, Run.bind] at ht
            have := forwardCacheLoop_mono s _ _ _ length _ _ _ _ ht
            intro he
            rw [he] at this
            simp at this
      · have hlen : 0 < r1.2.length := List.length_pos.mpr hr1
        intro he
        split at ht
        · have h2 := forwardCacheLoop_mono s _ _ _ length _ _ _ _ ht
          rw [he] at h2
          simp only [List.length_nil] at h2
          omega
        · simp only [pure, Run.ok.injEq] at ht
          rw [ht] at hr1
          exact hr1 he

/-- The reply built from a non-empty traversal: one Inv with the part of the traversal after
the first occurrence of `lastSentInvHash`, else after the first occurrence of
`lastSentBundleHash`, else the whole traversal; `lastSentInvHash` becomes the last hash sent,
if any. -/
theorem replyInv_cut (env : Collab) (nonce : Nat) (peer : Peer) (hashes : List uint256)
    (hne : hashes ≠ []) :
    ∃ sent : List uint256,
      (replyInv env nonce peer (some hashes)).sent = peer.sent ++ [NetMessage.inv sent nonce] ∧
      (replyInv env nonce peer (some hashes)).lastSentInvHash =
        sent.getLast?.getD peer.lastSentInvHash ∧
      (replyInv env nonce peer (some hashes)).lastSentBundleHash = peer.lastSentBundleHash ∧
      (peer.lastSentInvHash ∈ hashes →
        ∃ pre, hashes = pre ++ peer.lastSentInvHash :: sent ∧ peer.lastSentInvHash ∉ pre) ∧
      (peer.lastSentInvHash ∉ hashes → peer.lastSentBundleHash ∈ hashes →
        ∃ pre, hashes = pre ++ peer.lastSentBundleHash :: sent ∧
          peer.lastSentBundleHash ∉ pre) ∧
      (peer.lastSentInvHash ∉ hashes → peer.lastSentBundleHash ∉ hashes → sent = hashes) := by
  have hemp : hashes.isEmpty = false := by
    cases hashes with
    | nil => exact absurd rfl hne
    | cons a as => rfl
  cases h1 : sublistAfter peer.lastSentInvHash hashes with
  | some sub =>
    obtain ⟨pre, hp1, hp2⟩ := sublistAfter_some _ _ _ h1
    have hin : peer.lastSentInvHash ∈ hashes := by rw [hp1]; simp
    refine ⟨sub, ?_, ?_, ?_, fun _ => ⟨pre, hp1, hp2⟩, fun hn => absurd hin hn,
      fun hn => absurd hin hn⟩
    · simp only [replyInv, hemp, h1]
      cases sub.getLast? <;> rfl
    · simp only [replyInv, hemp, h1]
      cases sub.getLast? <;> rfl
    · simp only [replyInv, hemp, h1]
      cases sub.getLast? <;> rfl
  | none =>
    have hnin : peer.lastSentInvHash ∉ hashes := (sublistAfter_none _ _).mp h1
    cases h2 : sublistAfter peer.lastSentBundleHash hashes with
    | some sub =>
      obtain ⟨pre, hp1, hp2⟩ := sublistAfter_some _ _ _ h2
      have hin : peer.lastSentBundleHash ∈ hashes := by rw [hp1]; simp
      refine ⟨sub, ?_, ?_, ?_, fun hi => absurd hi hnin, fun _ _ => ⟨pre, hp1, hp2⟩,
        fun _ hn => absurd hin hn⟩
      · simp only [replyInv, hemp, h1, h2]
        cases sub.getLast? <;> rfl
      · simp only [replyInv, hemp, h1, h2]
        cases sub.getLast? <;> rfl
      · simp only [replyInv, hemp, h1, h2]
        cases sub.getLast? <;> rfl
    | none =>
      have hnin2 : peer.lastSentBundleHash ∉ hashes := (sublistAfter_none _ _).mp h2
      refine ⟨hashes, ?_, ?_, ?_, fun hi => absurd hi hnin, fun _ hi => absurd hi hnin2,
        fun _ _ => rfl⟩
      · simp only [replyInv, hemp, h1, h2]
        cases hashes.getLast? <;> rfl
      · simp only [replyInv, hemp, h1, h2]
        cases hashes.getLast? <;> rfl
      · simp only [replyInv, hemp, h1, h2]
        cases hashes.getLast? <;> rfl

/-- The list sent for a non-empty traversal is a suffix of the traversal. -/
theorem replyInv_suffix (peer : Peer) (hashes sent : List uint256)
    (h1 : peer.lastSentInvHash ∈ hashes →
      ∃ pre, hashes = pre ++ peer.lastSentInvHash :: sent ∧ peer.lastSentInvHash ∉ pre)
    (h2 : peer.lastSentInvHash ∉ hashes → peer.lastSentBundleHash ∈ hashes →
      ∃ pre, hashes = pre ++ peer.lastSentBundleHash :: sent ∧ peer.lastSentBundleHash ∉ pre)
    (h3 : peer.lastSentInvHash ∉ hashes → peer.lastSentBundleHash ∉ hashes → sent = hashes) :
    sent <:+ hashes := by
  by_cases hi : peer.lastSentInvHash ∈ hashes
  · obtain ⟨pre, hp, _⟩ := h1 hi
    exact ⟨pre ++ [peer.lastSentInvHash], by rw [hp]; simp⟩
  · by_cases hb : peer.lastSentBundleHash ∈ hashes
    · obtain ⟨pre, hp, _⟩ := h2 hi hb
      exact ⟨pre ++ [peer.lastSentBundleHash], by rw [hp]; simp⟩
    · have he := h3 hi hb
      subst he
      exact List.suffix_refl _

/-- C22 (as the code has it). For a locator in which the entries before the genesis hash are
neither the best head nor a main-chain milestone, the genesis hash being a main-chain milestone
and the best head being above genesis, `RespondRequestInv` replies with the Inv built from the
forward traversal from the genesis vertex: that traversal is not empty, the hashes sent are a
suffix of it (all of it for a peer to which none of its hashes was sent before), and they are
not `[genesis]` unless the traversal itself holds the genesis hash. -/
theorem RespondRequestInv_genesis_intersection (env : Collab) (s : DAGManager)
    (pre post : List uint256) (nonce : Nat) (peer : Peer) (head g : Vertex) (b : Chain)
    (H : Nat) (hashes : List uint256)
    (hb : bestOf s.milestoneChains = some b) (hh : GetMilestoneHead s = Run.ok head)
    (hpre : ∀ x ∈ pre, x ≠ head.cblock.hash ∧ env.chainIsMilestone b s.store x = false)
    (hg1 : env.genesis.hash ≠ head.cblock.hash)
    (hg2 : env.chainIsMilestone b s.store env.genesis.hash = true)
    (hgv : GetMsVertex s env.genesis.hash = some g) (hg0 : g.height = 0)
    (hH : GetBestMilestoneHeight s = Run.ok H) (hpos : 1 ≤ H) (hlt : H < 2 ^ 64)
    (ht : TraverseMilestoneForward s (some g) env.kMaxInventorySize = Run.ok hashes) :
    hashes ≠ [] ∧
    ∃ (p : Peer) (sent : List uint256),
      RespondRequestInv env s (pre ++ env.genesis.hash :: post) nonce peer = Run.ok p ∧
      p.sent = peer.sent ++ [NetMessage.inv sent nonce] ∧
      sent <:+ hashes ∧
      (peer.lastSentInvHash ∉ hashes → peer.lastSentBundleHash ∉ hashes → sent = hashes) ∧
      (env.genesis.hash ∉ hashes → sent ≠ [env.genesis.hash]) := by
  have hne := TraverseMilestoneForward_nonempty s g env.kMaxInventorySize H hashes hg0 hH hpos
    hlt ht
  refine ⟨hne, ?_⟩
  obtain ⟨sent, c1, _, _, c4, c5, c6⟩ := replyInv_cut env nonce peer hashes hne
  have hsuf := replyInv_suffix peer hashes sent c4 c5 c6
  have hscan := scanLocator_first_milestone env s head b hb hh env.genesis.hash post hashes
    hg1 hg2 (by rw [hgv]; exact ht) pre hpre
  refine ⟨replyInv env nonce peer (some hashes), sent, ?_, c1, hsuf, c6, ?_⟩
  · simp only [RespondRequestInv, hscan, bind, Run.bind, pure]
  · intro hnot he
    apply hnot
    apply hsuf.subset
    rw [he]
    simp

/-- Instance of C22 in the locator scenario: the locator `[555, 100]`, of which 555 is unknown
and 100 is the genesis hash, while the best head 104 is at height 4. -/
theorem RespondRequestInv_genesis_intersection_witness :
    [101, 102, 103] ≠ [] ∧
    ∃ (p : Peer) (sent : List uint256),
      RespondRequestInv locEnv locManager ([555] ++ locEnv.genesis.hash :: [999]) 7 locPeer =
        Run.ok p ∧
      p.sent = locPeer.sent ++ [NetMessage.inv sent 7] ∧
      sent <:+ [101, 102, 103] ∧
      (locPeer.lastSentInvHash ∉ [101, 102, 103] →
        locPeer.lastSentBundleHash ∉ [101, 102, 103] → sent = [101, 102, 103]) ∧
      (locEnv.genesis.hash ∉ [101, 102, 103] → sent ≠ [locEnv.genesis.hash]) :=
  RespondRequestInv_genesis_intersection locEnv locManager [555] [999] 7 locPeer
    (locMilestone 4).GetMilestone (mkMilestone locGenesis 0 0).GetMilestone
    { ismainchain := true, milestones := [locMilestone 3, locMilestone 4],
      pendingBlocks := [], pendingUTXOs := [],
      vertexCache := [(locMilestone 3).GetMilestone, (locMilestone 4).GetMilestone] }
    4 [101, 102, 103]
    (by rfl) (by rfl) (by decide) (by decide) (by rfl) (by rfl) (by rfl) (by rfl)
    (by decide) (by decide) (by rfl)

/-- Counterexample to C22 as stated: in the locator scenario the only entry of the locator
`[555, 100]` that intersects the main chain is the genesis hash 100 and the best head 104 is
above genesis, yet the Inv sent holds the milestones above genesis, not `[genesis]`. -/
theorem RespondRequestInv_genesis_not_echoed :
    locEnv.genesis.hash = 100 ∧
    IsMainChainMS locEnv locManager 555 = Run.ok false ∧
    IsMainChainMS locEnv locManager 100 = Run.ok true ∧
    GetMilestoneHead locManager = Run.ok (locMilestone 4).GetMilestone ∧
    (locMilestone 4).GetMilestone.cblock.hash = 104 ∧
    GetBestMilestoneHeight locManager = Run.ok 4 ∧
    ∃ p, RespondRequestInv locEnv locManager [555, 100] 7 locPeer = Run.ok p ∧
      p.sent = [NetMessage.inv [101, 102, 103] 7] ∧
      p.sent ≠ [NetMessage.inv [100] 7] := by
  exact ⟨rfl, rfl, rfl, rfl, rfl, rfl, _, rfl, rfl, by decide⟩

/-- C23. When the forward traversal found by `RespondRequestInv` is not empty, one Inv is sent
whose hash list is a suffix of the traversal: the elements after the first occurrence of the
peer's `lastSentInvHash` if the traversal holds it; else the elements after the first
occurrence of the peer's `lastSentBundleHash` if the traversal holds that; else the whole
traversal.  The order is that of the traversal, and, the hashes of a traversal being distinct,
the hash after which the list was cut is not the first element sent.  (`lastSentInvHash`
becomes the last hash sent, if any.) -/
theorem RespondRequestInv_sends_suffix (env : Collab) (s : DAGManager) (locator : List uint256)
    (nonce : Nat) (peer : Peer) (hashes : List uint256)
    (hscan : scanLocator env s locator = Run.ok (some hashes)) (hne : hashes ≠ []) :
    ∃ (p : Peer) (sent : List uint256),
      RespondRequestInv env s locator nonce peer = Run.ok p ∧
      p.sent = peer.sent ++ [NetMessage.inv sent nonce] ∧
      sent <:+ hashes ∧
      (peer.lastSentInvHash ∈ hashes →
        ∃ pre, hashes = pre ++ peer.lastSentInvHash :: sent ∧ peer.lastSentInvHash ∉ pre) ∧
      (peer.lastSentInvHash ∉ hashes → peer.lastSentBundleHash ∈ hashes →
        ∃ pre, hashes = pre ++ peer.lastSentBundleHash :: sent ∧
          peer.lastSentBundleHash ∉ pre) ∧
      (peer.lastSentInvHash ∉ hashes → peer.lastSentBundleHash ∉ hashes → sent = hashes) ∧
      (hashes.Nodup →
        (peer.lastSentInvHash ∈ hashes → sent.head? ≠ some peer.lastSentInvHash) ∧
        (peer.lastSentInvHash ∉ hashes → sent.head? ≠ some peer.lastSentBundleHash)) ∧
      p.lastSentInvHash = sent.getLast?.getD peer.lastSentInvHash ∧
      p.lastSentBundleHash = peer.lastSentBundleHash := by
  obtain ⟨sent, c1, c2, c3, c4, c5, c6⟩ := replyInv_cut env nonce peer hashes hne
  have hsuf := replyInv_suffix peer hashes sent c4 c5 c6
  refine ⟨replyInv env nonce peer (some hashes), sent, ?_, c1, hsuf, c4, c5, c6, ?_, c2, c3⟩
  · simp only [RespondRequestInv, hscan, bind, Run.bind, pure]
  · intro hnd
    have key : ∀ (h : uint256) (pre : List uint256), hashes = pre ++ h :: sent →
        sent.head? ≠ some h := by
      intro h pre hp hhead
      rw [hp] at hnd
      have h1 := (List.nodup_append.mp hnd).2.1
      have h2 := (List.nodup_cons.mp h1).1
      exact h2 (List.mem_of_mem_head? hhead)
    refine ⟨fun hi => ?_, fun hi => ?_⟩
    · obtain ⟨pre, hp, _⟩ := c4 hi
      exact key _ pre hp
    · by_cases hb : peer.lastSentBundleHash ∈ hashes
      · obtain ⟨pre, hp, _⟩ := c5 hi hb
        exact key _ pre hp
      · intro hhead
        rw [c6 hi hb] at hhead
        exact hb (List.mem_of_mem_head? hhead)

/-- Instance of C23 in the locator scenario: the traversal from the milestone 101 is
`[102, 103, 104]`, and the peer was last sent the hash 102. -/
theorem RespondRequestInv_sends_suffix_witness :
    [102, 103, 104] ≠ [] ∧
    ∃ (p : Peer) (sent : List uint256),
      RespondRequestInv locEnv locManager [101] 7 servedPeer = Run.ok p ∧
      p.sent = servedPeer.sent ++ [NetMessage.inv sent 7] ∧
      sent <:+ [102, 103, 104] ∧
      (servedPeer.lastSentInvHash ∈ [102, 103, 104] →
        ∃ pre, [102, 103, 104] = pre ++ servedPeer.lastSentInvHash :: sent ∧
          servedPeer.lastSentInvHash ∉ pre) ∧
      (servedPeer.lastSentInvHash ∉ [102, 103, 104] →
        servedPeer.lastSentBundleHash ∈ [102, 103, 104] →
        ∃ pre, [102, 103, 104] = pre ++ servedPeer.lastSentBundleHash :: sent ∧
          servedPeer.lastSentBundleHash ∉ pre) ∧
      (servedPeer.lastSentInvHash ∉ [102, 103, 104] →
        servedPeer.lastSentBundleHash ∉ [102, 103, 104] → sent = [102, 103, 104]) ∧
      ([102, 103, 104].Nodup →
        (servedPeer.lastSentInvHash ∈ [102, 103, 104] →
          sent.head? ≠ some servedPeer.lastSentInvHash) ∧
        (servedPeer.lastSentInvHash ∉ [102, 103, 104] →
          sent.head? ≠ some servedPeer.lastSentBundleHash)) ∧
      p.lastSentInvHash = sent.getLast?.getD servedPeer.lastSentInvHash ∧
      p.lastSentBundleHash = servedPeer.lastSentBundleHash :=
  ⟨by decide,
   RespondRequestInv_sends_suffix locEnv locManager [101] 7 servedPeer [102, 103, 104]
     (by rfl) (by decide)⟩

/-- The replies of the locator scenario to the locator `[101]`: to the peer that was sent 102,
and to a peer that was sent nothing. -/
theorem inventory_scenario_trace :
    RespondRequestInv locEnv locManager [101] 7 servedPeer =
      Run.ok { lastSentInvHash := 104, lastSentBundleHash := 103,
               sent := [NetMessage.inv [103, 104] 7] } ∧
    RespondRequestInv locEnv locManager [101] 7 locPeer =
      Run.ok { lastSentInvHash := 104, lastSentBundleHash := 0,
               sent := [NetMessage.inv [102, 103, 104] 7] } ∧
    RespondRequestInv locEnv locManager [104] 7 locPeer =
      Run.ok { lastSentInvHash := 0, lastSentBundleHash := 0,
               sent := [NetMessage.inv [] 7] } := by
  refine ⟨?_, ?_, ?_⟩ <;> rfl

/-- Dropping later occurrences commutes with filtering. -/
theorem keepFirst_filter (p : uint256 → Bool) : ∀ l : List uint256,
    keepFirst (l.filter p) = (keepFirst l).filter p := by
  intro l
  induction l with
  | nil => rfl
  | cons a t ih =>
    by_cases hp : p a = true
    · simp only [List.filter_cons, hp, if_true, keepFirst, ih, List.filter_filter]
      congr 1
      apply List.filter_congr
      intro x _
      exact Bool.and_comm _ _
    · simp only [Bool.not_eq_true] at hp
      simp only [List.filter_cons, hp, keepFirst, List.filter_filter, Bool.false_eq_true,
        if_false]
      rw [ih]
      apply List.filter_congr
      intro x _
      by_cases hx : x = a
      · subst hx
        simp [hp]
      · simp [hx]

/-- An element stays exactly when it occurs. -/
theorem mem_keepFirst : ∀ (l : List uint256) (x : uint256), x ∈ keepFirst l ↔ x ∈ l := by
  intro l
  induction l with
  | nil => intro x; simp [keepFirst]
  | cons a t ih =>
    intro x
    simp only [keepFirst, List.mem_cons, List.mem_filter, ih, bne_iff_ne, ne_eq]
    constructor
    · rintro (h | ⟨h, _⟩)
      · exact Or.inl h
      · exact Or.inr h
    · intro h
      by_cases hx : x = a
      · exact Or.inl hx
      · rcases h with h | h
        · exact Or.inl h
        · exact Or.inr ⟨h, hx⟩

/-- No element is left twice. -/
theorem nodup_keepFirst : ∀ l : List uint256, (keepFirst l).Nodup := by
  intro l
  induction l with
  | nil => exact List.nodup_nil
  | cons a t ih =>
    simp only [keepFirst, List.nodup_cons, List.mem_filter, bne_iff_ne, ne_eq, not_and,
      not_not]
    exact ⟨fun _ => trivial, ih.filter _⟩

/-- What is left keeps the order of the list. -/
theorem keepFirst_sublist : ∀ l : List uint256, (keepFirst l).Sublist l := by
  intro l
  induction l with
  | nil => exact List.Sublist.refl _
  | cons a t ih =>
    simp only [keepFirst]
    exact List.Sublist.cons₂ a ((List.filter_sublist _).trans ih)

/-- The hashes that the loop does not skip are the hashes to request in the words of the
specification. -/
theorem requestedHashes_eq (store : BlockStore) : ∀ (requests downloading : List uint256),
    requestedHashes store requests downloading = newRequests downloading store requests := by
  intro requests
  induction requests with
  | nil => intro d; rfl
  | cons h t ih =>
    intro d
    by_cases hs : (d.contains h || store.DAGExists h) = true
    · simp only [requestedHashes, hs, if_true, newRequests, List.filter_cons, Bool.not_true,
        Bool.false_eq_true, if_false]
      exact ih d
    · simp only [Bool.not_eq_true] at hs
      simp only [requestedHashes, hs, Bool.false_eq_true, if_false, newRequests,
        List.filter_cons, Bool.not_false, if_true, keepFirst]
      congr 1
      rw [ih (d ++ [h]), newRequests, ← keepFirst_filter, List.filter_filter]
      congr 1
      apply List.filter_congr
      intro x _
      by_cases hx : x = h
      · subst hx
        simp
      · simp [hx, Bool.or_assoc, Bool.or_comm]

/-- Invariant of the loop of `RequestData`: the messages sent so far, followed by the message
being filled, hold the hashes not skipped, in order; every message sent is non-empty and has at
most `maxGetDataSize` hashes; the message being filled has fewer. -/
theorem requestDataLoop_spec (env : Collab) (store : BlockStore)
    (hmax : 1 ≤ env.maxGetDataSize) : ∀ (requests downloading message : List uint256)
    (peer : Peer), message.length < env.maxGetDataSize →
    ∃ msgs : List (List uint256),
      (requestDataLoop env store requests downloading message peer).2.2.sent =
        peer.sent ++ msgs.map NetMessage.getData ∧
      msgs.flatten ++ (requestDataLoop env store requests downloading message peer).2.1 =
        message ++ requestedHashes store requests downloading ∧
      (requestDataLoop env store requests downloading message peer).1 =
        downloading ++ requestedHashes store requests downloading ∧
      (requestDataLoop env store requests downloading message peer).2.2.getDataTasks =
        peer.getDataTasks ++ requestedHashes store requests downloading ∧
      (requestDataLoop env store requests downloading message peer).2.2.lastSentInvHash =
        peer.lastSentInvHash ∧
      (requestDataLoop env store requests downloading message peer).2.2.lastSentBundleHash =
        peer.lastSentBundleHash ∧
      (∀ m ∈ msgs, m ≠ [] ∧ m.length ≤ env.maxGetDataSize) ∧
      (requestDataLoop env store requests downloading message peer).2.1.length <
        env.maxGetDataSize := by
  intro requests
  induction requests with
  | nil =>
    intro d m p hm
    exact ⟨[], by simp [requestDataLoop], by simp [requestDataLoop, requestedHashes],
      by simp [requestDataLoop, requestedHashes], by simp [requestDataLoop, requestedHashes],
      rfl, rfl, by simp, hm⟩
  | cons h t ih =>
    intro d m p hm
    by_cases hs : (d.contains h || store.DAGExists h) = true
    · simp only [requestDataLoop, requestedHashes, hs, if_true]
      exact ih d m p hm
    · simp only [Bool.not_eq_true] at hs
      simp only [requestDataLoop, requestedHashes, hs, Bool.false_eq_true, if_false]
      by_cases hfull : env.maxGetDataSize ≤ (m ++ [h]).length
      · simp only [hfull, if_true]
        obtain ⟨msgs, h1, h2, h3, h4, h5, h6, h7, h8⟩ := ih (d ++ [h]) []
          ((p.AddPendingGetDataTask h).SendMessage (NetMessage.getData (m ++ [h])))
          (by simp; omega)
        refine ⟨(m ++ [h]) :: msgs, ?_, ?_, ?_, ?_, h5, h6, ?_, h8⟩
        · rw [h1]
          simp [Peer.SendMessage, Peer.AddPendingGetDataTask]
        · simp only [List.flatten_cons, List.append_assoc]
          rw [h2]
          simp
        · rw [h3]
          simp
        · rw [h4]
          simp [Peer.SendMessage, Peer.AddPendingGetDataTask]
        · intro x hx
          rcases List.mem_cons.mp hx with hx | hx
          · subst hx
            refine ⟨by simp, ?_⟩
            simp only [List.length_append, List.length_singleton]
            omega
          · exact h7 x hx
      · simp only [hfull, if_false]
        obtain ⟨msgs, h1, h2, h3, h4, h5, h6, h7, h8⟩ := ih (d ++ [h]) (m ++ [h])
          (p.AddPendingGetDataTask h) (by omega)
        refine ⟨msgs, ?_, ?_, ?_, ?_, h5, h6, h7, h8⟩
        · rw [h1]
          simp [Peer.AddPendingGetDataTask]
        · rw [h2]
          simp
        · rw [h3]
          simp
        · rw [h4]
          simp [Peer.AddPendingGetDataTask]

/-- C24. For `maxGetDataSize ≥ 1`, `RequestData` sends `GetData` messages whose hash lists,
concatenated in sending order, are the requested list without the hashes that were already in
`downloading_`, that exist in the DAG, or that occurred earlier in the list (each remaining
hash once, in the order of the request); every message sent is non-empty and holds at most
`maxGetDataSize` hashes; and afterwards `downloading_` is its old content plus exactly the
hashes sent.  The rest of the manager is left as it was. -/
theorem RequestData_batches (env : Collab) (s : DAGManager) (requests : List uint256)
    (requestFrom : Peer) (hmax : 1 ≤ env.maxGetDataSize) :
    ∃ msgs : List (List uint256),
      (RequestData env s requests requestFrom).2.sent =
        requestFrom.sent ++ msgs.map NetMessage.getData ∧
      msgs.flatten = newRequests s.downloading s.store requests ∧
      (∀ m ∈ msgs, m ≠ [] ∧ m.length ≤ env.maxGetDataSize) ∧
      (RequestData env s requests requestFrom).1.downloading = s.downloading ++ msgs.flatten ∧
      (∀ x, x ∈ (RequestData env s requests requestFrom).1.downloading ↔
        x ∈ s.downloading ∨ x ∈ msgs.flatten) ∧
      (∀ x, x ∈ msgs.flatten ↔
        x ∈ requests ∧ x ∉ s.downloading ∧ s.store.DAGExists x = false) ∧
      msgs.flatten.Nodup ∧ msgs.flatten.Sublist requests ∧
      (RequestData env s requests requestFrom).1.milestoneChains = s.milestoneChains ∧
      (RequestData env s requests requestFrom).1.msVertices = s.msVertices ∧
      (RequestData env s requests requestFrom).1.store = s.store ∧
      (RequestData env s requests requestFrom).1.log = s.log := by
  obtain ⟨msgs, h1, h2, h3, _, _, _, h7, h8⟩ :=
    requestDataLoop_spec env s.store hmax requests s.downloading [] requestFrom
      (by simp; omega)
  rw [requestedHashes_eq] at h2 h3
  simp only [List.nil_append] at h2
  have hmemW : ∀ x, x ∈ newRequests s.downloading s.store requests ↔
      x ∈ requests ∧ x ∉ s.downloading ∧ s.store.DAGExists x = false := by
    intro x
    simp only [newRequests, mem_keepFirst, List.mem_filter, Bool.not_eq_true',
      Bool.or_eq_false_iff, List.contains_eq_any_beq, List.any_eq_false, beq_iff_eq]
    constructor
    · rintro ⟨ha, hb, hc⟩
      exact ⟨ha, fun hx => hb x hx rfl, hc⟩
    · rintro ⟨ha, hb, hc⟩
      exact ⟨ha, fun y hy hxy => hb (hxy ▸ hy), hc⟩
  have hnd : (newRequests s.downloading s.store requests).Nodup := nodup_keepFirst _
  have hsub : (newRequests s.downloading s.store requests).Sublist requests :=
    (keepFirst_sublist _).trans (List.filter_sublist _)
  by_cases hem : (requestDataLoop env s.store requests s.downloading [] requestFrom).2.1 = []
  · have hfl : msgs.flatten = newRequests s.downloading s.store requests := by
      rw [← h2, hem, List.append_nil]
    refine ⟨msgs, ?_, hfl, h7, ?_, ?_, ?_, ?_, ?_, rfl, rfl, rfl, rfl⟩
    · simp only [RequestData, hem, List.isEmpty_nil, if_true]
      exact h1
    · simp only [RequestData]
      rw [h3, hfl]
    · intro x
      simp only [RequestData]
      rw [h3, hfl, List.mem_append]
    · intro x
      rw [hfl]
      exact hmemW x
    · rw [hfl]; exact hnd
    · rw [hfl]; exact hsub
  · have hfl : (msgs ++ [(requestDataLoop env s.store requests s.downloading []
        requestFrom).2.1]).flatten = newRequests s.downloading s.store requests := by
      rw [← h2]
      simp
    have hie : (requestDataLoop env s.store requests s.downloading []
        requestFrom).2.1.isEmpty = false := by
      cases hq : (requestDataLoop env s.store requests s.downloading [] requestFrom).2.1 with
      | nil => exact absurd hq hem
      | cons a as => rfl
    refine ⟨msgs ++ [(requestDataLoop env s.store requests s.downloading [] requestFrom).2.1],
      ?_, hfl, ?_, ?_, ?_, ?_, ?_, ?_, rfl, rfl, rfl, rfl⟩
    · simp only [RequestData, hie, Bool.false_eq_true, if_false, Peer.SendMessage]
      rw [h1]
      simp
    · intro m hm
      rcases List.mem_append.mp hm with hm | hm
      · exact h7 m hm
      · simp only [List.mem_singleton] at hm
        subst hm
        exact ⟨hem, by omega⟩
    · simp only [RequestData]
      rw [h3, hfl]
    · intro x
      simp only [RequestData]
      rw [h3, hfl, List.mem_append]
    · intro x
      rw [hfl]
      exact hmemW x
    · rw [hfl]; exact hnd
    · rw [hfl]; exact hsub

/-- Instance of C24 in the request scenario (`maxGetDataSize = 2`). -/
theorem RequestData_batches_witness :
    ∃ msgs : List (List uint256),
      (RequestData locEnv requestManager [106, 105, 107, 101, 106, 108] locPeer).2.sent =
        locPeer.sent ++ msgs.map NetMessage.getData ∧
      msgs.flatten =
        newRequests requestManager.downloading requestManager.store
          [106, 105, 107, 101, 106, 108] ∧
      (∀ m ∈ msgs, m ≠ [] ∧ m.length ≤ locEnv.maxGetDataSize) ∧
      (RequestData locEnv requestManager [106, 105, 107, 101, 106, 108] locPeer).1.downloading =
        requestManager.downloading ++ msgs.flatten ∧
      (∀ x, x ∈ (RequestData locEnv requestManager [106, 105, 107, 101, 106, 108]
          locPeer).1.downloading ↔
        x ∈ requestManager.downloading ∨ x ∈ msgs.flatten) ∧
      (∀ x, x ∈ msgs.flatten ↔
        x ∈ [106, 105, 107, 101, 106, 108] ∧ x ∉ requestManager.downloading ∧
          requestManager.store.DAGExists x = false) ∧
      msgs.flatten.Nodup ∧ msgs.flatten.Sublist [106, 105, 107, 101, 106, 108] ∧
      (RequestData locEnv requestManager [106, 105, 107, 101, 106, 108]
        locPeer).1.milestoneChains = requestManager.milestoneChains ∧
      (RequestData locEnv requestManager [106, 105, 107, 101, 106, 108] locPeer).1.msVertices =
        requestManager.msVertices ∧
      (RequestData locEnv requestManager [106, 105, 107, 101, 106, 108] locPeer).1.store =
        requestManager.store ∧
      (RequestData locEnv requestManager [106, 105, 107, 101, 106, 108] locPeer).1.log =
        requestManager.log :=
  RequestData_batches locEnv requestManager [106, 105, 107, 101, 106, 108] locPeer
    (by decide)

/-- The request scenario: 105 is being downloaded, 101 is in the DAG and 106 is requested
twice; two messages are sent. -/
theorem request_scenario_trace :
    (RequestData locEnv requestManager [106, 105, 107, 101, 106, 108] locPeer).2.sent =
      [NetMessage.getData [106, 107], NetMessage.getData [108]] ∧
    (RequestData locEnv requestManager [106, 105, 107, 101, 106, 108] locPeer).1.downloading =
      [105, 106, 107, 108] ∧
    newRequests requestManager.downloading requestManager.store
      [106, 105, 107, 101, 106, 108] = [106, 107, 108] := by
  refine ⟨?_, ?_, ?_⟩ <;> rfl

/-- The level-set scenario: the level set in memory and as serialized. -/
theorem level_set_scenario_trace :
    GetLevelSet demoEnv lvsManager 203 =
      Run.ok [mkBlock 201 200 200 200 500, mkBlock 202 200 201 200 500,
              mkBlock 203 200 202 201 0] ∧
    GetMainChainRawLevelSet demoEnv lvsManager 203 =
      Run.ok [mkBlock 203 200 202 201 0, mkBlock 201 200 200 200 500,
              mkBlock 202 200 201 200 500] := by
  refine ⟨?_, ?_⟩ <;> rfl

/-- C26 (as the code has it). `DAGManager::EnableOBC` can only switch the OBC on: after it the
OBC is enabled exactly when it was enabled before or the best head is less than
`obcEnableThreshold` seconds old.  It is switched on when `now − headTime < obcEnableThreshold`;
otherwise the whole manager, with the OBC flag, is left as it was, and an OBC that was enabled
stays enabled.  The blocks of the OBC, the cache and the durable part are not touched. -/
theorem EnableOBC_only_enables (env : Collab) (s r : DAGManager) (now : Int) (head : Vertex)
    (hh : GetMilestoneHead s = Run.ok head) (hr : EnableOBC env s now = Run.ok r) :
    r.store.obcEnabled =
      (s.store.obcEnabled || decide (now - (head.cblock.time : Int) < env.obcEnableThreshold)) ∧
    (now - (head.cblock.time : Int) < env.obcEnableThreshold → r.store.obcEnabled = true) ∧
    (¬ (now - (head.cblock.time : Int) < env.obcEnableThreshold) → r = s) ∧
    (s.store.obcEnabled = true → r.store.obcEnabled = true) ∧
    r.store.obc = s.store.obc ∧ r.store.blockCache = s.store.blockCache ∧
    r.store.db = s.store.db ∧ r.store.headHeight = s.store.headHeight ∧
    r.milestoneChains = s.milestoneChains ∧ r.msVertices = s.msVertices ∧ r.log = s.log := by
  unfold EnableOBC at hr
  simp only [hh, bind, Run.bind] at hr
  by_cases hc : now - (head.cblock.time : Int) < env.obcEnableThreshold
  · simp only [hc, if_true, pure, Run.ok.injEq] at hr
    subst hr
    simp [BlockStore.EnableOBC, hc]
  · simp only [hc, if_false, pure, Run.ok.injEq] at hr
    subst hr
    simp [hc]

/-- Instance of C26: the manager right after construction, whose head is genesis (time 0), at
the clock values 500 and 5000 with `obcEnableThreshold = 1000`. -/
theorem EnableOBC_only_enables_witness :
    ((EnableOBC demoEnv demoInit 500).state.store.obcEnabled =
      (demoInit.store.obcEnabled ||
        decide ((500 : Int) - (demoGenesisVertex.cblock.time : Int) <
          demoEnv.obcEnableThreshold)) ∧
    ((500 : Int) - (demoGenesisVertex.cblock.time : Int) < demoEnv.obcEnableThreshold →
      (EnableOBC demoEnv demoInit 500).state.store.obcEnabled = true) ∧
    (¬ ((500 : Int) - (demoGenesisVertex.cblock.time : Int) < demoEnv.obcEnableThreshold) →
      (EnableOBC demoEnv demoInit 500).state = demoInit) ∧
    (demoInit.store.obcEnabled = true →
      (EnableOBC demoEnv demoInit 500).state.store.obcEnabled = true) ∧
    (EnableOBC demoEnv demoInit 500).state.store.obc = demoInit.store.obc ∧
    (EnableOBC demoEnv demoInit 500).state.store.blockCache = demoInit.store.blockCache ∧
    (EnableOBC demoEnv demoInit 500).state.store.db = demoInit.store.db ∧
    (EnableOBC demoEnv demoInit 500).state.store.headHeight = demoInit.store.headHeight ∧
    (EnableOBC demoEnv demoInit 500).state.milestoneChains = demoInit.milestoneChains ∧
    (EnableOBC demoEnv demoInit 500).state.msVertices = demoInit.msVertices ∧
    (EnableOBC demoEnv demoInit 500).state.log = demoInit.log) :=
  EnableOBC_only_enables demoEnv demoInit (EnableOBC demoEnv demoInit 500).state 500
    demoGenesisVertex (by rfl) (by rfl)

/-- Counterexample to C26 as stated: the OBC is enabled and the best head (genesis, time 0) is
5000 seconds old, more than `obcEnableThreshold = 1000`; after `EnableOBC` the OBC is still
enabled, it has not been disabled. -/
theorem EnableOBC_never_disables :
    demoInit.store.obcEnabled = true ∧
    GetMilestoneHead demoInit = Run.ok demoGenesisVertex ∧
    demoGenesisVertex.cblock.time = 0 ∧ demoEnv.obcEnableThreshold = 1000 ∧
    ¬ ((5000 : Int) - (demoGenesisVertex.cblock.time : Int) < demoEnv.obcEnableThreshold) ∧
    ∃ r, EnableOBC demoEnv demoInit 5000 = Run.ok r ∧ r.store.obcEnabled = true := by
  refine ⟨rfl, rfl, rfl, rfl, by decide, demoInit, ?_, rfl⟩
  rfl

/-- The mask is not zero as soon as one parent is missing from the DAG. -/
theorem solidityMask_ne_zero (st : BlockStore) (blk : Block)
    (h : st.DAGExists blk.milestoneHash = false ∨ st.DAGExists blk.prevHash = false ∨
      st.DAGExists blk.tipHash = false) : solidityMask st blk ≠ 0 := by
  unfold solidityMask
  cases h1 : st.DAGExists blk.milestoneHash <;> cases h2 : st.DAGExists blk.prevHash <;>
    cases h3 : st.DAGExists blk.tipHash <;> simp [h1, h2, h3] at h ⊢

/-- A block with a parent in the OBC, or with a parent that is nowhere, misses a parent in the
DAG when no hash is both in the OBC and in the DAG. -/
theorem missing_parent (st : BlockStore) (blk : Block)
    (hdisj : ∀ h, st.OBCContains h = true → st.DAGExists h = false)
    (hb : (st.IsWeaklySolid blk = true ∧ st.AnyLinkIsOrphan blk = true) ∨
      st.IsWeaklySolid blk = false) :
    st.DAGExists blk.milestoneHash = false ∨ st.DAGExists blk.prevHash = false ∨
      st.DAGExists blk.tipHash = false := by
  rcases hb with ⟨_, ho⟩ | hw
  · unfold BlockStore.AnyLinkIsOrphan at ho
    simp only [Bool.or_eq_true] at ho
    rcases ho with (h1 | h2) | h3
    · exact Or.inl (hdisj _ h1)
    · exact Or.inr (Or.inl (hdisj _ h2))
    · exact Or.inr (Or.inr (hdisj _ h3))
  · unfold BlockStore.IsWeaklySolid BlockStore.Exists at hw
    simp only [Bool.and_eq_false_iff, Bool.or_eq_false_iff] at hw
    rcases hw with (h1 | h2) | h3
    · exact Or.inl h1.2
    · exact Or.inr (Or.inl h2.2)
    · exact Or.inr (Or.inr h3.2)

/-- `AddBlockToOBC` appends the block with its mask, or drops it while the OBC is disabled. -/
theorem AddBlockToOBC_obc (st : BlockStore) (b : Block) (mask : Nat) :
    (st.AddBlockToOBC b mask).obc = st.obc ∨
      (st.AddBlockToOBC b mask).obc = st.obc ++ [(b, mask)] := by
  unfold BlockStore.AddBlockToOBC
  split
  · exact Or.inr rfl
  · exact Or.inl rfl

/-- The orphans that stay in the container after a release have a non-zero mask. -/
theorem ReleaseBlocks_masks (st : BlockStore) (h : uint256) :
    ∀ e ∈ (st.ReleaseBlocks h).1.obc, e.2 ≠ 0 := by
  intro e he
  simp only [BlockStore.ReleaseBlocks, List.mem_filter, bne_iff_ne, ne_eq] at he
  exact he.2

/-- C28. Assuming no hash is both in the OBC and in the DAG, a block that `AddNewBlock` hands
to the OBC is handed over with a non-zero mask, in both branches (weakly solid with a parent in
the OBC, and not weakly solid): in these branches the mask is not zero and the store is left as
it was or is the old one after `AddBlockToOBC(blk, mask)`; and whatever branch is taken, every
entry of the OBC after the call that was not in it before has a non-zero mask. -/
theorem AddNewBlock_obc_mask_nonzero (env : Collab) (s r : DAGManager) (blk : Block)
    (peer : Option Nat) (now : Int)
    (hdisj : ∀ h, s.store.OBCContains h = true → s.store.DAGExists h = false)
    (hr : AddNewBlock env s blk peer now = Run.ok r) :
    (((s.store.IsWeaklySolid blk = true ∧ s.store.AnyLinkIsOrphan blk = true) ∨
        s.store.IsWeaklySolid blk = false) →
      solidityMask s.store blk ≠ 0 ∧
      (r.store = s.store ∨
        r.store = s.store.AddBlockToOBC blk (solidityMask s.store blk)) ∧
      (r.store.obc = s.store.obc ∨
        r.store.obc = s.store.obc ++ [(blk, solidityMask s.store blk)])) ∧
    (∀ e ∈ r.store.obc, e ∉ s.store.obc → e.2 ≠ 0) := by
  have hmask : ((s.store.IsWeaklySolid blk = true ∧ s.store.AnyLinkIsOrphan blk = true) ∨
      s.store.IsWeaklySolid blk = false) → solidityMask s.store blk ≠ 0 :=
    fun hb => solidityMask_ne_zero _ _ (missing_parent _ _ hdisj hb)
  -- the three shapes of the resulting store
  have hshape : r.store = s.store ∨
      (((s.store.IsWeaklySolid blk = true ∧ s.store.AnyLinkIsOrphan blk = true) ∨
          s.store.IsWeaklySolid blk = false) ∧
        r.store = s.store.AddBlockToOBC blk (solidityMask s.store blk)) ∨
      ((s.store.IsWeaklySolid blk = true ∧ s.store.AnyLinkIsOrphan blk = false) ∧
        ∃ st : BlockStore, r.store = (st.ReleaseBlocks blk.hash).1) := by
    unfold AddNewBlock at hr
    by_cases hg : blk = env.genesis
    · rw [if_pos hg] at hr; cases hr; exact Or.inl rfl
    rw [if_neg hg] at hr
    by_cases he : s.store.Exists blk.hash = true
    · rw [if_pos he] at hr; cases hr; exact Or.inl rfl
    rw [if_neg he] at hr
    by_cases hv : env.blockVerify blk = true
    swap
    · simp only [Bool.not_eq_true] at hv
      simp only [hv, Bool.not_false, if_true] at hr; cases hr; exact Or.inl rfl
    simp only [hv, Bool.not_true, Bool.false_eq_true, if_false] at hr
    by_cases hw : s.store.IsWeaklySolid blk = true
    swap
    · simp only [Bool.not_eq_true] at hw
      simp only [hw, Bool.false_and, Bool.false_eq_true, if_false, Bool.not_false,
        if_true] at hr
      cases hm : GetMsVertex s blk.milestoneHash with
      | none =>
        simp only [hm] at hr; cases hr
        exact Or.inr (Or.inl ⟨Or.inr hw, rfl⟩)
      | some ms =>
        simp only [hm] at hr
        cases hp : CheckPuntuality env s ms with
        | ub s1 => simp only [hp] at hr; cases hr
        | ok punctual =>
          simp only [hp] at hr
          cases punctual
          · simp only [Bool.not_false, if_true] at hr; cases hr; exact Or.inl rfl
          · simp only [Bool.not_true, Bool.false_eq_true, if_false] at hr; cases hr
            exact Or.inr (Or.inl ⟨Or.inr hw, rfl⟩)
    by_cases ho : s.store.AnyLinkIsOrphan blk = true
    · simp only [hw, ho, Bool.and_self, if_true] at hr; cases hr
      exact Or.inr (Or.inl ⟨Or.inl ⟨hw, ho⟩, rfl⟩)
    simp only [Bool.not_eq_true] at ho
    simp only [hw, ho, Bool.and_false, Bool.false_eq_true, if_false, Bool.not_true] at hr
    cases hm : GetMsVertex s blk.milestoneHash with
    | none => simp only [hm] at hr; cases hr; exact Or.inl rfl
    | some ms =>
      simp only [hm] at hr
      cases hsn : ms.snapshot with
      | none => simp only [hsn] at hr; cases hr
      | some snap =>
        simp only [hsn] at hr
        by_cases ht : (blk.diffTarget != env.getCompact snap.blockTarget) = true
        · rw [if_pos ht] at hr; cases hr; exact Or.inl rfl
        rw [if_neg ht] at hr
        cases hp : CheckPuntuality env s ms with
        | ub s1 => simp only [hp] at hr; cases hr
        | ok punctual =>
          simp only [hp] at hr
          cases punctual
          · simp only [Bool.not_false, if_true] at hr; cases hr; exact Or.inl rfl
          · simp only [Bool.not_true, Bool.false_eq_true, if_false] at hr
            split at hr
            · cases hr
            · rename_i s2 _
              simp only [pure, Run.ok.injEq] at hr
              subst hr
              exact Or.inr (Or.inr ⟨⟨hw, ho⟩, s2.store, rfl⟩)
  refine ⟨fun hb => ⟨hmask hb, ?_, ?_⟩, ?_⟩
  · rcases hshape with h1 | ⟨_, h2⟩ | ⟨⟨hw, ho⟩, _⟩
    · exact Or.inl h1
    · exact Or.inr h2
    · rcases hb with ⟨_, ho2⟩ | hw2
      · rw [ho] at ho2; cases ho2
      · rw [hw] at hw2; cases hw2
  · rcases hshape with h1 | ⟨_, h2⟩ | ⟨⟨hw, ho⟩, _⟩
    · exact Or.inl (by rw [h1])
    · rw [h2]
      exact AddBlockToOBC_obc _ _ _
    · rcases hb with ⟨_, ho2⟩ | hw2
      · rw [ho] at ho2; cases ho2
      · rw [hw] at hw2; cases hw2
  · intro e he hne
    rcases hshape with h1 | ⟨hb, h2⟩ | ⟨_, st, h3⟩
    · rw [h1] at he
      exact absurd he hne
    · rw [h2] at he
      rcases AddBlockToOBC_obc s.store blk (solidityMask s.store blk) with h4 | h4
      · rw [h4] at he
        exact absurd he hne
      · rw [h4] at he
        rcases List.mem_append.mp he with h5 | h5
        · exact absurd h5 hne
        · simp only [List.mem_singleton] at h5
          subst h5
          exact hmask hb
    · rw [h3] at he
      exact ReleaseBlocks_masks st blk.hash e he

/-- Instance of C28: a block with three unknown parents arrives at the manager right after
construction; it is not weakly solid and enters the OBC with the mask 7. -/
theorem AddNewBlock_obc_mask_nonzero_witness :
    (((demoInit.store.IsWeaklySolid strayBlock = true ∧
          demoInit.store.AnyLinkIsOrphan strayBlock = true) ∨
        demoInit.store.IsWeaklySolid strayBlock = false) →
      solidityMask demoInit.store strayBlock ≠ 0 ∧
      ((AddNewBlock demoEnv demoInit strayBlock none 0).state.store = demoInit.store ∨
        (AddNewBlock demoEnv demoInit strayBlock none 0).state.store =
          demoInit.store.AddBlockToOBC strayBlock (solidityMask demoInit.store strayBlock)) ∧
      ((AddNewBlock demoEnv demoInit strayBlock none 0).state.store.obc = demoInit.store.obc ∨
        (AddNewBlock demoEnv demoInit strayBlock none 0).state.store.obc =
          demoInit.store.obc ++ [(strayBlock, solidityMask demoInit.store strayBlock)])) ∧
    (∀ e ∈ (AddNewBlock demoEnv demoInit strayBlock none 0).state.store.obc,
      e ∉ demoInit.store.obc → e.2 ≠ 0) :=
  AddNewBlock_obc_mask_nonzero demoEnv demoInit
    (AddNewBlock demoEnv demoInit strayBlock none 0).state strayBlock none 0
    (by intro h hc; exact absurd hc (by simp [BlockStore.OBCContains, demoInit,
      DAGManager.init, demoStore]))
    (by rfl)

/-- The stray block of the concrete world enters the OBC with all three bits set. -/
theorem stray_scenario_trace :
    demoInit.store.IsWeaklySolid strayBlock = false ∧
    (AddNewBlock demoEnv demoInit strayBlock none 0).state.store.obc = [(strayBlock, 7)] := by
  refine ⟨?_, ?_⟩ <;> rfl

/-- C29 fails in the code. In the overrun scenario every chain holds at least one milestone:
the best chain holds six, of which the two oldest are stored, and the fork holds two.  With
`punctualityThred = 3` the loop visits the positions 0, 1, 2; the fork iterator is advanced
over the two stored milestones without comparison and is then at the end of the fork's deque,
and at position 2 the first unstored milestone is compared with what that iterator points at:
the read is past the end of the fork's deque, which holds no more than 2 milestones. -/
theorem FlushTrigger_reads_past_fork_end :
    (∀ c ∈ overrunManager.milestoneChains, 1 ≤ c.milestones.length) ∧
    bestOf overrunManager.milestoneChains = some overrunBest ∧
    overrunBest.milestones.length - demoEnv.punctualityThred = 3 ∧
    overrunFork.milestones.length = 2 ∧
    (overrunBest.milestones.take 2).map (fun m => m.ptr) = [80, 81] ∧
    overrunManager.storedMs = [81, 80] ∧
    overrunFork.milestones.tail.tail = [] ∧
    (overrunBest.milestones[2]?).map
      (fun cursor => forksAgree cursor [overrunFork.milestones.tail.tail]) = some none ∧
    FlushTrigger demoEnv overrunManager = Run.ub overrunManager := by
  refine ⟨by decide, rfl, rfl, rfl, rfl, rfl, rfl, rfl, rfl⟩

/-- The loop over the chains other than the best one, decided: when one of them holds a vertex
of the referenced milestone whose target the block meets, a successful run performs one
promotion, of the shape `GrowStep` or `ForkStep`; when none does, it leaves the manager as it
is. -/
theorem promoteOnForks_decided (env : Collab) (s : DAGManager) (block : Block)
    (r : DAGManager) :
    ∀ (cs : List Chain) (i : Nat),
      (∀ k c, cs.get? k = some c → s.milestoneChains.get? (i + k) = some c) →
      promoteOnForks env s block cs i = Run.ok r →
      (cs.any (forkCandidate block) = true ∧
        (GrowStep env s block r ∨ ForkStep env s block r)) ∨
      (cs.any (forkCandidate block) = false ∧ r = s) := by
  intro cs
  induction cs with
  | nil =>
    intro i _ h
    simp only [promoteOnForks, pure, Run.ok.injEq] at h
    exact Or.inr ⟨rfl, h.symm⟩
  | cons chain cs ih =>
    intro i hpos h
    have hrest : ∀ k c, cs.get? k = some c → s.milestoneChains.get? (i + 1 + k) = some c := by
      intro k c hk
      have := hpos (k + 1) c (by simpa using hk)
      rw [show i + 1 + k = i + (k + 1) by omega]
      exact this
    have hhere : s.milestoneChains.get? i = some chain := by
      simpa using hpos 0 chain rfl
    have hskip : forkCandidate block chain = false →
        promoteOnForks env s block cs (i + 1) = Run.ok r →
        ((chain :: cs).any (forkCandidate block) = true ∧
          (GrowStep env s block r ∨ ForkStep env s block r)) ∨
        ((chain :: cs).any (forkCandidate block) = false ∧ r = s) := by
      intro hf hl
      rw [List.any_cons, hf, Bool.false_or]
      exact ih (i + 1) hrest hl
    unfold promoteOnForks at h
    by_cases hm : chain.ismainchain = true
    · rw [if_pos hm] at h
      exact hskip (by simp [forkCandidate, hm]) h
    rw [if_neg hm] at h
    simp only [Bool.not_eq_true] at hm
    cases hc : chain.GetMsVertexCache block.milestoneHash with
    | none =>
      simp only [hc] at h
      exact hskip (by simp [forkCandidate, hc]) h
    | some msBlock =>
      simp only [hc] at h
      cases hsn : msBlock.snapshot with
      | none => simp only [hsn] at h; cases h
      | some ms =>
        simp only [hsn] at h
        by_cases hpow : CheckMsPOW block ms = true
        swap
        · rw [if_neg hpow] at h
          have hlt : ¬ block.proofHash ≤ ms.milestoneTarget := by
            rw [← CheckMsPOW_iff]; exact hpow
          exact hskip (by simp [forkCandidate, hc, meetsTargetOf, hsn, hlt]) h
        rw [if_pos hpow] at h
        have hle : block.proofHash ≤ ms.milestoneTarget := (CheckMsPOW_iff block ms).mp hpow
        have hcand : (chain :: cs).any (forkCandidate block) = true := by
          rw [List.any_cons]
          simp [forkCandidate, hc, meetsTargetOf, hsn, hle, hm]
        cases hh : chain.GetChainHead with
        | none => simp only [hh] at h; cases h
        | some head =>
          simp only [hh] at h
          by_cases heq : msBlock.cblock.hash = head.GetMilestoneHash
          · rw [if_pos heq] at h
            cases hpm : ProcessMilestone env s chain block with
            | ub s1 => simp only [hpm] at h; cases h
            | ok res =>
              obtain ⟨s1, chain1⟩ := res
              simp only [hpm, pure, Run.ok.injEq] at h
              exact Or.inl ⟨hcand, Or.inl ⟨i, chain, s1, chain1, hhere, hm, hpm, h.symm⟩⟩
          · rw [if_neg heq] at h
            cases hpm : ProcessMilestone env s (chain.fork env block) block with
            | ub s1 => simp only [hpm] at h; cases h
            | ok res =>
              obtain ⟨s1, f⟩ := res
              simp only [hpm, pure, Run.ok.injEq] at h
              exact Or.inl ⟨hcand, Or.inr ⟨chain, s1, f, List.get?_mem hhere, hpm, h.symm⟩⟩

/-- The promotion of `AddBlockToPending`, decided.  When the best chain's cache or the store has
a vertex of the referenced milestone, that vertex has a snapshot and the block is promoted
exactly when it meets the target of that snapshot: in place on the best chain (`BestStep`) when
the vertex is the one of the best head, on a fork of the best chain otherwise.  When neither
has one, the loop over the other chains decides. -/
theorem promote_decided (env : Collab) (s : DAGManager) (block : Block) (now : Int)
    (r : DAGManager) (b : Chain) (hb : bestOf s.milestoneChains = some b)
    (h : promote env s block now = Run.ok r) :
    (∀ v, mainMsBlock s b block.milestoneHash = some v →
      ∃ ms, v.snapshot = some ms ∧
        ((ms.milestoneTarget < block.proofHash ∧ r = s) ∨
         (block.proofHash ≤ ms.milestoneTarget ∧
          ∃ head, GetMilestoneHead s = Run.ok head ∧
            ((v.cblock = head.cblock ∧ BestStep env s block now r) ∨
             (v.cblock ≠ head.cblock ∧
              ∃ s1 f, ProcessMilestone env s (b.fork env block) block = Run.ok (s1, f) ∧
                r = { s1 with
                  milestoneChains := (emplace s1.milestoneChains f).1,
                  log := s1.log ++
                    [Event.onChainUpdated block (emplace s1.milestoneChains f).2] }))))) ∧
    (mainMsBlock s b block.milestoneHash = none →
      (s.milestoneChains.any (forkCandidate block) = true ∧
        (GrowStep env s block r ∨ ForkStep env s block r)) ∨
      (s.milestoneChains.any (forkCandidate block) = false ∧ r = s)) := by
  unfold promote GetBestChain at h
  simp only [hb, deref, bind, Run.bind] at h
  have hfound : ∀ msBlock : Vertex,
      (match some msBlock with
        | some msBlock =>
          (deref s msBlock.snapshot).bind fun ms =>
            if CheckMsPOW block ms = true then
              (GetMilestoneHead s).bind fun head =>
                if msBlock.cblock = head.cblock then
                  (deref s (bestIdx s.milestoneChains)).bind fun i =>
                    (ProcessMilestone env s b block).bind fun x =>
                      match x with
                      | (s1, chain1) =>
                        (EnableOBC env
                          { s1 with milestoneChains := s1.milestoneChains.set i chain1,
                                    log := s1.log ++ [Event.onChainUpdated block true] }
                          now).bind fun s3 =>
                            (DeleteFork env s3).bind fun s4 => FlushTrigger env s4
                else
                  (ProcessMilestone env s (b.fork env block) block).bind fun x =>
                    match x with
                    | (s1, new_fork) =>
                      pure
                        { s1 with milestoneChains := (emplace s1.milestoneChains new_fork).1,
                                  log := s1.log ++
                                    [Event.onChainUpdated block
                                      (emplace s1.milestoneChains new_fork).2] }
            else pure s
        | none => promoteOnForks env s block s.milestoneChains 0) = Run.ok r →
      ∃ ms, msBlock.snapshot = some ms ∧
        ((ms.milestoneTarget < block.proofHash ∧ r = s) ∨
         (block.proofHash ≤ ms.milestoneTarget ∧
          ∃ head, GetMilestoneHead s = Run.ok head ∧
            ((msBlock.cblock = head.cblock ∧ BestStep env s block now r) ∨
             (msBlock.cblock ≠ head.cblock ∧
              ∃ s1 f, ProcessMilestone env s (b.fork env block) block = Run.ok (s1, f) ∧
                r = { s1 with
                  milestoneChains := (emplace s1.milestoneChains f).1,
                  log := s1.log ++
                    [Event.onChainUpdated block (emplace s1.milestoneChains f).2] })))) := by
    intro msBlock h
    simp only [] at h
    cases hsn : msBlock.snapshot with
    | none => simp [hsn, deref, Run.bind] at h
    | some ms =>
      simp only [hsn, deref, Run.bind] at h
      refine ⟨ms, rfl, ?_⟩
      by_cases hpow : CheckMsPOW block ms = true
      swap
      · rw [if_neg hpow] at h
        left
        simp only [pure, Run.ok.injEq] at h
        have hlt : ¬ block.proofHash ≤ ms.milestoneTarget := by
          rw [← CheckMsPOW_iff]; exact hpow
        exact ⟨by omega, h.symm⟩
      rw [if_pos hpow] at h
      right
      refine ⟨(CheckMsPOW_iff block ms).mp hpow, ?_⟩
      cases hhd : GetMilestoneHead s with
      | ub s1 => simp only [hhd] at h; cases h
      | ok head =>
        simp only [hhd] at h
        refine ⟨head, rfl, ?_⟩
        by_cases heq : msBlock.cblock = head.cblock
        · rw [if_pos heq] at h
          left
          refine ⟨heq, ?_⟩
          cases hi : bestIdx s.milestoneChains with
          | none => simp only [hi] at h; cases h
          | some i =>
            simp only [hi] at h
            cases hpm : ProcessMilestone env s b block with
            | ub s1 => simp only [hpm] at h; cases h
            | ok res =>
              obtain ⟨s1, chain1⟩ := res
              simp only [hpm] at h
              cases he : EnableOBC env
                  { s1 with milestoneChains := s1.milestoneChains.set i chain1,
                            log := s1.log ++ [Event.onChainUpdated block true] } now with
              | ub s3 => simp only [he] at h; cases h
              | ok s3 =>
                simp only [he] at h
                cases hd : DeleteFork env s3 with
                | ub s4 => simp only [hd] at h; cases h
                | ok s4 =>
                  simp only [hd] at h
                  exact ⟨b, i, s1, chain1, s3, s4, hb, hi, hpm, he, hd, h⟩
        · rw [if_neg heq] at h
          right
          refine ⟨heq, ?_⟩
          cases hpm : ProcessMilestone env s (b.fork env block) block with
          | ub s1 => simp only [hpm] at h; cases h
          | ok res =>
            obtain ⟨s1, f⟩ := res
            simp only [hpm, pure, Run.ok.injEq] at h
            exact ⟨s1, f, rfl, h.symm⟩
  constructor
  · intro v hv
    unfold mainMsBlock at hv
    cases hc : b.GetMsVertexCache block.milestoneHash with
    | some w =>
      simp only [hc, Option.some.injEq] at hv
      subst hv
      simp only [hc] at h
      exact hfound w h
    | none =>
      simp only [hc] at hv
      simp only [hc, hv] at h
      exact hfound v h
  · intro hn
    unfold mainMsBlock at hn
    cases hc : b.GetMsVertexCache block.milestoneHash with
    | some w => simp [hc] at hn
    | none =>
      simp only [hc] at hn
      simp only [hc, hn] at h
      exact promoteOnForks_decided env s block r s.milestoneChains 0
        (by intro k c hk; simpa using hk) h

/-- The chain at the tracked best position carries the main-chain flag. -/
theorem bestIdx_flagged : ∀ (cs : List Chain) (i : Nat), bestIdx cs = some i →
    ∃ c, cs.get? i = some c ∧ c.ismainchain = true := by
  intro cs
  induction cs with
  | nil => intro i h; simp [bestIdx] at h
  | cons a cs ih =>
    intro i h
    by_cases ha : a.ismainchain = true
    · simp only [bestIdx, ha, if_true, Option.some.injEq] at h
      subst h
      exact ⟨a, rfl, ha⟩
    · simp only [Bool.not_eq_true] at ha
      simp only [bestIdx, ha, Bool.false_eq_true, if_false, Option.map_eq_some'] at h
      obtain ⟨j, hj, rfl⟩ := h
      obtain ⟨c, hc, hf⟩ := ih j hj
      exact ⟨c, by simpa using hc, hf⟩

/-- What a promotion in place on the best chain leaves behind: `ProcessMilestone` ran once on
the best chain, one notification with `isMain = true` followed, the only later calls are
storage tasks, and the chain that received the block is the tracked best chain. -/
theorem BestStep_notifies (env : Collab) (s : DAGManager) (block : Block) (now : Int)
    (r : DAGManager) (b : Chain) (hb : bestOf s.milestoneChains = some b)
    (hB : BestStep env s block now r) :
    ∃ s1 chain1 tasks i,
      ProcessMilestone env s b block = Run.ok (s1, chain1) ∧
      r.log = s.log ++ [Event.processMilestone block, Event.onChainUpdated block true] ++
        tasks ∧
      (∀ e ∈ tasks, ∃ m, e = Event.storageTask m) ∧
      r.milestoneChains.get? i = some chain1 ∧ chain1.ismainchain = true ∧
      bestIdx r.milestoneChains = some i := by
  obtain ⟨b1, i, s1, chain1, s3, s4, hb1, hi, hpm, he, hd, hf⟩ := hB
  rw [hb] at hb1
  cases hb1
  obtain ⟨p1, p2, p3, _, _⟩ := ProcessMilestone_chain env _ b block s1 chain1 hpm
  obtain ⟨e1, _, e3⟩ := EnableOBC_frame env _ now s3 he
  obtain ⟨d1, _, d3, _, _⟩ := DeleteFork_frame env s3 s4 hd
  obtain ⟨f1, _, _, tasks, f4, f5⟩ := FlushTrigger_frame env s4 r hf
  have hflag : chain1.ismainchain = true := by rw [p1]; exact bestOf_flag _ _ hb
  have hbest3 : bestOf s3.milestoneChains = some chain1 := by
    rw [e1]
    show bestOf (s1.milestoneChains.set i chain1) = some chain1
    rw [p2]
    exact (bestOf_set_bestIdx _ i chain1 hi hflag).1
  have hbestr : bestOf r.milestoneChains = some chain1 := by
    rw [f1, d3]; exact hbest3
  obtain ⟨j, hj1, hj2⟩ := bestIdx_of_bestOf _ _ hbestr
  refine ⟨s1, chain1, tasks, j, hpm, ?_, f5, hj2, hflag, hj1⟩
  rw [f4, d1, e3]
  show s1.log ++ [Event.onChainUpdated block true] ++ tasks = _
  rw [p3]
  simp

/-- What the insertion of a promoted fork leaves behind: one notification after the one run of
`ProcessMilestone`, with the answer of `emplace`, which is true exactly when the new head has
strictly more chainwork than the best head; the fork is at the back of the container with its
flag equal to the answer. -/
theorem fork_notifies (env : Collab) (s : DAGManager) (block : Block) (r : DAGManager)
    (b c : Chain) (s1 : DAGManager) (f : Chain) (hb : bestOf s.milestoneChains = some b)
    (hpm : ProcessMilestone env s (c.fork env block) block = Run.ok (s1, f))
    (hr : r = { s1 with
      milestoneChains := (emplace s1.milestoneChains f).1,
      log := s1.log ++ [Event.onChainUpdated block (emplace s1.milestoneChains f).2] }) :
    ∃ isMain,
      (r.milestoneChains, isMain) = emplace s.milestoneChains f ∧
      r.log = s.log ++ [Event.processMilestone block, Event.onChainUpdated block isMain] ∧
      r.milestoneChains.get? s.milestoneChains.length =
        some { f with ismainchain := isMain } ∧
      (isMain = true ↔ b.headWork < f.headWork) ∧
      (isMain = true ↔ bestIdx r.milestoneChains = some s.milestoneChains.length) ∧
      (isMain = false → bestOf r.milestoneChains = some b) := by
  obtain ⟨p1, p2, p3, _, _⟩ := ProcessMilestone_chain env _ (c.fork env block) block s1 f hpm
  have hf : f.ismainchain = false := by rw [p1]; rfl
  have hget : (s.milestoneChains ++ [f]).get? s.milestoneChains.length = some f := by
    simp [List.get?_eq_getElem?]
  have hbs : bestOf (s.milestoneChains ++ [f]) = some b := bestOf_append _ f b hb
  obtain ⟨u1, u2, u3, u4⟩ := update_best_spec _ _ f b hget hf hbs
  rw [p2] at hr
  subst hr
  have hfalse : (emplace s.milestoneChains f).2 = false →
      bestOf (emplace s.milestoneChains f).1 = some b := by
    intro hfalse
    unfold emplace
    unfold emplace at hfalse
    rw [u4 hfalse]
    exact hbs
  refine ⟨(emplace s.milestoneChains f).2, rfl, ?_, u2, u1, ⟨u3, ?_⟩, hfalse⟩
  · show s1.log ++ [Event.onChainUpdated block _] = _
    rw [p3]
    simp
  · intro hidx
    cases hv : (emplace s.milestoneChains f).2 with
    | true => rfl
    | false =>
      exfalso
      obtain ⟨x, hx1, hx2⟩ := bestIdx_flagged _ _ hidx
      have hx3 : (emplace s.milestoneChains f).1.get? s.milestoneChains.length =
          some { f with ismainchain := (emplace s.milestoneChains f).2 } := u2
      have hx4 : (emplace s.milestoneChains f).1.get? s.milestoneChains.length = some x := hx1
      rw [hx3, hv] at hx4
      cases hx4
      simp at hx2

/-- What a promotion on a chain other than the best one leaves behind, whether the chain grew
in place or a fork was inserted: `ProcessMilestone` ran once, one notification followed with
the answer of `update_best` / `emplace`, which is true exactly when the new head has strictly
more chainwork than the best head and exactly when the chain that received the block is the
tracked best chain afterwards; when it is false the best chain is the one it was. -/
theorem other_notifies (env : Collab) (s : DAGManager) (block : Block) (r : DAGManager)
    (b : Chain) (hb : bestOf s.milestoneChains = some b)
    (hstep : GrowStep env s block r ∨ ForkStep env s block r) :
    ∃ chain0 s1 chain1 isMain i,
      ProcessMilestone env s chain0 block = Run.ok (s1, chain1) ∧
      chain0.ismainchain = false ∧
      ((s.milestoneChains.get? i = some chain0 ∧
          (r.milestoneChains, isMain) = update_best (s.milestoneChains.set i chain1) i) ∨
       (∃ c ∈ s.milestoneChains, chain0 = c.fork env block ∧
          i = s.milestoneChains.length ∧
          (r.milestoneChains, isMain) = emplace s.milestoneChains chain1)) ∧
      r.log = s.log ++ [Event.processMilestone block, Event.onChainUpdated block isMain] ∧
      r.milestoneChains.get? i = some { chain1 with ismainchain := isMain } ∧
      (isMain = true ↔ b.headWork < chain1.headWork) ∧
      (isMain = true ↔ bestIdx r.milestoneChains = some i) ∧
      (isMain = false → bestOf r.milestoneChains = some b) := by
  rcases hstep with hG | hF
  · obtain ⟨i, c, s1, c1, hi, hc, hpm, hr⟩ := hG
    obtain ⟨p1, p2, p3, _, _⟩ := ProcessMilestone_chain env _ c block s1 c1 hpm
    have hc1 : c1.ismainchain = false := by rw [p1]; exact hc
    have hget : (s.milestoneChains.set i c1).get? i = some c1 := by
      have hlt : i < s.milestoneChains.length := by
        rw [List.get?_eq_some] at hi
        exact hi.1
      simp [List.get?_eq_getElem?, hlt]
    have hbs : bestOf (s.milestoneChains.set i c1) = some b := by
      rw [bestOf_set_other _ i c c1 hi hc hc1]
      exact hb
    obtain ⟨u1, u2, u3, u4⟩ := update_best_spec _ i c1 b hget hc1 hbs
    rw [p2] at hr
    subst hr
    refine ⟨c, s1, c1, (update_best (s.milestoneChains.set i c1) i).2, i, hpm, hc,
      Or.inl ⟨hi, rfl⟩, ?_, u2, u1, ⟨u3, ?_⟩, ?_⟩
    · show s1.log ++ [Event.onChainUpdated block _] = _
      rw [p3]
      simp
    · intro hidx
      cases hv : (update_best (s.milestoneChains.set i c1) i).2 with
      | true => rfl
      | false =>
        exfalso
        obtain ⟨x, hx1, hx2⟩ := bestIdx_flagged _ _ hidx
        have hx3 : (update_best (s.milestoneChains.set i c1) i).1.get? i =
            some { c1 with ismainchain := (update_best (s.milestoneChains.set i c1) i).2 } :=
          u2
        have hx4 : (update_best (s.milestoneChains.set i c1) i).1.get? i = some x := hx1
        rw [hx3, hv] at hx4
        cases hx4
        simp at hx2
    · intro hfalse
      show bestOf (update_best (s.milestoneChains.set i c1) i).1 = some b
      rw [u4 hfalse]
      exact hbs
  · obtain ⟨c, s1, f, hc, hpm, hr⟩ := hF
    obtain ⟨isMain, q1, q2, q3, q4, q5, q6⟩ := fork_notifies env s block r b c s1 f hb hpm hr
    exact ⟨c.fork env block, s1, f, isMain, s.milestoneChains.length, hpm, rfl,
      Or.inr ⟨c, hc, rfl, rfl, q1⟩, q2, q3, q4, q5, q6⟩

/-- The candidate test of the loop over the other chains is not changed by the pending loop. -/
theorem forkCandidate_addPendingOn (env : Collab) (block b : Block) (utxos : List UTXO)
    (c : Chain) : forkCandidate b (addPendingOn env block utxos c) = forkCandidate b c := by
  unfold forkCandidate
  rw [addPendingOn_cache, (addPendingOn_frame env block utxos c).1]

/-- The pending loop does not change whether a block is a milestone candidate. -/
theorem isMilestoneCandidate_afterPendingLoop (env : Collab) (s : DAGManager) (block b : Block) :
    isMilestoneCandidate (afterPendingLoop env s block) b = isMilestoneCandidate s b := by
  unfold isMilestoneCandidate afterPendingLoop addPendingOnEveryChain
  simp only []
  rw [bestOf_map _ (fun c => (addPendingOn_frame env block _ c).1)]
  cases hb : bestOf s.milestoneChains with
  | none => rfl
  | some c =>
    simp only [Option.map_some']
    have hm : mainMsBlock
        { s with milestoneChains :=
                   s.milestoneChains.map (addPendingOn env block (extractUTXOs block)),
                 log := s.log ++ [Event.addBlockToPending block] }
        (addPendingOn env block (extractUTXOs block) c) b.milestoneHash =
        mainMsBlock s c b.milestoneHash := by
      unfold mainMsBlock
      rw [addPendingOn_cache]
    rw [hm]
    cases mainMsBlock s c b.milestoneHash with
    | some v => rfl
    | none =>
      simp only [List.any_map]
      congr 1
      funext x
      exact forkCandidate_addPendingOn env block b _ x

/-- The promotion of `AddBlockToPending` happens exactly for a milestone candidate: for a
candidate a successful run calls `ProcessMilestone` once and then notifies once, the only later
calls being storage tasks; for any other block it leaves the manager as it is. -/
theorem promote_candidate (env : Collab) (s : DAGManager) (block : Block) (now : Int)
    (r : DAGManager) (h : promote env s block now = Run.ok r) :
    (isMilestoneCandidate s block = true ∧
      ∃ isMain tasks,
        r.log = s.log ++ [Event.processMilestone block, Event.onChainUpdated block isMain] ++
          tasks ∧
        (∀ e ∈ tasks, ∃ m, e = Event.storageTask m)) ∨
    (isMilestoneCandidate s block = false ∧ r = s) := by
  obtain ⟨b, hb⟩ := promote_ok_best env s block now r h
  obtain ⟨hm, hl⟩ := promote_decided env s block now r b hb h
  unfold isMilestoneCandidate
  simp only [hb]
  cases hv : mainMsBlock s b block.milestoneHash with
  | some v =>
    simp only []
    obtain ⟨ms, hs, hcase⟩ := hm v hv
    rcases hcase with ⟨hlt, hr⟩ | ⟨hle, head, _, hstep⟩
    · right
      refine ⟨?_, hr⟩
      have : ¬ block.proofHash ≤ ms.milestoneTarget := by omega
      simp [meetsTargetOf, hs, this]
    · left
      refine ⟨by simp [meetsTargetOf, hs, hle], ?_⟩
      rcases hstep with ⟨_, hB⟩ | ⟨_, s1, f, hpm, hr⟩
      · obtain ⟨_, _, tasks, _, _, q2, q3, _⟩ := BestStep_notifies env s block now r b hb hB
        exact ⟨true, tasks, q2, q3⟩
      · obtain ⟨isMain, _, q2, _⟩ := fork_notifies env s block r b b s1 f hb hpm hr
        exact ⟨isMain, [], by rw [q2]; simp, by simp⟩
  | none =>
    simp only []
    rcases hl hv with ⟨hc, hstep⟩ | ⟨hc, hr⟩
    · left
      refine ⟨hc, ?_⟩
      obtain ⟨_, _, _, isMain, _, _, _, _, q2, _⟩ := other_notifies env s block r b hb hstep
      exact ⟨isMain, [], by rw [q2]; simp, by simp⟩
    · exact Or.inr ⟨hc, hr⟩

/-- C8. The milestone test `CheckMsPOW` holds exactly when the proof hash is at most the
`milestoneTarget` of the snapshot (equality meets the target), and `AddBlockToPending` treats a
block as a milestone candidate exactly when the block meets the target of the snapshot of the
referenced milestone.  For a candidate, every successful run calls `ProcessMilestone` once and
notifies `OnChainUpdated` once, right after the pending loop.  For a block that is not a
candidate, the run only performs the pending loop: the chains are the ones the loop produced
(no chain inserted, no deque extended), `msVertices_` is untouched and the only call logged is
the entry of `AddBlockToPending` itself; and that run does succeed when the manager tracks a
best chain and every vertex of the referenced milestone that a chain cache or the store
provides has a snapshot whose target is missed. -/
theorem AddBlockToPending_candidate (env : Collab) (s : DAGManager) (block : Block)
    (now : Int) :
    (∀ m : Milestone, CheckMsPOW block m = true ↔ block.proofHash ≤ m.milestoneTarget) ∧
    (bestOf s.milestoneChains ≠ none →
      (∀ v, ((∃ c ∈ s.milestoneChains, c.GetMsVertexCache block.milestoneHash = some v) ∨
          s.store.GetVertex block.milestoneHash = some v) →
        ∃ snap, v.snapshot = some snap ∧ snap.milestoneTarget < block.proofHash) →
      isMilestoneCandidate s block = false ∧
      AddBlockToPending env s block now = Run.ok (afterPendingLoop env s block)) ∧
    (∀ r, AddBlockToPending env s block now = Run.ok r →
      (isMilestoneCandidate s block = true →
        ∃ isMain tasks,
          r.log = s.log ++ [Event.addBlockToPending block, Event.processMilestone block,
            Event.onChainUpdated block isMain] ++ tasks ∧
          (∀ e ∈ tasks, ∃ m, e = Event.storageTask m)) ∧
      (isMilestoneCandidate s block = false →
        r = afterPendingLoop env s block ∧
        r.milestoneChains.length = s.milestoneChains.length ∧
        r.milestoneChains.map (fun c => c.milestones) =
          s.milestoneChains.map (fun c => c.milestones) ∧
        r.msVertices = s.msVertices ∧
        r.log = s.log ++ [Event.addBlockToPending block] ∧
        Event.processMilestone block ∉ [Event.addBlockToPending block] ∧
        (∀ isMain, Event.onChainUpdated block isMain ∉ [Event.addBlockToPending block]))) := by
  have hdec : ∀ r, AddBlockToPending env s block now = Run.ok r →
      (isMilestoneCandidate s block = true ∧
        ∃ isMain tasks,
          r.log = s.log ++ [Event.addBlockToPending block, Event.processMilestone block,
            Event.onChainUpdated block isMain] ++ tasks ∧
          (∀ e ∈ tasks, ∃ m, e = Event.storageTask m)) ∨
      (isMilestoneCandidate s block = false ∧ r = afterPendingLoop env s block) := by
    intro r hr
    unfold AddBlockToPending at hr
    rcases promote_candidate env _ block now r hr with ⟨hc, isMain, tasks, hl, ht⟩ | ⟨hc, he⟩
    · left
      rw [isMilestoneCandidate_afterPendingLoop] at hc
      refine ⟨hc, isMain, tasks, ?_, ht⟩
      rw [hl]
      show s.log ++ [Event.addBlockToPending block] ++ _ ++ tasks = _
      simp
    · right
      rw [isMilestoneCandidate_afterPendingLoop] at hc
      exact ⟨hc, he⟩
  refine ⟨fun m => CheckMsPOW_iff block m, ?_, ?_⟩
  · intro hbest hno
    have hrun := (AddBlockToPending_missed_target env s block now hbest hno).2.1
    refine ⟨?_, hrun⟩
    rcases hdec _ hrun with ⟨_, isMain, tasks, hl, _⟩ | ⟨hc, _⟩
    · exfalso
      have h1 := congrArg List.length hl
      simp at h1
    · exact hc
  · intro r hr
    constructor
    · intro hc
      rcases hdec r hr with ⟨_, hx⟩ | ⟨hc2, _⟩
      · exact hx
      · rw [hc] at hc2; cases hc2
    · intro hc
      rcases hdec r hr with ⟨hc2, _⟩ | ⟨_, he⟩
      · rw [hc] at hc2; cases hc2
      · subst he
        refine ⟨rfl, by simp [afterPendingLoop, addPendingOnEveryChain], ?_, rfl, rfl, by simp,
          by simp⟩
        show (addPendingOnEveryChain env block s.milestoneChains).map _ = _
        unfold addPendingOnEveryChain
        rw [List.map_map]
        apply List.map_congr_left
        intro c _
        exact (addPendingOn_frame env block _ c).2.1

/-- Instance of C8: on the freshly constructed manager, the ordinary block 1 misses the
milestone target 100 with its proof hash 500 and only enters the pending sets, and the block 2
meets it with its proof hash 50 and is promoted: `ProcessMilestone` and one `OnChainUpdated`
follow the pending loop. -/
theorem AddBlockToPending_candidate_witness :
    (isMilestoneCandidate demoInit plainBlock = false ∧
      AddBlockToPending demoEnv demoInit plainBlock 0 =
        Run.ok (afterPendingLoop demoEnv demoInit plainBlock)) ∧
    (isMilestoneCandidate demoInit candidateBlock = true ∧
      ∃ isMain tasks,
        promotedManager.log = demoInit.log ++ [Event.addBlockToPending candidateBlock,
          Event.processMilestone candidateBlock,
          Event.onChainUpdated candidateBlock isMain] ++ tasks ∧
        (∀ e ∈ tasks, ∃ m, e = Event.storageTask m)) :=
  ⟨(AddBlockToPending_candidate demoEnv demoInit plainBlock 0).2.1 (by decide)
    (by
      intro v hv
      have hv2 : v = demoGenesisVertex := by
        rcases hv with ⟨c, hc, hv⟩ | hv
        · have hc2 : c = genesisChain demoEnv := List.mem_singleton.mp hc
          subst hc2
          have : some demoGenesisVertex = some v := hv
          exact (Option.some.inj this).symm
        · have : some demoGenesisVertex = some v := hv
          exact (Option.some.inj this).symm
      subst hv2
      exact ⟨mkMilestone demoGenesis 0 0, rfl, by decide⟩),
   ⟨by rfl, ((AddBlockToPending_candidate demoEnv demoInit candidateBlock 0).2.2
      promotedManager (by rfl)).1 (by rfl)⟩⟩

/-- C9. Every milestone promotion of a successful `AddBlockToPending` runs `ProcessMilestone`
once and then emits exactly one `OnChainUpdated(block, isMain)`, and which promotion happens is
decided by what the manager holds after the pending loop.  (1) When the best chain's cache or
the store has the referenced milestone, the block meets its target and the milestone is the
best head, the block extends the best chain in place: the notification carries `isMain = true`,
the only later calls are storage tasks of the flush, and the chain that received the block is
the tracked best chain afterwards.  (2) When the milestone is not the best head, a fork of the
best chain receives the block and `isMain` is the answer of `emplace`.  (3) When neither the
cache nor the store has the milestone and another chain holds it with its target met, that
chain or a fork of it receives the block and `isMain` is the answer of `update_best` /
`emplace`.  In (2) and (3) `isMain` is true exactly when the new head has strictly more
chainwork than the best head, and exactly when the chain that received the block is the tracked
best chain afterwards; when it is false the best chain is the one it was.  (4) No other
promotion exists: a successful run either leaves the manager as the pending loop left it or is
one of these, with exactly one notification. -/
theorem AddBlockToPending_notifies_once (env : Collab) (s : DAGManager) (block : Block)
    (now : Int) (r : DAGManager) (b : Chain)
    (hb : bestOf (afterPendingLoop env s block).milestoneChains = some b)
    (h : AddBlockToPending env s block now = Run.ok r) :
    (∀ v ms head,
      mainMsBlock (afterPendingLoop env s block) b block.milestoneHash = some v →
      v.snapshot = some ms → block.proofHash ≤ ms.milestoneTarget →
      GetMilestoneHead (afterPendingLoop env s block) = Run.ok head →
      v.cblock = head.cblock →
      ∃ s1 chain1 tasks i,
        ProcessMilestone env (afterPendingLoop env s block) b block = Run.ok (s1, chain1) ∧
        r.log = s.log ++ [Event.addBlockToPending block, Event.processMilestone block,
          Event.onChainUpdated block true] ++ tasks ∧
        (∀ e ∈ tasks, ∃ m, e = Event.storageTask m) ∧
        r.milestoneChains.get? i = some chain1 ∧ chain1.ismainchain = true ∧
        bestIdx r.milestoneChains = some i) ∧
    (∀ v ms head,
      mainMsBlock (afterPendingLoop env s block) b block.milestoneHash = some v →
      v.snapshot = some ms → block.proofHash ≤ ms.milestoneTarget →
      GetMilestoneHead (afterPendingLoop env s block) = Run.ok head →
      v.cblock ≠ head.cblock →
      ∃ s1 f isMain,
        ProcessMilestone env (afterPendingLoop env s block) (b.fork env block) block =
          Run.ok (s1, f) ∧
        (r.milestoneChains, isMain) =
          emplace (afterPendingLoop env s block).milestoneChains f ∧
        r.log = s.log ++ [Event.addBlockToPending block, Event.processMilestone block,
          Event.onChainUpdated block isMain] ∧
        r.milestoneChains.get? (afterPendingLoop env s block).milestoneChains.length =
          some { f with ismainchain := isMain } ∧
        (isMain = true ↔ b.headWork < f.headWork) ∧
        (isMain = true ↔ bestIdx r.milestoneChains =
          some (afterPendingLoop env s block).milestoneChains.length) ∧
        (isMain = false → bestOf r.milestoneChains = some b)) ∧
    (mainMsBlock (afterPendingLoop env s block) b block.milestoneHash = none →
      (afterPendingLoop env s block).milestoneChains.any (forkCandidate block) = true →
      ∃ chain0 s1 chain1 isMain i,
        ProcessMilestone env (afterPendingLoop env s block) chain0 block =
          Run.ok (s1, chain1) ∧
        chain0.ismainchain = false ∧
        (((afterPendingLoop env s block).milestoneChains.get? i = some chain0 ∧
            (r.milestoneChains, isMain) =
              update_best ((afterPendingLoop env s block).milestoneChains.set i chain1) i) ∨
         (∃ c ∈ (afterPendingLoop env s block).milestoneChains, chain0 = c.fork env block ∧
            i = (afterPendingLoop env s block).milestoneChains.length ∧
            (r.milestoneChains, isMain) =
              emplace (afterPendingLoop env s block).milestoneChains chain1)) ∧
        r.log = s.log ++ [Event.addBlockToPending block, Event.processMilestone block,
          Event.onChainUpdated block isMain] ∧
        r.milestoneChains.get? i = some { chain1 with ismainchain := isMain } ∧
        (isMain = true ↔ b.headWork < chain1.headWork) ∧
        (isMain = true ↔ bestIdx r.milestoneChains = some i) ∧
        (isMain = false → bestOf r.milestoneChains = some b)) ∧
    (r = afterPendingLoop env s block ∨
      ∃ chain0 s1 chain1 isMain tasks i,
        ProcessMilestone env (afterPendingLoop env s block) chain0 block =
          Run.ok (s1, chain1) ∧
        r.log = s.log ++ [Event.addBlockToPending block, Event.processMilestone block,
          Event.onChainUpdated block isMain] ++ tasks ∧
        (∀ e ∈ tasks, ∃ m, e = Event.storageTask m) ∧
        r.milestoneChains.get? i = some { chain1 with ismainchain := isMain } ∧
        (isMain = true → bestIdx r.milestoneChains = some i) ∧
        ((chain0 = b ∧ isMain = true) ∨
         (chain0.ismainchain = false ∧ tasks = [] ∧
           (isMain = true ↔ b.headWork < chain1.headWork) ∧
           (isMain = false → bestOf r.milestoneChains = some b)))) := by
  have hall := AddBlockToPending_promotion_shape env s block now r h
  unfold AddBlockToPending at h
  obtain ⟨hm, hl⟩ := promote_decided env _ block now r b hb h
  have hlog : ∀ (x : List Event),
      (afterPendingLoop env s block).log ++ x = s.log ++ (Event.addBlockToPending block :: x) := by
    intro x
    show s.log ++ [Event.addBlockToPending block] ++ x = _
    simp
  refine ⟨?_, ?_, ?_, ?_⟩
  · intro v ms head hv hs hle hh heq
    obtain ⟨ms1, hs1, hcase⟩ := hm v hv
    rw [hs] at hs1
    cases hs1
    rcases hcase with ⟨hlt, _⟩ | ⟨_, head1, hh1, hstep⟩
    · omega
    · rw [hh] at hh1
      cases hh1
      rcases hstep with ⟨_, hB⟩ | ⟨hne, _⟩
      · obtain ⟨s1, chain1, tasks, i, q1, q2, q3, q4, q5, q6⟩ :=
          BestStep_notifies env _ block now r b hb hB
        refine ⟨s1, chain1, tasks, i, q1, ?_, q3, q4, q5, q6⟩
        rw [q2, List.append_assoc, hlog]
        simp
      · exact absurd heq hne
  · intro v ms head hv hs hle hh hne
    obtain ⟨ms1, hs1, hcase⟩ := hm v hv
    rw [hs] at hs1
    cases hs1
    rcases hcase with ⟨hlt, _⟩ | ⟨_, head1, hh1, hstep⟩
    · omega
    · rw [hh] at hh1
      cases hh1
      rcases hstep with ⟨heq, _⟩ | ⟨_, s1, f, hpm, hr⟩
      · exact absurd heq hne
      · obtain ⟨isMain, q1, q2, q3, q4, q5, q6⟩ :=
          fork_notifies env _ block r b b s1 f hb hpm hr
        refine ⟨s1, f, isMain, hpm, q1, ?_, q3, q4, q5, q6⟩
        rw [q2, hlog]
  · intro hn hc
    rcases hl hn with ⟨_, hstep⟩ | ⟨hc2, _⟩
    · obtain ⟨chain0, s1, chain1, isMain, i, q1, q2, q3, q4, q5, q6, q7, q8⟩ :=
        other_notifies env _ block r b hb hstep
      refine ⟨chain0, s1, chain1, isMain, i, q1, q2, q3, ?_, q5, q6, q7, q8⟩
      rw [q4, hlog]
    · rw [hc] at hc2
      cases hc2
  · rcases hall with h0 | ⟨chain0, s1, chain1, isMain, tasks, i, b1, hb1, q1, q2, q3, q4, q5, q6⟩
    · exact Or.inl h0
    · rw [hb] at hb1
      cases hb1
      exact Or.inr ⟨chain0, s1, chain1, isMain, tasks, i, q1, q2, q3, q4, q5, q6⟩

/-- Instance of C9: on the freshly constructed manager the candidate block 2 refers to the
genesis milestone, which the best chain's cache holds and which is the best head; the run
notifies `OnChainUpdated(block, true)` once, right after `ProcessMilestone`. -/
theorem AddBlockToPending_notifies_once_witness :
    ∃ s1 chain1 tasks i,
      ProcessMilestone demoEnv (afterPendingLoop demoEnv demoInit candidateBlock)
        (addPendingOn demoEnv candidateBlock (extractUTXOs candidateBlock)
          (genesisChain demoEnv)) candidateBlock = Run.ok (s1, chain1) ∧
      promotedManager.log = demoInit.log ++ [Event.addBlockToPending candidateBlock,
        Event.processMilestone candidateBlock,
        Event.onChainUpdated candidateBlock true] ++ tasks ∧
      (∀ e ∈ tasks, ∃ m, e = Event.storageTask m) ∧
      promotedManager.milestoneChains.get? i = some chain1 ∧ chain1.ismainchain = true ∧
      bestIdx promotedManager.milestoneChains = some i :=
  (AddBlockToPending_notifies_once demoEnv demoInit candidateBlock 0 promotedManager
    (addPendingOn demoEnv candidateBlock (extractUTXOs candidateBlock) (genesisChain demoEnv))
    (by rfl) (by rfl)).1 demoGenesisVertex (mkMilestone demoGenesis 0 0) demoGenesisVertex
    (by rfl) (by rfl) (by decide) (by rfl) (by rfl)

/-- The run of the instance of C9, as values: the calls logged, in order, and the chain that
received the block. -/
theorem promoted_trace :
    promotedManager.log = [Event.addBlockToPending candidateBlock,
      Event.processMilestone candidateBlock, Event.onChainUpdated candidateBlock true] ∧
    promotedManager.milestoneChains.map
      (fun c => (c.ismainchain, c.milestones.map (fun m => m.GetMilestoneHash))) =
      [(true, [0, 2])] := by
  refine ⟨by rfl, by rfl⟩

/-! ## Keys removed from the milestone map by `DeleteFork` -/

/-- The overtaking scenario, as values: the chains and the keys of `msVertices_` before and
after `DeleteFork`. -/
theorem lag_scenario_trace :
    lagManager.milestoneChains = [lagChain, leadChain] ∧
    lagManager.msVertices.map (fun e => e.1) = [0, 1, 11, 12] ∧
    laggedManager.milestoneChains = [leadChain] ∧
    laggedManager.msVertices.map (fun e => e.1) = [0, 11, 12] := by
  refine ⟨by rfl, by rfl, by rfl, by rfl⟩

/-- The manager of the overtaking scenario is reached from the construction of the manager by
three runs of `AddNewBlock`. -/
theorem lag_scenario_reachable : Reachable shareEnv demoStore lagManager := by
  have h1 : Reachable shareEnv demoStore lagManager1 :=
    Reachable.addNewBlock _ lagManager1 lagA1 none 0 Reachable.init (by rfl)
  have h2 : Reachable shareEnv demoStore lagManager2 :=
    Reachable.addNewBlock lagManager1 lagManager2 leadB1 none 0 h1 (by rfl)
  exact Reachable.addNewBlock lagManager2 lagManager leadB2 none 0 h2 (by rfl)

end Epic
